import Mathlib

/-! # RSFS: a shallow embedding of `RSFS/api.c`

The file system state of the C program (the global arrays of `def.h`) is one
explicit record, `RSFS.State`; every API function of `api.c` becomes a function
from states to `Option` of a new state and a return value.  `none` stands for
an execution that leaves defined C behaviour: an array index out of bounds, a
`NULL` or dangling `dir_entry` pointer, a division by zero, a `memcpy` outside
its buffers.  Locks are not modelled: every function runs to completion on its
own.

C `int`s are `Int`s.  Positions and counts in `api.c` stay between 0 and the
requested size or `NUM_POINTER * BLOCK_SIZE`, far from the limits of `int`, so
no wrap-around is modelled; `/` and `%` are the truncating `Int.tdiv` and
`Int.tmod` of C.  The pointer an open file entry keeps to its directory entry
is the name of that entry (names are the key of the directory), resolved by
`search_dir` wherever the C code dereferences it.
-/

namespace RSFS

/-! ## Constants and data model (`def.h`) -/

/-- Compile-time constants of `def.h`.  The header is not among the sources, so
the constants are parameters of the whole development. -/
structure Consts where
  BLOCK_SIZE : Nat
  NUM_DBLOCKS : Nat
  NUM_INODES : Nat
  NUM_POINTER : Nat
  NUM_OPEN_FILE : Nat
  RSFS_RDONLY : Int
  RSFS_RDWR : Int
  RSFS_SEEK_SET : Int
  RSFS_SEEK_CUR : Int
  RSFS_SEEK_END : Int
deriving DecidableEq, Repr

/-- The record `struct inode`: a byte length and `NUM_POINTER` block numbers,
`-1` for a slot that is not bound. -/
structure inode where
  length : Int
  block : List Int
deriving DecidableEq, Repr

/-- The record `struct dir_entry`: a file name and the number of its inode. -/
structure dir_entry where
  name : String
  inode_number : Int
deriving DecidableEq, Repr

/-- The record `struct open_file_entry`.  The field `dir_entry` is the C pointer
to a directory entry: `none` is `NULL`, `some n` points to the entry named `n`. -/
structure open_file_entry where
  used : Int
  access_flag : Int
  position : Int
  dir_entry : Option String
deriving DecidableEq, Repr

/-- The global state: `data_blocks`, `data_bitmap`, `inode_bitmap`, `inodes`,
`open_file_table` and `root_dir`. -/
structure State where
  data_blocks : List (List Nat)
  data_bitmap : List Int
  inode_bitmap : List Int
  inodes : List inode
  open_file_table : List open_file_entry
  root_dir : List dir_entry
deriving DecidableEq, Repr

/-- Array read `a[i]` with a C `int` index; `none` when out of bounds. -/
def getI {α : Type} (l : List α) (i : Int) : Option α :=
  if 0 ≤ i then l[i.toNat]? else none

/-- Array write `a[i] = v` with a C `int` index; `none` when out of bounds. -/
def setI {α : Type} (l : List α) (i : Int) (v : α) : Option (List α) :=
  if 0 ≤ i ∧ i.toNat < l.length then some (l.set i.toNat v) else none

/-- The bytes `memcpy(dst, blk + off, n)` copies out of a block; `none` when the
range leaves the block. -/
def memread (blk : List Nat) (off n : Int) : Option (List Nat) :=
  if 0 ≤ off ∧ 0 ≤ n ∧ (off + n).toNat ≤ blk.length then
    some ((blk.drop off.toNat).take n.toNat)
  else none

/-- The block after `memcpy(blk + off, buf + src, n)`; `none` when a range
leaves the block or the caller's buffer. -/
def memwrite (blk : List Nat) (off : Int) (buf : List Nat) (src n : Int) :
    Option (List Nat) :=
  if 0 ≤ off ∧ 0 ≤ n ∧ 0 ≤ src ∧ (off + n).toNat ≤ blk.length ∧
      (src + n).toNat ≤ buf.length then
    some (blk.take off.toNat ++ (buf.drop src.toNat).take n.toNat ++
      blk.drop (off + n).toNat)
  else none

/-- An inode in its initial shape: length 0, every block slot `-1`. -/
def fresh_inode (c : Consts) : inode :=
  ⟨0, List.replicate c.NUM_POINTER (-1)⟩

/-- The array sizes `def.h` declares: every array has its declared number of
elements and every data block has `BLOCK_SIZE` bytes. -/
def wf (c : Consts) (s : State) : Prop :=
  s.data_blocks.length = c.NUM_DBLOCKS ∧
  (∀ b ∈ s.data_blocks, b.length = c.BLOCK_SIZE) ∧
  s.data_bitmap.length = c.NUM_DBLOCKS ∧
  s.inode_bitmap.length = c.NUM_INODES ∧
  s.inodes.length = c.NUM_INODES ∧
  (∀ n ∈ s.inodes, n.block.length = c.NUM_POINTER) ∧
  s.open_file_table.length = c.NUM_OPEN_FILE

instance (c : Consts) (s : State) : Decidable (wf c s) := by
  unfold wf; infer_instance

/-! ## Helpers that `api.c` calls and the sources do not contain -/

/-- Modelled from the spec: `search_dir` (absent from the sources), §4.3
`search(name)`: linear scan of the insertion-ordered sequence, exact comparison
of names, the match or none. -/
def search_dir (file_name : String) (dir : List dir_entry) : Option dir_entry :=
  dir.find? (fun e => e.name = file_name)

/-- Modelled from the spec: `insert_dir` (absent from the sources), §4.3
`insert(name)`: appends a new entry at the tail.  The spec does not say what
inode number the entry holds before `RSFS_create` binds one; the model puts the
sentinel `-1` there. -/
def insert_dir (file_name : String) (dir : List dir_entry) : List dir_entry :=
  dir ++ [⟨file_name, -1⟩]

/-- Modelled from the spec: `delete_dir` (absent from the sources), §4.3
`remove(name)`: detaches the entry of that name from the sequence.  The spec
requires the entry to exist; without one the sequence is left as it is. -/
def delete_dir (file_name : String) : List dir_entry → List dir_entry
  | [] => []
  | e :: rest => if e.name = file_name then rest else e :: delete_dir file_name rest

/-- The store `p->inode_number = n` through a pointer `p` to the directory
entry named `file_name`. -/
def bind_inode_number (file_name : String) (n : Int) : List dir_entry → List dir_entry
  | [] => []
  | e :: rest =>
    if e.name = file_name then { e with inode_number := n } :: rest
    else e :: bind_inode_number file_name n rest

/-- Modelled from the spec: the scan of `allocate_inode` (absent from the
sources), §4.2, from index `i` with `fuel` indices left. -/
def allocate_inode_loop (c : Consts) (s : State) : Nat → Nat → Option (State × Int)
  | 0, _ => some (s, -1)
  | fuel + 1, i =>
    match s.inode_bitmap[i]? with
    | none => none
    | some b =>
      if b = 0 then
        if i < s.inodes.length then
          some ({ s with inode_bitmap := s.inode_bitmap.set i 1,
                         inodes := s.inodes.set i (fresh_inode c) }, (i : Int))
        else none
      else allocate_inode_loop c s fuel (i + 1)

/-- Modelled from the spec: `allocate_inode` (absent from the sources), §4.2:
lowest-free-index-first scan and mark of the inode bitmap; initialises
`length = 0` and all block slots to unused; a negative result when no inode is
free. -/
def allocate_inode (c : Consts) (s : State) : Option (State × Int) :=
  allocate_inode_loop c s c.NUM_INODES 0

/-- Modelled from the spec: the scan of `allocate_data_block` (absent from the
sources), §4.1, from index `i` with `fuel` indices left. -/
def allocate_data_block_loop (s : State) : Nat → Nat → Option (State × Int)
  | 0, _ => some (s, -1)
  | fuel + 1, i =>
    match s.data_bitmap[i]? with
    | none => none
    | some b =>
      if b = 0 then some ({ s with data_bitmap := s.data_bitmap.set i 1 }, (i : Int))
      else allocate_data_block_loop s fuel (i + 1)

/-- Modelled from the spec: `allocate_data_block` (absent from the sources),
§4.1 `allocate_block()`: scans the bitmap for the lowest-indexed free block,
marks it used, returns its index; a negative result when no block is free. -/
def allocate_data_block (c : Consts) (s : State) : Option (State × Int) :=
  allocate_data_block_loop s c.NUM_DBLOCKS 0

/-- Modelled from the spec: `free_data_block` (absent from the sources), §4.1
`free_block(index)`: requires that the index is currently used and clears it;
freeing an index that is already free is a contract violation (`none`). -/
def free_data_block (s : State) (i : Int) : Option State :=
  match getI s.data_bitmap i with
  | none => none
  | some b =>
    if b = 0 then none
    else (setI s.data_bitmap i 0).map (fun bm => { s with data_bitmap := bm })

/-- Modelled from the spec: the cascade of `free_inode` (absent from the
sources), §4.2: every block slot that is not the sentinel goes back to the
block store via `free_block`. -/
def free_slots (s : State) : List Int → Option State
  | [] => some s
  | b :: rest =>
    if b = -1 then free_slots s rest
    else (free_data_block s b).bind (fun s1 => free_slots s1 rest)

/-- Modelled from the spec: `free_inode` (absent from the sources), §4.2
`free_inode(index)`: for every non-sentinel block slot returns that block via
`free_block`, then resets the inode to its initial state and clears its
bitmap bit. -/
def free_inode (c : Consts) (s : State) (i : Int) : Option State := do
  let ino ← getI s.inodes i
  let s1 ← free_slots s ino.block
  let bm ← setI s1.inode_bitmap i 0
  let ins ← setI s1.inodes i (fresh_inode c)
  some { s1 with inode_bitmap := bm, inodes := ins }

/-- Modelled from the spec: `free_open_file_entry` (absent from the sources),
§4.4 `release_slot(index)`: resets `access_mode`, `position` and the
directory-entry reference and marks the slot unused.  The reset values are the
ones `RSFS_init` names (`access_flag = -1`, `position = 0`). -/
def free_open_file_entry (s : State) (fd : Int) : Option State :=
  (setI s.open_file_table fd ⟨0, -1, 0, none⟩).map
    (fun t => { s with open_file_table := t })

/-! ## The API of `api.c` -/

/-- Static storage at program start, before `RSFS_init`: C zero-initialises the
global arrays, so every flag, length, position and block number is 0 and every
pointer is `NULL` (a data block that is `NULL` has no bytes). -/
def boot (c : Consts) : State :=
  { data_blocks := List.replicate c.NUM_DBLOCKS [],
    data_bitmap := List.replicate c.NUM_DBLOCKS 0,
    inode_bitmap := List.replicate c.NUM_INODES 0,
    inodes := List.replicate c.NUM_INODES ⟨0, List.replicate c.NUM_POINTER 0⟩,
    open_file_table := List.replicate c.NUM_OPEN_FILE ⟨0, 0, 0, none⟩,
    root_dir := [] }

/-- A buffer of `BLOCK_SIZE` bytes as `malloc` returns it, with whatever
content `bytes` the memory held. -/
def malloc_block (c : Consts) (bytes : List Nat) : List Nat :=
  (List.range c.BLOCK_SIZE).map (fun j => bytes.getD j 0)

/-- The loop `for(i=0; i<NUM_DBLOCKS; i++)` of `RSFS_init` over the data
blocks (lines 14-21).  `malloc i` is the outcome of the i-th call of `malloc`:
`none` for `NULL`.  The loop stops with `-1` at the first `NULL`. -/
def RSFS_init_blocks (c : Consts) (malloc : Nat → Option (List Nat)) :
    Nat → Nat → List (List Nat) → Option (List (List Nat) × Int)
  | 0, _, blocks => some (blocks, 0)
  | fuel + 1, i, blocks =>
    match malloc i with
    | none => some (blocks, -1)
    | some bytes =>
      if i < blocks.length then
        RSFS_init_blocks c malloc fuel (i + 1) (blocks.set i (malloc_block c bytes))
      else none

/-- The function `RSFS_init` (lines 11-56).  The loop over the open file table
(lines 39-45) assigns to a local copy `entry` of each element, so the table
itself keeps its content. -/
def RSFS_init (c : Consts) (malloc : Nat → Option (List Nat)) (s : State) :
    Option (State × Int) :=
  match RSFS_init_blocks c malloc c.NUM_DBLOCKS 0 s.data_blocks with
  | none => none
  | some (blocks, r) =>
    if r < 0 then some ({ s with data_blocks := blocks }, -1)
    else
      some ({ data_blocks := blocks,
              data_bitmap := List.replicate c.NUM_DBLOCKS 0,
              inode_bitmap := List.replicate c.NUM_INODES 0,
              inodes := List.replicate c.NUM_INODES (fresh_inode c),
              open_file_table := s.open_file_table,
              root_dir := [] }, 0)

/-- The function `RSFS_create` (lines 63-92). -/
def RSFS_create (c : Consts) (s : State) (file_name : String) : Option (State × Int) :=
  match search_dir file_name s.root_dir with
  | some _ => some (s, -1)
  | none =>
    let s1 := { s with root_dir := insert_dir file_name s.root_dir }
    match allocate_inode c s1 with
    | none => none
    | some (s2, inode_number) =>
      if inode_number < 0 then some (s2, -2)
      else
        some ({ s2 with root_dir :=
                  bind_inode_number file_name inode_number s2.root_dir }, 0)

/-- The loop of `RSFS_open` over the open file table (lines 113-126), from
index `i` with `fuel` indices left: the first entry with `used == 0` is marked
used and gets the access flag and the directory entry; `fd` stays `-1` when
there is none. -/
def RSFS_open_loop (access_flag : Int) (file_name : String)
    (tbl : List open_file_entry) : Nat → Nat → Option (List open_file_entry × Int)
  | 0, _ => some (tbl, -1)
  | fuel + 1, i =>
    match tbl[i]? with
    | none => none
    | some entry =>
      if entry.used = 0 then
        some (tbl.set i { entry with used := 1, access_flag := access_flag,
                                     dir_entry := some file_name }, (i : Int))
      else RSFS_open_loop access_flag file_name tbl fuel (i + 1)

/-- The function `RSFS_open` (lines 98-135). -/
def RSFS_open (c : Consts) (s : State) (file_name : String) (access_flag : Int) :
    Option (State × Int) :=
  if ¬ (access_flag = c.RSFS_RDONLY ∨ access_flag = c.RSFS_RDWR) then some (s, -1)
  else
    match search_dir file_name s.root_dir with
    | some d =>
      (RSFS_open_loop access_flag d.name s.open_file_table c.NUM_OPEN_FILE 0).map
        (fun r => ({ s with open_file_table := r.1 }, r.2))
    | none => some (s, -1)

/-- The `while` loop of `RSFS_read` (lines 167-180) on the inode `ino`.  `buf`
holds the bytes copied so far (`bytes_read` of them); the result is `buf`,
`bytes_read` and `currentPos` at loop exit.  Every iteration copies at least
one byte, so `fuel = size` iterations are enough. -/
def RSFS_read_loop (c : Consts) (ino : inode) (blocks : List (List Nat)) :
    Nat → List Nat → Int → Int → Int → Option (List Nat × Int × Int)
  | 0, buf, bytes_read, remainingBytes, currentPos =>
    if remainingBytes > 0 ∧ currentPos < ino.length then none
    else some (buf, bytes_read, currentPos)
  | fuel + 1, buf, bytes_read, remainingBytes, currentPos =>
    if remainingBytes > 0 ∧ currentPos < ino.length then
      if c.BLOCK_SIZE = 0 then none
      else
        let blockIndex := currentPos.tdiv c.BLOCK_SIZE
        let offsetInBlock := currentPos.tmod c.BLOCK_SIZE
        match getI ino.block blockIndex with
        | none => none
        | some blockNum =>
          let bytes_to_read_in_block := (c.BLOCK_SIZE : Int) - offsetInBlock
          let bytes_to_read :=
            if remainingBytes < bytes_to_read_in_block then remainingBytes
            else bytes_to_read_in_block
          match getI blocks blockNum with
          | none => none
          | some blk =>
            match memread blk offsetInBlock bytes_to_read with
            | none => none
            | some chunk =>
              RSFS_read_loop c ino blocks fuel (buf ++ chunk)
                (bytes_read + bytes_to_read) (remainingBytes - bytes_to_read)
                (currentPos + bytes_to_read)
    else some (buf, bytes_read, currentPos)

/-- The function `RSFS_read` (lines 143-191).  The result is the new state, the
bytes stored at `buf[0 .. bytes_read)` and the return value. -/
def RSFS_read (c : Consts) (s : State) (fd size : Int) :
    Option (State × List Nat × Int) :=
  if fd < 0 ∨ fd ≥ c.NUM_OPEN_FILE ∨ size ≤ 0 then some (s, [], -1)
  else do
    let entry ← getI s.open_file_table fd
    let file_name ← entry.dir_entry
    let d ← search_dir file_name s.root_dir
    let ino ← getI s.inodes d.inode_number
    let r ← RSFS_read_loop c ino s.data_blocks size.toNat [] 0 size entry.position
    let tbl ← setI s.open_file_table fd { entry with position := r.2.2 }
    some ({ s with open_file_table := tbl }, r.1, r.2.1)

/-- Lines 232-242 of `RSFS_write`: the block number bound to slot `blockIndex`
of inode `inum`, after binding a newly allocated block when the slot holds
`-1`.  The second component is `none` when `allocate_data_block` fails (the
`break` of line 237). -/
def resolve_block (c : Consts) (s : State) (inum blockIndex : Int) :
    Option (State × Option Int) := do
  let ino ← getI s.inodes inum
  let cur ← getI ino.block blockIndex
  if cur = -1 then
    let a ← allocate_data_block c s
    if a.2 < 0 then some (a.1, none)
    else
      let ino1 ← getI a.1.inodes inum
      let slots ← setI ino1.block blockIndex a.2
      let ins ← setI a.1.inodes inum { ino1 with block := slots }
      some ({ a.1 with inodes := ins }, some a.2)
  else some (s, some cur)

/-- The `while` loop of `RSFS_write` (lines 223-252) on inode number `inum`.
The result is the state, `bytesWritten` and `currentPos` at loop exit.  Every
iteration that does not `break` copies at least one byte, so `fuel = size`
iterations are enough. -/
def RSFS_write_loop (c : Consts) (inum : Int) (buf : List Nat) :
    Nat → State → Int → Int → Int → Option (State × Int × Int)
  | 0, s, bytesWritten, remainingBytes, currentPos =>
    if remainingBytes > 0 then none else some (s, bytesWritten, currentPos)
  | fuel + 1, s, bytesWritten, remainingBytes, currentPos =>
    if remainingBytes > 0 then
      if c.BLOCK_SIZE = 0 then none
      else
        let blockIndex := currentPos.tdiv c.BLOCK_SIZE
        let offsetInBlock := currentPos.tmod c.BLOCK_SIZE
        if blockIndex ≥ c.NUM_POINTER then some (s, bytesWritten, currentPos)
        else
          match resolve_block c s inum blockIndex with
          | none => none
          | some (s1, none) => some (s1, bytesWritten, currentPos)
          | some (s1, some blockNum) =>
            let blocksForBytesToWrite := (c.BLOCK_SIZE : Int) - offsetInBlock
            let bytesToWrite :=
              if remainingBytes < blocksForBytesToWrite then remainingBytes
              else blocksForBytesToWrite
            match getI s1.data_blocks blockNum with
            | none => none
            | some blk =>
              match memwrite blk offsetInBlock buf bytesWritten bytesToWrite with
              | none => none
              | some blk1 =>
                match setI s1.data_blocks blockNum blk1 with
                | none => none
                | some blocks =>
                  RSFS_write_loop c inum buf fuel { s1 with data_blocks := blocks }
                    (bytesWritten + bytesToWrite) (remainingBytes - bytesToWrite)
                    (currentPos + bytesToWrite)
    else some (s, bytesWritten, currentPos)

/-- The function `RSFS_write` (lines 197-266); `buf` is the caller's buffer. -/
def RSFS_write (c : Consts) (s : State) (fd : Int) (buf : List Nat) (size : Int) :
    Option (State × Int) :=
  if fd < 0 ∨ fd ≥ c.NUM_OPEN_FILE ∨ size ≤ 0 then some (s, -1)
  else do
    let entry ← getI s.open_file_table fd
    let file_name ← entry.dir_entry
    let d ← search_dir file_name s.root_dir
    let r ← RSFS_write_loop c d.inode_number buf size.toNat s 0 size entry.position
    let tbl ← setI r.1.open_file_table fd { entry with position := r.2.2 }
    let ino ← getI r.1.inodes d.inode_number
    let ins ←
      if r.2.2 > ino.length then
        setI r.1.inodes d.inode_number { ino with length := r.2.2 }
      else some r.1.inodes
    some ({ r.1 with open_file_table := tbl, inodes := ins }, r.2.1)

/-- The function `RSFS_fseek` (lines 273-325).  The local `position` is compared
with and computed from `dir_entry->inode_number`, and it is never stored back
into the entry: the state is returned as it was. -/
def RSFS_fseek (c : Consts) (s : State) (fd offset whence : Int) : Option (State × Int) :=
  if fd < 0 ∨ fd ≥ c.NUM_OPEN_FILE then some (s, -1)
  else if whence ≠ c.RSFS_SEEK_SET ∧ whence ≠ c.RSFS_SEEK_CUR ∧
      whence ≠ c.RSFS_SEEK_END then some (s, -1)
  else do
    let entry ← getI s.open_file_table fd
    let position := entry.position
    let file_name ← entry.dir_entry
    let d ← search_dir file_name s.root_dir
    if position < 0 ∨ position > d.inode_number then some (s, position)
    else
      let position := if whence = c.RSFS_SEEK_SET then offset else position
      let position := if whence = c.RSFS_SEEK_CUR then position + offset else position
      let position :=
        if whence = c.RSFS_SEEK_END then d.inode_number - position + offset
        else position
      some (s, position)

/-- The function `RSFS_close` (lines 329-341): the only test is `fd != -1`. -/
def RSFS_close (s : State) (fd : Int) : Option (State × Int) :=
  if fd ≠ -1 then (free_open_file_entry s fd).map (fun s1 => (s1, 0))
  else some (s, -1)

/-- The loop `for (i = 0; i < data_bitmap[NUM_DBLOCKS]; i++) free_data_block(i)`
of `RSFS_delete` (lines 354-357).  The bound is read one element past the end
of `data_bitmap`; `oob s` is the value found there in state `s`.  A call
`free_data_block(i)` with `i` past the bitmap is `none`, so `NUM_DBLOCKS + 1`
steps of fuel are enough. -/
def RSFS_delete_blocks (oob : State → Int) : Nat → Nat → State → Option State
  | 0, _, _ => none
  | fuel + 1, i, s =>
    if (i : Int) < oob s then
      (free_data_block s i).bind (RSFS_delete_blocks oob fuel (i + 1))
    else some s

/-- The loop `for (i = 0; i < inode_bitmap[NUM_INODES]; i++) free_inode(i)` of
`RSFS_delete` (lines 361-364), with the bound read past the end of
`inode_bitmap` as `oob s`. -/
def RSFS_delete_inodes (c : Consts) (oob : State → Int) : Nat → Nat → State → Option State
  | 0, _, _ => none
  | fuel + 1, i, s =>
    if (i : Int) < oob s then
      (free_inode c s i).bind (RSFS_delete_inodes c oob fuel (i + 1))
    else some s

/-- The loop of lines 367-370: `delete_dir(file_name)` is called
`NUM_OPEN_FILE` times. -/
def RSFS_delete_dir (file_name : String) : Nat → List dir_entry → List dir_entry
  | 0, dir => dir
  | n + 1, dir => RSFS_delete_dir file_name n (delete_dir file_name dir)

/-- The function `RSFS_delete` (lines 345-377).  `oob_data` and `oob_inode` give
the values the code reads at `data_bitmap[NUM_DBLOCKS]` and
`inode_bitmap[NUM_INODES]`, one past the end of either bitmap. -/
def RSFS_delete (c : Consts) (oob_data oob_inode : State → Int) (s : State)
    (file_name : String) : Option (State × Int) :=
  match search_dir file_name s.root_dir with
  | some _ => do
    let s1 ← RSFS_delete_blocks oob_data (c.NUM_DBLOCKS + 1) 0 s
    let s2 ← RSFS_delete_inodes c oob_inode (c.NUM_INODES + 1) 0 s1
    some ({ s2 with root_dir :=
              RSFS_delete_dir file_name c.NUM_OPEN_FILE s2.root_dir }, 0)
  | none => some (s, -1)

/-! ## Predicates of the specification -/

/-- Slot `j` of the inode `ino` is bound to a block that the data bitmap of `s`
marks used. -/
def slot_bound (s : State) (ino : inode) (j : Nat) : Prop :=
  ∃ b : Nat, ino.block[j]? = some (b : Int) ∧ s.data_bitmap[b]? = some 1

/-! ## Concrete configurations and states -/

/-- A small configuration: 4 data blocks of 4 bytes, 2 inodes with 3 block
slots each, 2 open file slots; `RSFS_RDONLY = 0`, `RSFS_RDWR = 1`,
`RSFS_SEEK_SET = 0`, `RSFS_SEEK_CUR = 1`, `RSFS_SEEK_END = 2`. -/
def tiny : Consts := ⟨4, 4, 2, 3, 2, 0, 1, 0, 1, 2⟩

/-- The five bytes of the string `hello`. -/
def hello : List Nat := [104, 101, 108, 108, 111]

/-- The state after `RSFS_init` at program start, with zeroed data blocks. -/
def st_init : State :=
  { data_blocks := [[0, 0, 0, 0], [0, 0, 0, 0], [0, 0, 0, 0], [0, 0, 0, 0]],
    data_bitmap := [0, 0, 0, 0],
    inode_bitmap := [0, 0],
    inodes := [⟨0, [-1, -1, -1]⟩, ⟨0, [-1, -1, -1]⟩],
    open_file_table := [⟨0, 0, 0, none⟩, ⟨0, 0, 0, none⟩],
    root_dir := [] }

/-- The state `st_init` after `RSFS_create("a.txt")`: the file has inode 0. -/
def st_a : State :=
  { st_init with inode_bitmap := [1, 0], root_dir := [⟨"a.txt", 0⟩] }

/-- The state `st_a` after `RSFS_open("a.txt", RSFS_RDWR)`: descriptor 0 at
position 0 on a file of length 0. -/
def st_open : State :=
  { st_a with open_file_table := [⟨1, 1, 0, some "a.txt"⟩, ⟨0, 0, 0, none⟩] }

/-- The state `st_open` after writing the 5 bytes of `hello` through descriptor
0: the file has length 5 in blocks 0 and 1, the descriptor is at position 5. -/
def st_hello : State :=
  { data_blocks := [[104, 101, 108, 108], [111, 0, 0, 0], [0, 0, 0, 0], [0, 0, 0, 0]],
    data_bitmap := [1, 1, 0, 0],
    inode_bitmap := [1, 0],
    inodes := [⟨5, [0, 1, -1]⟩, ⟨0, [-1, -1, -1]⟩],
    open_file_table := [⟨1, 1, 5, some "a.txt"⟩, ⟨0, 0, 0, none⟩],
    root_dir := [⟨"a.txt", 0⟩] }

/-- The state `st_hello` after `RSFS_open("a.txt", RSFS_RDONLY)`: a second
descriptor, 1, at position 0 on the file of length 5. -/
def st_hello2 : State :=
  { st_hello with
    open_file_table := [⟨1, 1, 5, some "a.txt"⟩, ⟨1, 0, 0, some "a.txt"⟩] }

/-- Two files: `a.txt` (inode 0, blocks 0 and 1, the bytes of `hello`) and
`b.txt` (inode 1, block 2, the bytes `hi`), each open once.  Reached from
`st_hello` by `RSFS_create("b.txt")`, `RSFS_open("b.txt", RSFS_RDWR)` and a
write of 2 bytes. -/
def st_ab : State :=
  { data_blocks := [[104, 101, 108, 108], [111, 0, 0, 0], [104, 105, 0, 0], [0, 0, 0, 0]],
    data_bitmap := [1, 1, 1, 0],
    inode_bitmap := [1, 1],
    inodes := [⟨5, [0, 1, -1]⟩, ⟨2, [2, -1, -1]⟩],
    open_file_table := [⟨1, 1, 5, some "a.txt"⟩, ⟨1, 1, 2, some "b.txt"⟩],
    root_dir := [⟨"a.txt", 0⟩, ⟨"b.txt", 1⟩] }

/-- The constants of the spec's third scenario: `NUM_POINTER = 10`,
`BLOCK_SIZE = 512`. -/
def spec3 : Consts := ⟨512, 16, 4, 10, 4, 0, 1, 0, 1, 2⟩

/-- A state for `spec3` with one empty file `a.txt` open at position 0 and all
16 data blocks free. -/
def st_spec3 : State :=
  { data_blocks := List.replicate 16 (List.replicate 512 0),
    data_bitmap := List.replicate 16 0,
    inode_bitmap := [1, 0, 0, 0],
    inodes := List.replicate 4 ⟨0, List.replicate 10 (-1)⟩,
    open_file_table := [⟨1, 1, 0, some "a.txt"⟩, ⟨0, 0, 0, none⟩, ⟨0, 0, 0, none⟩,
      ⟨0, 0, 0, none⟩],
    root_dir := [⟨"a.txt", 0⟩] }

/-- The state `st_open` after `RSFS_close(0)`: slot 0 is released. -/
def st_closed : State :=
  { st_a with open_file_table := [⟨0, -1, 0, none⟩, ⟨0, 0, 0, none⟩] }

/-- The state `s` with its open file table replaced by `t`. -/
def with_table (t : List open_file_entry) (s : State) : State :=
  { s with open_file_table := t }

/-- The state `s` with the access flag of slot `fd` replaced by `a`; every other
field of the slot and the rest of the state are those of `s`. -/
def set_access_flag (s : State) (fd : Nat) (a : Int) : State :=
  match s.open_file_table[fd]? with
  | some e => with_table (s.open_file_table.set fd { e with access_flag := a }) s
  | none => s

/-- The number of bytes one iteration of the loops of `RSFS_read` and
`RSFS_write` copies (lines 172-173 and 244-245): what is left of the request,
at most up to the end of the block. -/
def bytes_in_block (c : Consts) (remainingBytes currentPos : Int) : Int :=
  if remainingBytes < (c.BLOCK_SIZE : Int) - currentPos.tmod c.BLOCK_SIZE then remainingBytes
  else (c.BLOCK_SIZE : Int) - currentPos.tmod c.BLOCK_SIZE

/-- The configuration `tiny` with 2 block slots in an inode instead of 3: a
file holds at most 8 bytes. -/
def two_slots : Consts := ⟨4, 4, 2, 2, 2, 0, 1, 0, 1, 2⟩

/-- A state of `two_slots`: `a.txt` (inode 0) has length 5 in blocks 0 and 1;
descriptor 0 is at position 5 and descriptor 1, after a read of 10 bytes
from position 0, is at position 8. -/
def st_over : State :=
  { data_blocks := [[104, 101, 108, 108], [111, 0, 0, 0], [0, 0, 0, 0], [0, 0, 0, 0]],
    data_bitmap := [1, 1, 0, 0],
    inode_bitmap := [1, 0],
    inodes := [⟨5, [0, 1]⟩, ⟨0, [-1, -1]⟩],
    open_file_table := [⟨1, 1, 5, some "a.txt"⟩, ⟨1, 0, 8, some "a.txt"⟩],
    root_dir := [⟨"a.txt", 0⟩] }

/-- Slot `j` of inode `i` is bound to block `b`: it holds `b`, and `b` is not
the sentinel `-1`. -/
def holds (s : State) (i j : Nat) (b : Int) : Prop :=
  ∃ ino, s.inodes[i]? = some ino ∧ ino.block[j]? = some b ∧ b ≠ -1

/-- Block `b` is marked used in the data bitmap: its flag is not 0. -/
def block_used (s : State) (b : Int) : Prop :=
  0 ≤ b ∧ ∃ v, s.data_bitmap[b.toNat]? = some v ∧ v ≠ 0

/-- Block `b` is free in the data bitmap: its flag is 0. -/
def block_free (s : State) (b : Int) : Prop :=
  0 ≤ b ∧ s.data_bitmap[b.toNat]? = some 0

/-- Exclusive ownership of data blocks: every bound slot of every inode holds
an index below `NUM_DBLOCKS` that is marked used, and no block index occurs in
two slots, of the same or of different inodes. -/
def exclusive (c : Consts) (s : State) : Prop :=
  (∀ i j b, holds s i j b → b < c.NUM_DBLOCKS ∧ block_used s b) ∧
  (∀ i j i1 j1 b, holds s i j b → holds s i1 j1 b → i = i1 ∧ j = j1)

/-- The states reached with one call of `RSFS_init`, the one of program start:
the state that call returns with 0, and every state a defined call of
`RSFS_create`, `RSFS_open`, `RSFS_read`, `RSFS_write`, `RSFS_fseek` or
`RSFS_close` returns from such a state.  No second `RSFS_init` and no
`RSFS_delete` is among the calls; `Reachable` below has both. -/
inductive ReachableOnce (c : Consts) : State → Prop
  | init (malloc : Nat → Option (List Nat)) (s : State) :
      RSFS_init c malloc (boot c) = some (s, 0) → ReachableOnce c s
  | create (s s1 : State) (file_name : String) (r : Int) :
      ReachableOnce c s → RSFS_create c s file_name = some (s1, r) → ReachableOnce c s1
  | opened (s s1 : State) (file_name : String) (access_flag r : Int) :
      ReachableOnce c s → RSFS_open c s file_name access_flag = some (s1, r) → ReachableOnce c s1
  | read (s s1 : State) (fd size r : Int) (out : List Nat) :
      ReachableOnce c s → RSFS_read c s fd size = some (s1, out, r) → ReachableOnce c s1
  | write (s s1 : State) (fd size r : Int) (buf : List Nat) :
      ReachableOnce c s → RSFS_write c s fd buf size = some (s1, r) → ReachableOnce c s1
  | fseek (s s1 : State) (fd offset whence r : Int) :
      ReachableOnce c s → RSFS_fseek c s fd offset whence = some (s1, r) → ReachableOnce c s1
  | close (s s1 : State) (fd r : Int) :
      ReachableOnce c s → RSFS_close s fd = some (s1, r) → ReachableOnce c s1

/-- The shape of an inode: its length is at most `NUM_POINTER * BLOCK_SIZE`; its
bound slots form an initial segment of the slot array (below a bound slot
every slot is bound); and every byte offset below the length lies in a bound
slot. -/
def inode_shape (c : Consts) (ino : inode) : Prop :=
  ino.length ≤ (c.NUM_POINTER : Int) * c.BLOCK_SIZE ∧
  (∀ (i j : Nat) (b : Int), i < j → ino.block[j]? = some b → b ≠ -1 →
    ∃ b1, ino.block[i]? = some b1 ∧ b1 ≠ -1) ∧
  (∀ q : Nat, (q : Int) < ino.length →
    ∃ b, ino.block[q / c.BLOCK_SIZE]? = some b ∧ b ≠ -1)

/-- The inode `ino` has `NUM_POINTER` slots, of which exactly the first `f` are
bound. -/
def bound_upto (c : Consts) (ino : inode) (f : Nat) : Prop :=
  ino.block.length = c.NUM_POINTER ∧ f ≤ c.NUM_POINTER ∧
  (∀ j, j < f → ∃ b, ino.block[j]? = some b ∧ b ≠ -1) ∧
  (∀ j, f ≤ j → j < c.NUM_POINTER → ino.block[j]? = some (-1))

/-- Every descriptor of the table `T` whose directory entry, looked up in the
directory `R`, has inode number `i` is at a position within the first `f`
blocks of the file. -/
def cursors_within (c : Consts) (T : List open_file_entry) (R : List dir_entry)
    (i f : Nat) : Prop :=
  ∀ e ∈ T, ∀ (name : String) (d : dir_entry), e.dir_entry = some name →
    search_dir name R = some d → d.inode_number = (i : Int) →
    0 ≤ e.position ∧ e.position ≤ (f : Int) * c.BLOCK_SIZE

/-- Every inode has its first `f` slots bound, for some `f`, a length within
those `f` blocks, and all descriptors on it within those `f` blocks. -/
def shapes (c : Consts) (T : List open_file_entry) (R : List dir_entry)
    (inodes : List inode) : Prop :=
  ∀ (i : Nat) (ino : inode), inodes[i]? = some ino →
    ∃ f, bound_upto c ino f ∧ 0 ≤ ino.length ∧ ino.length ≤ (f : Int) * c.BLOCK_SIZE ∧
      cursors_within c T R i f

/-- The invariant of the states reached with one `RSFS_init`: the shape of the
inodes and the bounds of the descriptors on them; a slot that is not in use
has position 0 and no directory entry; the inode of a directory entry is not
free; the directory entry of a descriptor is in the directory. -/
def consistent (c : Consts) (s : State) : Prop :=
  shapes c s.open_file_table s.root_dir s.inodes ∧
  (∀ e ∈ s.open_file_table, e.used = 0 → e.position = 0 ∧ e.dir_entry = none) ∧
  (∀ d ∈ s.root_dir, ∀ i : Nat, d.inode_number = (i : Int) → s.inode_bitmap[i]? ≠ some 0) ∧
  (∀ e ∈ s.open_file_table, ∀ name : String, e.dir_entry = some name →
    search_dir name s.root_dir ≠ none)

/-- The number of bytes a file can hold whose inode has `f` bound slots while
the block store has `b` free blocks: `min(NUM_POINTER, f + b) * BLOCK_SIZE`. -/
def capacity (c : Consts) (f b : Nat) : Int :=
  ((min c.NUM_POINTER (f + b) : Nat) : Int) * c.BLOCK_SIZE

/-- Slot `j` of the inode `ino` is bound to a block of the store that is marked
used and starts with the `j`-th chunk of `BLOCK_SIZE` bytes of `d`. -/
def stored (c : Consts) (s : State) (ino : inode) (d : List Nat) (j : Nat) : Prop :=
  ∃ (b : Nat) (blk : List Nat), ino.block[j]? = some (b : Int) ∧
    s.data_bitmap[b]? = some 1 ∧ s.data_blocks[b]? = some blk ∧
    blk.length = c.BLOCK_SIZE ∧
    (d.drop (j * c.BLOCK_SIZE)).take c.BLOCK_SIZE <+: blk

/-- The state `st_a` with two descriptors on the empty file `a.txt`: 0 opened
with `RSFS_RDWR`, 1 with `RSFS_RDONLY`, both at position 0. -/
def st_open2 : State :=
  { st_a with open_file_table := [⟨1, 1, 0, some "a.txt"⟩, ⟨1, 0, 0, some "a.txt"⟩] }

/-- The states the program can be in: the state a call of `RSFS_init` returns
at program start, and every state a defined call of `RSFS_init` (again),
`RSFS_create`, `RSFS_open`, `RSFS_read`, `RSFS_write`, `RSFS_fseek`,
`RSFS_close` or `RSFS_delete` returns from such a state, whatever the
arguments and the return value.  `RSFS_stat` only reads the state. -/
inductive Reachable (c : Consts) : State → Prop
  | init (malloc : Nat → Option (List Nat)) (s : State) (r : Int) :
      RSFS_init c malloc (boot c) = some (s, r) → Reachable c s
  | again (malloc : Nat → Option (List Nat)) (s s1 : State) (r : Int) :
      Reachable c s → RSFS_init c malloc s = some (s1, r) → Reachable c s1
  | create (s s1 : State) (file_name : String) (r : Int) :
      Reachable c s → RSFS_create c s file_name = some (s1, r) → Reachable c s1
  | opened (s s1 : State) (file_name : String) (access_flag r : Int) :
      Reachable c s → RSFS_open c s file_name access_flag = some (s1, r) → Reachable c s1
  | read (s s1 : State) (fd size r : Int) (out : List Nat) :
      Reachable c s → RSFS_read c s fd size = some (s1, out, r) → Reachable c s1
  | write (s s1 : State) (fd size r : Int) (buf : List Nat) :
      Reachable c s → RSFS_write c s fd buf size = some (s1, r) → Reachable c s1
  | fseek (s s1 : State) (fd offset whence r : Int) :
      Reachable c s → RSFS_fseek c s fd offset whence = some (s1, r) → Reachable c s1
  | close (s s1 : State) (fd r : Int) :
      Reachable c s → RSFS_close s fd = some (s1, r) → Reachable c s1
  | delete (oob_data oob_inode : State → Int) (s s1 : State) (file_name : String) (r : Int) :
      Reachable c s → RSFS_delete c oob_data oob_inode s file_name = some (s1, r) →
      Reachable c s1

/-- Every slot of the open file table that is not in use has position 0 and no
directory entry. -/
def slots_reset (s : State) : Prop :=
  ∀ e ∈ s.open_file_table, e.used = 0 → e.position = 0 ∧ e.dir_entry = none

/-- The state `st_hello` after a second `RSFS_init`: blocks, bitmaps, inodes
and directory are reset, descriptor 0 is still in use at position 5. -/
def st_again : State :=
  { st_init with open_file_table := [⟨1, 1, 5, some "a.txt"⟩, ⟨0, 0, 0, none⟩] }

/-- The state `st_again` after `RSFS_create("a.txt")`: the file has inode 0. -/
def st_again_a : State :=
  { st_again with inode_bitmap := [1, 0], root_dir := [⟨"a.txt", 0⟩] }

/-- The state `st_again_a` after writing the byte 120 through descriptor 0, at
position 5: block 0 is bound to slot 1 of inode 0, slot 0 holds `-1`, the
length is 6. -/
def st_gap : State :=
  { data_blocks := [[0, 120, 0, 0], [0, 0, 0, 0], [0, 0, 0, 0], [0, 0, 0, 0]],
    data_bitmap := [1, 0, 0, 0],
    inode_bitmap := [1, 0],
    inodes := [⟨6, [-1, 0, -1]⟩, ⟨0, [-1, -1, -1]⟩],
    open_file_table := [⟨1, 1, 6, some "a.txt"⟩, ⟨0, 0, 0, none⟩],
    root_dir := [⟨"a.txt", 0⟩] }

/-- One call `RSFS_create(file_name)` of a thread, between two of its
statements.  `pc` counts the statements that have run, of the four the
function has on the path that returns 0: line 66 (`search_dir` and the test of
its result), line 76 (`insert_dir`), line 80 (`allocate_inode` and the test of
its result) and line 88 (the store of the inode number, followed by
`return 0`).  `inode_number` is the local variable of line 80; `result` is the
value the call has returned, `none` while it runs. -/
structure create_call where
  file_name : String
  pc : Nat
  inode_number : Int
  result : Option Int
deriving DecidableEq, Repr

/-- The call `RSFS_create(file_name)` before its first statement. -/
def create_start (file_name : String) : create_call :=
  ⟨file_name, 0, 0, none⟩

/-- The next statement of a call of `RSFS_create` (lines 63-92) on the shared
state, as one atomic step: `search_dir`, `insert_dir` and `allocate_inode` run
under the lock of their store (spec §4.2, §4.3, §5), and line 88 is one store
into the entry the call inserted.  `RSFS_create` itself takes no lock, so
steps of other threads can come between any two of the four.  A call that has
returned has no step. -/
def RSFS_create_step (c : Consts) (s : State) (t : create_call) :
    Option (State × create_call) :=
  match t.result with
  | some _ => none
  | none =>
    match t.pc with
    | 0 =>
      match search_dir t.file_name s.root_dir with
      | some _ => some (s, { t with pc := 1, result := some (-1) })
      | none => some (s, { t with pc := 1 })
    | 1 =>
      some ({ s with root_dir := insert_dir t.file_name s.root_dir }, { t with pc := 2 })
    | 2 =>
      match allocate_inode c s with
      | none => none
      | some (s1, inode_number) =>
        if inode_number < 0 then
          some (s1, { t with pc := 3, inode_number := inode_number, result := some (-2) })
        else some (s1, { t with pc := 3, inode_number := inode_number })
    | 3 =>
      some ({ s with root_dir :=
                bind_inode_number t.file_name t.inode_number s.root_dir },
        { t with pc := 4, result := some 0 })
    | _ => none

/-- One thread alone: the call takes steps until it has returned, at most
`fuel` of them. -/
def RSFS_create_run (c : Consts) : Nat → State → create_call → Option (State × create_call)
  | 0, s, t => some (s, t)
  | fuel + 1, s, t =>
    match t.result with
    | some _ => some (s, t)
    | none => (RSFS_create_step c s t).bind (fun r => RSFS_create_run c fuel r.1 r.2)

/-- Threads that each run one call of `RSFS_create`, under a schedule: the
schedule names, step by step, the thread that runs its next statement.
`none` when the schedule names no thread or a thread whose call has returned,
and when a step is undefined. -/
def RSFS_create_threads (c : Consts) :
    List Nat → State → List create_call → Option (State × List create_call)
  | [], s, ts => some (s, ts)
  | i :: sched, s, ts =>
    match ts[i]? with
    | none => none
    | some t =>
      match RSFS_create_step c s t with
      | none => none
      | some (s1, t1) => RSFS_create_threads c sched s1 (ts.set i t1)

/-- The invariant of threads `ts` that create files of pairwise distinct new
names, from the state `s0` on: the names the threads past line 76 have
inserted follow the directory of `s0`, each once; the inode numbers of the
threads past line 80 are pairwise distinct, were free in `s0` and are marked
used; a thread that has returned has returned 0 and its entry holds its inode
number; and there is a free inode for every thread that has not passed
line 80. -/
structure create_inv (c : Consts) (s0 s : State) (ts : List create_call) : Prop where
  bitmap_len : s.inode_bitmap.length = c.NUM_INODES
  inodes_len : s.inodes.length = c.NUM_INODES
  names : ∀ (i j : Nat) (ti tj : create_call), ts[i]? = some ti → ts[j]? = some tj →
    ti.file_name = tj.file_name → i = j
  fresh : ∀ t ∈ ts, ∀ e ∈ s0.root_dir, e.name ≠ t.file_name
  pcs : ∀ t ∈ ts, (t.pc < 4 → t.result = none) ∧ (4 ≤ t.pc → t.pc = 4 ∧ t.result = some 0)
  dir : ∃ new : List dir_entry, s.root_dir = s0.root_dir ++ new ∧
    (new.map (fun e => e.name)).Nodup ∧
    (∀ e ∈ new, ∃ (i : Nat) (t : create_call), ts[i]? = some t ∧ t.file_name = e.name ∧
      2 ≤ t.pc ∧ (t.pc = 4 → e.inode_number = t.inode_number)) ∧
    (∀ t ∈ ts, 2 ≤ t.pc → t.file_name ∈ new.map (fun e => e.name))
  alloc : ∀ t ∈ ts, 3 ≤ t.pc → ∃ k : Nat, t.inode_number = (k : Int) ∧
    s.inode_bitmap[k]? = some 1 ∧ s0.inode_bitmap[k]? = some 0
  distinct : ∀ (i j : Nat) (ti tj : create_call), ts[i]? = some ti → ts[j]? = some tj →
    3 ≤ ti.pc → 3 ≤ tj.pc → ti.inode_number = tj.inode_number → i = j
  zero_old : ∀ k : Nat, s.inode_bitmap[k]? = some 0 → s0.inode_bitmap[k]? = some 0
  free : ts.countP (fun t => decide (t.pc < 3)) ≤ s.inode_bitmap.count 0

/-! ## Arrays with `int` indices -/

theorem getI_natCast {α : Type} (l : List α) (i : Nat) : getI l (i : Int) = l[i]? := by
  simp [getI]

theorem setI_natCast {α : Type} (l : List α) (i : Nat) (v : α) (h : i < l.length) :
    setI l (i : Int) v = some (l.set i v) := by
  simp [setI, h]

theorem getI_eq_some {α : Type} {l : List α} {i : Int} {a : α} (h : getI l i = some a) :
    0 ≤ i ∧ i.toNat < l.length ∧ l[i.toNat]? = some a := by
  unfold getI at h
  split at h
  · next h0 =>
    refine ⟨h0, ?_, h⟩
    exact (List.getElem?_eq_some_iff.1 h).1
  · cases h

/-! ## The directory -/

theorem search_dir_name {file_name : String} {dir : List dir_entry} {d : dir_entry}
    (h : search_dir file_name dir = some d) : d.name = file_name := by
  have := List.find?_some h
  simpa using this

theorem search_dir_bind_inode_number (file_name : String) (n : Int) (dir : List dir_entry) :
    search_dir file_name (bind_inode_number file_name n dir) =
      (search_dir file_name dir).map (fun e => { e with inode_number := n }) := by
  induction dir with
  | nil => rfl
  | cons e rest ih =>
    by_cases h : e.name = file_name
    · simp [bind_inode_number, search_dir, h]
    · simp only [bind_inode_number, h, if_false]
      simp only [search_dir] at ih ⊢
      simp [List.find?_cons, h, ih]

theorem search_dir_insert_dir (file_name : String) (dir : List dir_entry)
    (h : search_dir file_name dir = none) :
    search_dir file_name (insert_dir file_name dir) = some ⟨file_name, -1⟩ := by
  unfold search_dir insert_dir at *
  simp [List.find?_append, h]

/-! ## The scans of the allocators and of `RSFS_open` -/

theorem allocate_inode_loop_found (c : Consts) (s : State) (j : Nat)
    (hj : s.inode_bitmap[j]? = some 0) (hlt : j < s.inodes.length) :
    ∀ fuel i, i ≤ j → j < i + fuel →
      (∀ k, i ≤ k → k < j → s.inode_bitmap[k]? ≠ some 0) →
      allocate_inode_loop c s fuel i =
        some ({ s with inode_bitmap := s.inode_bitmap.set j 1,
                       inodes := s.inodes.set j (fresh_inode c) }, (j : Int)) := by
  intro fuel
  induction fuel with
  | zero => intro i h1 h2; omega
  | succ fuel ih =>
    intro i h1 h2 hlow
    unfold allocate_inode_loop
    by_cases hij : i = j
    · subst hij
      simp [hj, hlt]
    · have hi : i < j := by omega
      have hjl : j < s.inode_bitmap.length := (List.getElem?_eq_some_iff.1 hj).1
      have hil : i < s.inode_bitmap.length := by omega
      have hne := hlow i (le_refl i) hi
      rw [List.getElem?_eq_getElem hil] at hne ⊢
      have hb : s.inode_bitmap[i] ≠ 0 := fun h0 => hne (by rw [h0])
      simp only [hb, if_false]
      exact ih (i + 1) (by omega) (by omega) (fun k hk1 hk2 => hlow k (by omega) hk2)

theorem allocate_inode_loop_full (c : Consts) (s : State) :
    ∀ fuel i, i + fuel ≤ s.inode_bitmap.length →
      (∀ k, i ≤ k → k < i + fuel → s.inode_bitmap[k]? ≠ some 0) →
      allocate_inode_loop c s fuel i = some (s, -1) := by
  intro fuel
  induction fuel with
  | zero => intro i _ _; rfl
  | succ fuel ih =>
    intro i hlen hfull
    unfold allocate_inode_loop
    have hil : i < s.inode_bitmap.length := by omega
    have hne := hfull i (le_refl i) (by omega)
    rw [List.getElem?_eq_getElem hil] at hne ⊢
    have hb : s.inode_bitmap[i] ≠ 0 := fun h0 => hne (by rw [h0])
    simp only [hb, if_false]
    exact ih (i + 1) (by omega) (fun k hk1 hk2 => hfull k (by omega) (by omega))

theorem RSFS_open_loop_found (access_flag : Int) (file_name : String)
    (tbl : List open_file_entry) (j : Nat) (e : open_file_entry)
    (hj : tbl[j]? = some e) (hu : e.used = 0) :
    ∀ fuel i, i ≤ j → j < i + fuel →
      (∀ k, i ≤ k → k < j → ∀ e1, tbl[k]? = some e1 → e1.used ≠ 0) →
      RSFS_open_loop access_flag file_name tbl fuel i =
        some (tbl.set j { e with used := 1, access_flag := access_flag,
                                 dir_entry := some file_name }, (j : Int)) := by
  intro fuel
  induction fuel with
  | zero => intro i h1 h2; omega
  | succ fuel ih =>
    intro i h1 h2 hlow
    unfold RSFS_open_loop
    by_cases hij : i = j
    · subst hij
      simp [hj, hu]
    · have hi : i < j := by omega
      have hjl : j < tbl.length := (List.getElem?_eq_some_iff.1 hj).1
      have hil : i < tbl.length := by omega
      have hne := hlow i (le_refl i) hi _ (List.getElem?_eq_getElem hil)
      rw [List.getElem?_eq_getElem hil]
      simp only [hne, if_false]
      exact ih (i + 1) (by omega) (by omega) (fun k hk1 hk2 => hlow k (by omega) hk2)

/-! ## The states of the scenarios are reached through the API -/

/-- The states `st_init`, `st_a`, `st_open`, `st_hello`, `st_hello2` and `st_ab`
are the results of the API calls their descriptions name, starting from the
program start `boot tiny`. -/
theorem scenario_states :
    RSFS_init tiny (fun _ => some []) (boot tiny) = some (st_init, 0) ∧
    RSFS_create tiny st_init "a.txt" = some (st_a, 0) ∧
    RSFS_open tiny st_a "a.txt" tiny.RSFS_RDWR = some (st_open, 0) ∧
    RSFS_write tiny st_open 0 hello 5 = some (st_hello, 5) ∧
    RSFS_open tiny st_hello "a.txt" tiny.RSFS_RDONLY = some (st_hello2, 1) ∧
    (RSFS_create tiny st_hello "b.txt").bind (fun r1 =>
      (RSFS_open tiny r1.1 "b.txt" tiny.RSFS_RDWR).bind (fun r2 =>
        RSFS_write tiny r2.1 r2.2 [104, 105] 2)) = some (st_ab, 2) := by
  decide

/-! ## `RSFS_create` -/

/-- C7: on a state with the declared array sizes, a name that is not in the
directory and a free inode, the first `RSFS_create` returns 0 and the second
returns -1 and leaves the whole state (directory, inode bitmap and inode table
included) exactly as the first call left it. -/
theorem RSFS_create_twice (c : Consts) (s : State) (file_name : String)
    (hwf : wf c s) (habs : search_dir file_name s.root_dir = none)
    (hfree : ∃ i : Nat, s.inode_bitmap[i]? = some 0) :
    ∃ s1, RSFS_create c s file_name = some (s1, 0) ∧
      RSFS_create c s1 file_name = some (s1, -1) := by
  obtain ⟨_, _, _, hbl, hil, _, _⟩ := hwf
  obtain ⟨j, hj, hmin⟩ : ∃ j : Nat, s.inode_bitmap[j]? = some 0 ∧
      ∀ k, 0 ≤ k → k < j → s.inode_bitmap[k]? ≠ some 0 := by
    classical
    exact ⟨Nat.find hfree, Nat.find_spec hfree, fun k _ hk => Nat.find_min hfree hk⟩
  have hjl : j < s.inode_bitmap.length := (List.getElem?_eq_some_iff.1 hj).1
  have halloc := allocate_inode_loop_found c
    { s with root_dir := insert_dir file_name s.root_dir } j hj
    (by show j < s.inodes.length; omega) c.NUM_INODES 0 (Nat.zero_le _)
    (by show j < 0 + c.NUM_INODES; omega) hmin
  refine ⟨{ s with inode_bitmap := s.inode_bitmap.set j 1,
                   inodes := s.inodes.set j (fresh_inode c),
                   root_dir := bind_inode_number file_name j
                     (insert_dir file_name s.root_dir) }, ?_, ?_⟩
  · unfold RSFS_create
    rw [habs]
    simp only [allocate_inode, halloc]
    rw [if_neg (by omega)]
  · unfold RSFS_create
    simp only [search_dir_bind_inode_number, search_dir_insert_dir _ _ habs, Option.map_some']

theorem RSFS_create_twice_witness :
    ∃ s1, RSFS_create tiny st_init "a.txt" = some (s1, 0) ∧
      RSFS_create tiny s1 "a.txt" = some (s1, -1) :=
  RSFS_create_twice tiny st_init "a.txt" (by decide) (by decide) ⟨0, by decide⟩

/-- Without a free inode `RSFS_create` of a new name returns -2 through the
early return of line 83, after `insert_dir`: the entry stays in the directory. -/
theorem RSFS_create_exhausted (c : Consts) (s : State) (file_name : String)
    (hwf : wf c s) (habs : search_dir file_name s.root_dir = none)
    (hfull : ∀ k, k < c.NUM_INODES → s.inode_bitmap[k]? ≠ some 0) :
    RSFS_create c s file_name =
      some ({ s with root_dir := insert_dir file_name s.root_dir }, -2) := by
  obtain ⟨_, _, _, hbl, _, _, _⟩ := hwf
  have halloc := allocate_inode_loop_full c
    { s with root_dir := insert_dir file_name s.root_dir } c.NUM_INODES 0
    (by show 0 + c.NUM_INODES ≤ s.inode_bitmap.length; omega)
    (fun k _ hk => hfull k (by omega))
  unfold RSFS_create
  rw [habs]
  simp only [allocate_inode, halloc]
  rfl

/-- C8: in `st_ab` both inodes are used and `c.txt` is not in the directory.
`RSFS_create("c.txt")` returns -2 and leaves an entry for `c.txt` in the
directory, so that a second `RSFS_create("c.txt")` returns -1. -/
theorem RSFS_create_no_rollback :
    search_dir "c.txt" st_ab.root_dir = none ∧
    RSFS_create tiny st_ab "c.txt" =
      some ({ st_ab with root_dir := st_ab.root_dir ++ [⟨"c.txt", -1⟩] }, -2) ∧
    RSFS_create tiny { st_ab with root_dir := st_ab.root_dir ++ [⟨"c.txt", -1⟩] } "c.txt" =
      some ({ st_ab with root_dir := st_ab.root_dir ++ [⟨"c.txt", -1⟩] }, -1) := by
  decide

/-! ## `RSFS_open` and `RSFS_close` -/

/-- What `RSFS_open` writes: with a bound name, a valid mode and `i` the lowest
index below `NUM_OPEN_FILE` whose slot is unused, `RSFS_open` returns `i`; slot
`i` becomes used with the given access flag and a reference to the directory
entry of the name; the function does not write `position`; every other slot
and the rest of the state are unchanged. -/
theorem RSFS_open_slot (c : Consts) (s : State) (file_name : String)
    (access_flag : Int) (d : dir_entry) (i : Nat) (e : open_file_entry)
    (hname : search_dir file_name s.root_dir = some d)
    (hmode : access_flag = c.RSFS_RDONLY ∨ access_flag = c.RSFS_RDWR)
    (hi : i < c.NUM_OPEN_FILE) (he : s.open_file_table[i]? = some e) (hu : e.used = 0)
    (hlow : ∀ k, k < i → ∀ e1, s.open_file_table[k]? = some e1 → e1.used ≠ 0) :
    RSFS_open c s file_name access_flag =
      some ({ s with open_file_table := s.open_file_table.set i { e with
                used := 1, access_flag := access_flag, dir_entry := some file_name } },
            (i : Int)) := by
  unfold RSFS_open
  rw [if_neg (not_not.2 hmode), hname]
  simp only
  rw [RSFS_open_loop_found access_flag d.name s.open_file_table i e he hu c.NUM_OPEN_FILE 0
    (Nat.zero_le _) (by omega) (fun k _ hk => hlow k hk), search_dir_name hname]
  rfl

/-- The only descriptor `RSFS_close` rejects is -1: for every other `fd` on
which the call is defined it returns 0. -/
theorem RSFS_close_result (s s1 : State) (fd r : Int) (hfd : fd ≠ -1)
    (h : RSFS_close s fd = some (s1, r)) : r = 0 := by
  unfold RSFS_close at h
  rw [if_pos hfd] at h
  cases hf : free_open_file_entry s fd with
  | none => rw [hf] at h; cases h
  | some s2 => rw [hf] at h; cases h; rfl

/-- C10: slot 1 of `st_init` is not in use (and 1 is below `NUM_OPEN_FILE`);
`RSFS_close(1)` returns 0, not -1, after resetting the slot. -/
theorem RSFS_close_unused_slot :
    st_init.open_file_table[1]? = some ⟨0, 0, 0, none⟩ ∧
    RSFS_close st_init 1 =
      some ({ st_init with open_file_table := [⟨0, 0, 0, none⟩, ⟨0, -1, 0, none⟩] }, 0) := by
  decide

/-! ## `RSFS_fseek` and `RSFS_read` -/

/-- The state `RSFS_fseek` returns is always the state it was given: the new
position is only ever held in a local variable. -/
theorem RSFS_fseek_state (c : Consts) (s s1 : State) (fd offset whence r : Int)
    (h : RSFS_fseek c s fd offset whence = some (s1, r)) : s1 = s := by
  unfold RSFS_fseek at h
  split at h
  · cases h; rfl
  · split at h
    · cases h; rfl
    · simp only [Option.bind_eq_bind, Option.bind_eq_some] at h
      obtain ⟨entry, _, file_name, _, d, _, h⟩ := h
      split at h
      · cases h; rfl
      · cases h; rfl

/-- C4: descriptor 0 of `st_open` is at position 0 on a file of length 0 (inode
number 0).  `RSFS_fseek` with `RSFS_SEEK_SET` and offset 7, or offset -3,
returns the out-of-range candidate, not the position 0. -/
theorem RSFS_fseek_out_of_range :
    RSFS_fseek tiny st_open 0 7 tiny.RSFS_SEEK_SET = some (st_open, 7) ∧
    RSFS_fseek tiny st_open 0 (-3) tiny.RSFS_SEEK_SET = some (st_open, -3) := by
  decide

/-- C5: on the file of length 5 with inode number 0, descriptor 1 at position 0
and descriptor 0 at position 5.  `RSFS_fseek(1, 3, RSFS_SEEK_SET)` returns 3 and
the stored position stays 0; `RSFS_fseek(0, 0, RSFS_SEEK_SET)` returns 5;
`RSFS_fseek(1, -2, RSFS_SEEK_END)` returns -2 where the candidate is 3. -/
theorem RSFS_fseek_in_range :
    RSFS_fseek tiny st_hello2 1 3 tiny.RSFS_SEEK_SET = some (st_hello2, 3) ∧
    RSFS_fseek tiny st_hello2 0 0 tiny.RSFS_SEEK_SET = some (st_hello2, 5) ∧
    RSFS_fseek tiny st_hello2 1 (-2) tiny.RSFS_SEEK_END = some (st_hello2, -2) := by
  decide

/-- C3: on the file of length 5 (`BLOCK_SIZE = 4`), a second descriptor at
position 0 reads 8 bytes when asked for 10: the loop copies to the end of the
block, not to the end of the file, and leaves the position at 8. -/
theorem RSFS_read_past_end :
    RSFS_open tiny st_hello "a.txt" tiny.RSFS_RDONLY = some (st_hello2, 1) ∧
    RSFS_read tiny st_hello2 1 10 =
      some ({ st_hello2 with
              open_file_table := [⟨1, 1, 5, some "a.txt"⟩, ⟨1, 0, 8, some "a.txt"⟩] },
            [104, 101, 108, 108, 111, 0, 0, 0], 8) := by
  decide

/-- C1: the round trip of the spec's second scenario, on the code.  After
`RSFS_init`, `RSFS_create("a.txt")`, `RSFS_open` with `RSFS_RDWR` (descriptor 0)
and `RSFS_write(0, "hello", 5) = 5`, the call `RSFS_fseek(0, 0, RSFS_SEEK_SET)`
returns 5 and leaves the position at 5, and `RSFS_read(0, buf, 5)` returns 0
and copies nothing. -/
theorem round_trip_one_descriptor :
    RSFS_init tiny (fun _ => some []) (boot tiny) = some (st_init, 0) ∧
    RSFS_create tiny st_init "a.txt" = some (st_a, 0) ∧
    RSFS_open tiny st_a "a.txt" tiny.RSFS_RDWR = some (st_open, 0) ∧
    RSFS_write tiny st_open 0 hello 5 = some (st_hello, 5) ∧
    RSFS_fseek tiny st_hello 0 0 tiny.RSFS_SEEK_SET = some (st_hello, 5) ∧
    RSFS_read tiny st_hello 0 5 = some (st_hello, [], 0) := by
  decide

/-! ## `RSFS_write` up to the capacity of a file -/

theorem allocate_data_block_loop_found (s : State) (j : Nat)
    (hj : s.data_bitmap[j]? = some 0) :
    ∀ fuel i, i ≤ j → j < i + fuel →
      (∀ k, i ≤ k → k < j → s.data_bitmap[k]? ≠ some 0) →
      allocate_data_block_loop s fuel i =
        some ({ s with data_bitmap := s.data_bitmap.set j 1 }, (j : Int)) := by
  intro fuel
  induction fuel with
  | zero => intro i h1 h2; omega
  | succ fuel ih =>
    intro i h1 h2 hlow
    unfold allocate_data_block_loop
    by_cases hij : i = j
    · subst hij
      simp [hj]
    · have hi : i < j := by omega
      have hjl : j < s.data_bitmap.length := (List.getElem?_eq_some_iff.1 hj).1
      have hil : i < s.data_bitmap.length := by omega
      have hne := hlow i (le_refl i) hi
      rw [List.getElem?_eq_getElem hil] at hne ⊢
      have hb : s.data_bitmap[i] ≠ 0 := fun h0 => hne (by rw [h0])
      simp only [hb, if_false]
      exact ih (i + 1) (by omega) (by omega) (fun k hk1 hk2 => hlow k (by omega) hk2)

/-- With a free block in the bitmap, `allocate_data_block` marks the lowest
free index and returns it. -/
theorem allocate_data_block_free (c : Consts) (s : State)
    (hlen : s.data_bitmap.length = c.NUM_DBLOCKS) (hfree : 0 < s.data_bitmap.count 0) :
    ∃ j : Nat, s.data_bitmap[j]? = some 0 ∧
      (∀ k, k < j → s.data_bitmap[k]? ≠ some 0) ∧
      allocate_data_block c s =
        some ({ s with data_bitmap := s.data_bitmap.set j 1 }, (j : Int)) := by
  have hex : ∃ j : Nat, s.data_bitmap[j]? = some 0 :=
    List.getElem?_of_mem (List.count_pos_iff.1 hfree)
  obtain ⟨j, hj, hmin⟩ : ∃ j : Nat, s.data_bitmap[j]? = some 0 ∧
      ∀ k, k < j → s.data_bitmap[k]? ≠ some 0 := by
    classical
    exact ⟨Nat.find hex, Nat.find_spec hex, fun k hk => Nat.find_min hex hk⟩
  have hjl : j < s.data_bitmap.length := (List.getElem?_eq_some_iff.1 hj).1
  exact ⟨j, hj, hmin, allocate_data_block_loop_found s j hj c.NUM_DBLOCKS 0 (Nat.zero_le _)
    (by omega) (fun k _ hk => hmin k hk)⟩

theorem count_zero_set_one (l : List Int) (j : Nat) (hj : l[j]? = some 0) :
    (l.set j 1).count 0 + 1 = l.count 0 := by
  obtain ⟨hjl, hv⟩ := List.getElem?_eq_some_iff.1 hj
  have hpos : 0 < l.count 0 := List.count_pos_iff.2 (hv ▸ List.getElem_mem hjl)
  rw [List.count_set _ _ _ _ hjl, hv]
  simp
  omega

theorem memwrite_length (blk : List Nat) (off : Int) (buf : List Nat) (src n : Int)
    (blk1 : List Nat) (h : memwrite blk off buf src n = some blk1) :
    blk1.length = blk.length := by
  unfold memwrite at h
  split at h
  · next hc =>
    obtain ⟨h0, hn, hs, hb, hbuf⟩ := hc
    cases h
    have e1 : (off + n).toNat = off.toNat + n.toNat := Int.toNat_add h0 hn
    have e2 : (src + n).toNat = src.toNat + n.toNat := Int.toNat_add hs hn
    simp only [List.length_append, List.length_take, List.length_drop]
    omega
  · cases h

/-- Lines 232-242 on a slot that holds `-1` while a block is free: the lowest
free block `j` is marked used and bound to the slot. -/
theorem resolve_block_fresh (c : Consts) (s : State) (inum : Int) (ino : inode)
    (k j : Nat) (hino : getI s.inodes inum = some ino)
    (hslot : ino.block[k]? = some (-1))
    (halloc : allocate_data_block c s =
      some ({ s with data_bitmap := s.data_bitmap.set j 1 }, (j : Int))) :
    resolve_block c s inum (k : Int) =
      some ({ s with data_bitmap := s.data_bitmap.set j 1,
                     inodes := s.inodes.set inum.toNat
                       { ino with block := ino.block.set k (j : Int) } }, some (j : Int)) := by
  obtain ⟨h0, hlt, _⟩ := getI_eq_some hino
  have hk : k < ino.block.length := (List.getElem?_eq_some_iff.1 hslot).1
  have hneg : ¬ ((j : Int) < 0) := by omega
  have hino1 : getI ({ s with data_bitmap := s.data_bitmap.set j 1 } : State).inodes inum
      = some ino := hino
  have hset1 : setI ino.block (k : Int) (j : Int) = some (ino.block.set k (j : Int)) :=
    setI_natCast _ _ _ hk
  have hset2 : setI ({ s with data_bitmap := s.data_bitmap.set j 1 } : State).inodes inum
      { ino with block := ino.block.set k (j : Int) } =
      some (s.inodes.set inum.toNat { ino with block := ino.block.set k (j : Int) }) := by
    simp [setI, h0, hlt]
  unfold resolve_block
  simp only [hino, getI_natCast, hslot, halloc, Option.bind_eq_bind, Option.some_bind,
    if_true, hneg, if_false, hino1, hset1, hset2]

/-- The loop of `RSFS_write` on block boundaries, `k` slots bound, the other
`m` slots `-1`, at least `m` free blocks and more than the capacity left to
write: it binds every remaining slot and stops at `NUM_POINTER * BLOCK_SIZE`. -/
theorem RSFS_write_loop_fill (c : Consts) (inum : Int) (buf : List Nat) (size : Int)
    (hbs : 0 < c.BLOCK_SIZE)
    (hsize : (c.NUM_POINTER : Int) * c.BLOCK_SIZE < size) (hbuf : size ≤ buf.length) :
    ∀ (m k fuel : Nat) (s : State) (ino : inode), k + m = c.NUM_POINTER → m < fuel →
      s.data_bitmap.length = c.NUM_DBLOCKS → s.data_blocks.length = c.NUM_DBLOCKS →
      (∀ b ∈ s.data_blocks, b.length = c.BLOCK_SIZE) →
      getI s.inodes inum = some ino →
      (∀ j, k ≤ j → j < c.NUM_POINTER → ino.block[j]? = some (-1)) →
      (∀ j, j < k → slot_bound s ino j) →
      m ≤ s.data_bitmap.count 0 →
      ∃ s1 ino1,
        RSFS_write_loop c inum buf fuel s ((k : Int) * c.BLOCK_SIZE)
          (size - (k : Int) * c.BLOCK_SIZE) ((k : Int) * c.BLOCK_SIZE) =
          some (s1, (c.NUM_POINTER : Int) * c.BLOCK_SIZE,
            (c.NUM_POINTER : Int) * c.BLOCK_SIZE) ∧
        getI s1.inodes inum = some ino1 ∧ ino1.length = ino.length ∧
        (∀ j, j < c.NUM_POINTER → slot_bound s1 ino1 j) ∧
        s1.open_file_table = s.open_file_table ∧ s1.root_dir = s.root_dir := by
  have hB : (c.BLOCK_SIZE : Int) ≠ 0 := by omega
  intro m
  induction m with
  | zero =>
    intro k fuel s ino hk hfuel _ _ _ hino _ hbound _
    obtain ⟨f, rfl⟩ : ∃ f, fuel = f + 1 := ⟨fuel - 1, by omega⟩
    have hkN : k = c.NUM_POINTER := by omega
    subst hkN
    refine ⟨s, ino, ?_, hino, rfl, hbound, rfl, rfl⟩
    unfold RSFS_write_loop
    have hrem : size - (c.NUM_POINTER : Int) * c.BLOCK_SIZE > 0 := by omega
    have hb0 : ¬ c.BLOCK_SIZE = 0 := by omega
    simp only [hrem, if_true, hb0, if_false, Int.mul_tdiv_cancel _ hB, ge_iff_le, le_refl]
  | succ m ih =>
    intro k fuel s ino hk hfuel hbm hbl hblk hino hrest hbound hcount
    obtain ⟨f, rfl⟩ : ∃ f, fuel = f + 1 := ⟨fuel - 1, by omega⟩
    obtain ⟨j, hj, _, halloc⟩ := allocate_data_block_free c s hbm (by omega)
    have hjl : j < s.data_bitmap.length := (List.getElem?_eq_some_iff.1 hj).1
    have hkN : k < c.NUM_POINTER := by omega
    have hslot := hrest k (le_refl k) hkN
    have hres := resolve_block_fresh c s inum ino k j hino hslot halloc
    obtain ⟨h0, hlt, hget⟩ := getI_eq_some hino
    have hmul : (k + 1) * c.BLOCK_SIZE ≤ c.NUM_POINTER * c.BLOCK_SIZE :=
      Nat.mul_le_mul_right _ (by omega)
    have hmulZ : ((k : Int) + 1) * c.BLOCK_SIZE ≤ (c.NUM_POINTER : Int) * c.BLOCK_SIZE := by
      exact_mod_cast hmul
    have hexp : ((k : Int) + 1) * c.BLOCK_SIZE = (k : Int) * c.BLOCK_SIZE + c.BLOCK_SIZE := by
      ring
    have hX : (0 : Int) ≤ (k : Int) * c.BLOCK_SIZE := by positivity
    have hrem : size - (k : Int) * c.BLOCK_SIZE > 0 := by omega
    have hb0 : ¬ c.BLOCK_SIZE = 0 := by omega
    have hnot : ¬ ((k : Int) ≥ c.NUM_POINTER) := by omega
    have hfullblk : ¬ (size - (k : Int) * c.BLOCK_SIZE < (c.BLOCK_SIZE : Int) - 0) := by omega
    -- the block that is allocated
    have hjb : j < s.data_blocks.length := by omega
    have hblen : (s.data_blocks[j]).length = c.BLOCK_SIZE :=
      hblk _ (List.getElem_mem hjb)
    obtain ⟨blk1, hmw⟩ : ∃ blk1, memwrite s.data_blocks[j] 0 buf ((k : Int) * c.BLOCK_SIZE)
        ((c.BLOCK_SIZE : Int) - 0) = some blk1 := by
      unfold memwrite
      refine ⟨_, if_pos ⟨le_refl _, by omega, hX, ?_, ?_⟩⟩
      · simp [hblen]
      · have : ((k : Int) * c.BLOCK_SIZE + ((c.BLOCK_SIZE : Int) - 0)).toNat ≤ size.toNat :=
          Int.toNat_le_toNat (by omega)
        have h2 : size.toNat ≤ buf.length := by omega
        omega
    have hblk1 := memwrite_length _ _ _ _ _ _ hmw
    -- the state after the iteration
    obtain ⟨s1, ino1, hloop, hino1, hlen1, hb1, ht1, hr1⟩ := ih (k + 1) f
      { s with data_bitmap := s.data_bitmap.set j 1,
               inodes := s.inodes.set inum.toNat
                 { ino with block := ino.block.set k (j : Int) },
               data_blocks := s.data_blocks.set j blk1 }
      { ino with block := ino.block.set k (j : Int) }
      (by omega) (by omega)
      (by simp [hbm]) (by simp [hbl])
      (by
        intro b hb
        rcases List.mem_or_eq_of_mem_set hb with h | h
        · exact hblk b h
        · rw [h, hblk1, hblen])
      (by simp [getI, h0, List.getElem?_set_self hlt])
      (by
        intro i hi1 hi2
        show (ino.block.set k (j : Int))[i]? = some (-1)
        rw [List.getElem?_set_ne (by omega)]
        exact hrest i (by omega) hi2)
      (by
        intro i hi
        by_cases hik : i = k
        · subst hik
          refine ⟨j, ?_, ?_⟩
          · show (ino.block.set i (j : Int))[i]? = some (j : Int)
            exact List.getElem?_set_self (List.getElem?_eq_some_iff.1 hslot).1
          · show (s.data_bitmap.set j 1)[j]? = some 1
            exact List.getElem?_set_self hjl
        · obtain ⟨b, hb1, hb2⟩ := hbound i (by omega)
          refine ⟨b, ?_, ?_⟩
          · show (ino.block.set k (j : Int))[i]? = some (b : Int)
            rw [List.getElem?_set_ne (by omega)]
            exact hb1
          · show (s.data_bitmap.set j 1)[b]? = some 1
            by_cases hbj : j = b
            · subst hbj
              exact List.getElem?_set_self hjl
            · rw [List.getElem?_set_ne hbj]
              exact hb2)
      (by
        have := count_zero_set_one s.data_bitmap j hj
        show m ≤ (s.data_bitmap.set j 1).count 0
        omega)
    refine ⟨s1, ino1, ?_, hino1, hlen1, hb1, ht1, hr1⟩
    rw [← hloop]
    have hgetb : getI ({ s with
          data_bitmap := s.data_bitmap.set j 1,
          inodes := s.inodes.set inum.toNat
            { ino with block := ino.block.set k (j : Int) } } : State).data_blocks (j : Int)
        = some s.data_blocks[j] := by
      simp [getI, hjb]
    have hsetb : setI ({ s with
          data_bitmap := s.data_bitmap.set j 1,
          inodes := s.inodes.set inum.toNat
            { ino with block := ino.block.set k (j : Int) } } : State).data_blocks (j : Int)
        blk1 = some (s.data_blocks.set j blk1) := setI_natCast _ _ _ hjb
    have e1 : (k : Int) * c.BLOCK_SIZE + ((c.BLOCK_SIZE : Int) - 0) =
        ((k + 1 : Nat) : Int) * c.BLOCK_SIZE := by push_cast; ring
    have e2 : size - (k : Int) * c.BLOCK_SIZE - ((c.BLOCK_SIZE : Int) - 0) =
        size - ((k + 1 : Nat) : Int) * c.BLOCK_SIZE := by push_cast; ring
    simp only [RSFS_write_loop, hrem, if_true, hb0, if_false, Int.mul_tdiv_cancel _ hB,
      Int.mul_tmod_left, hnot, hres, hfullblk, hgetb, hmw, hsetb, e1, e2]

theorem set_same {α : Type} (l : List α) (i : Nat) (a : α) (h : l[i]? = some a) :
    l.set i a = l := by
  apply List.ext_getElem?
  intro n
  by_cases hn : i = n
  · subst hn
    rw [List.getElem?_set_self (List.getElem?_eq_some_iff.1 h).1, h]
  · rw [List.getElem?_set_ne hn]

/-- A write through a descriptor whose position is `NUM_POINTER * BLOCK_SIZE`,
on a file at least that long, writes nothing and changes nothing. -/
theorem RSFS_write_at_capacity (c : Consts) (s : State) (fd : Int) (buf : List Nat)
    (size : Int) (entry : open_file_entry) (file_name : String) (d : dir_entry)
    (ino : inode) (hbs : 0 < c.BLOCK_SIZE) (hfd : fd < c.NUM_OPEN_FILE)
    (hentry : getI s.open_file_table fd = some entry)
    (hpos : entry.position = (c.NUM_POINTER : Int) * c.BLOCK_SIZE)
    (hname : entry.dir_entry = some file_name)
    (hdir : search_dir file_name s.root_dir = some d)
    (hino : getI s.inodes d.inode_number = some ino)
    (hlen : (c.NUM_POINTER : Int) * c.BLOCK_SIZE ≤ ino.length) (hsize : 0 < size) :
    RSFS_write c s fd buf size = some (s, 0) := by
  obtain ⟨u, a, p, de⟩ := entry
  simp only at hpos hname
  subst hpos hname
  obtain ⟨h0, hlt, hget⟩ := getI_eq_some hentry
  have hB : (c.BLOCK_SIZE : Int) ≠ 0 := by omega
  have hb0 : ¬ c.BLOCK_SIZE = 0 := by omega
  obtain ⟨f, hf⟩ : ∃ f, size.toNat = f + 1 := ⟨size.toNat - 1, by omega⟩
  have hguard : ¬ (fd < 0 ∨ fd ≥ c.NUM_OPEN_FILE ∨ size ≤ 0) := by omega
  have hloop : RSFS_write_loop c d.inode_number buf (f + 1) s 0 size
      ((c.NUM_POINTER : Int) * c.BLOCK_SIZE) =
      some (s, 0, (c.NUM_POINTER : Int) * c.BLOCK_SIZE) := by
    have hrem : size > 0 := hsize
    simp only [RSFS_write_loop, hrem, if_true, hb0, if_false, Int.mul_tdiv_cancel _ hB,
      ge_iff_le, le_refl]
  have hset : setI s.open_file_table fd
      ⟨u, a, (c.NUM_POINTER : Int) * c.BLOCK_SIZE, some file_name⟩ =
      some s.open_file_table := by
    simp [setI, h0, hlt, set_same _ _ _ hget]
  have hnot : ¬ ((c.NUM_POINTER : Int) * c.BLOCK_SIZE > ino.length) := by omega
  unfold RSFS_write
  rw [if_neg hguard]
  simp only [hentry, hdir, hf, hloop, hset, hino, hnot, if_false,
    Option.bind_eq_bind, Option.some_bind]

/-- C2: on a state with the declared array sizes and `BLOCK_SIZE > 0`, a write
of more than `NUM_POINTER * BLOCK_SIZE` bytes through a descriptor at position
0 whose file has every block slot `-1`, with at least `NUM_POINTER` free data
blocks, returns exactly `NUM_POINTER * BLOCK_SIZE`; afterwards every block slot
of the inode is bound to a block marked used, and any further write of a
positive size through the same descriptor returns 0 and changes nothing. -/
theorem RSFS_write_capacity (c : Consts) (s : State) (fd : Int) (buf : List Nat)
    (size : Int) (entry : open_file_entry) (file_name : String) (d : dir_entry)
    (ino : inode) (hwf : wf c s) (hbs : 0 < c.BLOCK_SIZE)
    (hentry : getI s.open_file_table fd = some entry)
    (hpos : entry.position = 0)
    (hname : entry.dir_entry = some file_name)
    (hdir : search_dir file_name s.root_dir = some d)
    (hino : getI s.inodes d.inode_number = some ino)
    (hempty : ∀ j, j < c.NUM_POINTER → ino.block[j]? = some (-1))
    (hfree : c.NUM_POINTER ≤ s.data_bitmap.count 0)
    (hsize : (c.NUM_POINTER : Int) * c.BLOCK_SIZE < size)
    (hbuf : size ≤ buf.length) :
    ∃ s1 ino1,
      RSFS_write c s fd buf size = some (s1, (c.NUM_POINTER : Int) * c.BLOCK_SIZE) ∧
      getI s1.inodes d.inode_number = some ino1 ∧
      (∀ j, j < c.NUM_POINTER → slot_bound s1 ino1 j) ∧
      ∀ (buf2 : List Nat) (size2 : Int), 0 < size2 →
        RSFS_write c s1 fd buf2 size2 = some (s1, 0) := by
  obtain ⟨hdl, hblk, hbm, _, _, _, htl⟩ := hwf
  obtain ⟨u, a, p, de⟩ := entry
  simp only at hpos hname
  subst hpos hname
  obtain ⟨h0, hlt, hget⟩ := getI_eq_some hentry
  have hcap : (0 : Int) ≤ (c.NUM_POINTER : Int) * c.BLOCK_SIZE := by positivity
  have hNP : (c.NUM_POINTER : Int) ≤ (c.NUM_POINTER : Int) * c.BLOCK_SIZE := by
    have : c.NUM_POINTER * 1 ≤ c.NUM_POINTER * c.BLOCK_SIZE := Nat.mul_le_mul_left _ hbs
    exact_mod_cast (by omega : c.NUM_POINTER ≤ c.NUM_POINTER * c.BLOCK_SIZE)
  have hfd : fd < c.NUM_OPEN_FILE := by omega
  have hguard : ¬ (fd < 0 ∨ fd ≥ c.NUM_OPEN_FILE ∨ size ≤ 0) := by omega
  obtain ⟨s1, ino1, hloop, hino1, hlen1, hb1, ht1, hr1⟩ :=
    RSFS_write_loop_fill c d.inode_number buf size hbs hsize hbuf c.NUM_POINTER 0
      size.toNat s ino (by omega) (by omega) hbm hdl hblk hino
      (fun j _ hj => hempty j hj) (fun j hj => absurd hj (Nat.not_lt_zero j)) hfree
  simp only [Nat.cast_zero, zero_mul, sub_zero] at hloop
  obtain ⟨g0, glt, gget⟩ := getI_eq_some hino1
  have hset : setI s1.open_file_table fd
      ⟨u, a, (c.NUM_POINTER : Int) * c.BLOCK_SIZE, some file_name⟩ =
      some (s.open_file_table.set fd.toNat
        ⟨u, a, (c.NUM_POINTER : Int) * c.BLOCK_SIZE, some file_name⟩) := by
    simp [setI, ht1, h0, hlt]
  by_cases hgrow : (c.NUM_POINTER : Int) * c.BLOCK_SIZE > ino1.length
  · have hseti : setI s1.inodes d.inode_number
        { ino1 with length := (c.NUM_POINTER : Int) * c.BLOCK_SIZE } =
        some (s1.inodes.set d.inode_number.toNat
          { ino1 with length := (c.NUM_POINTER : Int) * c.BLOCK_SIZE }) := by
      simp [setI, g0, glt]
    have hfin : getI (s1.inodes.set d.inode_number.toNat
          { ino1 with length := (c.NUM_POINTER : Int) * c.BLOCK_SIZE })
        d.inode_number =
        some { ino1 with length := (c.NUM_POINTER : Int) * c.BLOCK_SIZE } := by
      simp [getI, g0, List.getElem?_set_self glt]
    refine ⟨{ s1 with
        open_file_table := s.open_file_table.set fd.toNat
          ⟨u, a, (c.NUM_POINTER : Int) * c.BLOCK_SIZE, some file_name⟩,
        inodes := s1.inodes.set d.inode_number.toNat
          { ino1 with length := (c.NUM_POINTER : Int) * c.BLOCK_SIZE } },
      { ino1 with length := (c.NUM_POINTER : Int) * c.BLOCK_SIZE }, ?_, hfin,
      fun j hj => hb1 j hj, ?_⟩
    · unfold RSFS_write
      rw [if_neg hguard]
      simp only [hentry, hdir, hloop, hset, hino1, hgrow, if_true, hseti,
        Option.bind_eq_bind, Option.some_bind]
    · intro buf2 size2 hs2
      exact RSFS_write_at_capacity c _ fd buf2 size2
        ⟨u, a, (c.NUM_POINTER : Int) * c.BLOCK_SIZE, some file_name⟩ file_name d
        { ino1 with length := (c.NUM_POINTER : Int) * c.BLOCK_SIZE } hbs hfd
        (by simp [getI, h0, List.getElem?_set_self hlt]) rfl rfl
        (by rw [← hr1] at hdir; exact hdir) hfin (le_refl _) hs2
  · refine ⟨{ s1 with
        open_file_table := s.open_file_table.set fd.toNat
          ⟨u, a, (c.NUM_POINTER : Int) * c.BLOCK_SIZE, some file_name⟩ },
      ino1, ?_, hino1, fun j hj => hb1 j hj, ?_⟩
    · unfold RSFS_write
      rw [if_neg hguard]
      simp only [hentry, hdir, hloop, hset, hino1, hgrow, if_false,
        Option.bind_eq_bind, Option.some_bind]
    · intro buf2 size2 hs2
      exact RSFS_write_at_capacity c _ fd buf2 size2
        ⟨u, a, (c.NUM_POINTER : Int) * c.BLOCK_SIZE, some file_name⟩ file_name d
        ino1 hbs hfd
        (by simp [getI, h0, List.getElem?_set_self hlt]) rfl rfl
        (by rw [← hr1] at hdir; exact hdir) hino1 (by omega) hs2

theorem wf_st_spec3 : wf spec3 st_spec3 := by
  refine ⟨List.length_replicate _ _, ?_, List.length_replicate _ _, rfl,
    List.length_replicate _ _, ?_, rfl⟩
  · intro b hb
    rw [List.eq_of_mem_replicate hb]
    exact List.length_replicate _ _
  · intro n hn
    rw [List.eq_of_mem_replicate hn]
    exact List.length_replicate _ _

theorem RSFS_write_capacity_witness :
    ∃ s1 ino1,
      RSFS_write spec3 st_spec3 0 (List.replicate 5121 7) 5121 =
        some (s1, (spec3.NUM_POINTER : Int) * spec3.BLOCK_SIZE) ∧
      getI s1.inodes 0 = some ino1 ∧
      (∀ j, j < spec3.NUM_POINTER → slot_bound s1 ino1 j) ∧
      ∀ (buf2 : List Nat) (size2 : Int), 0 < size2 →
        RSFS_write spec3 s1 0 buf2 size2 = some (s1, 0) :=
  RSFS_write_capacity spec3 st_spec3 0 (List.replicate 5121 7) 5121
    ⟨1, 1, 0, some "a.txt"⟩ "a.txt" ⟨"a.txt", 0⟩ ⟨0, List.replicate 10 (-1)⟩
    wf_st_spec3 (by decide) (by decide) rfl rfl (by decide) (by decide)
    (fun j hj => by
      have hj10 : j < 10 := hj
      show (List.replicate 10 (-1 : Int))[j]? = some (-1)
      rw [List.getElem?_replicate, if_pos hj10])
    (by
      show 10 ≤ List.count (0 : Int) (List.replicate 16 0)
      rw [List.count_replicate_self]
      decide)
    (by decide)
    (by
      show (5121 : Int) ≤ ((List.replicate 5121 7).length : Int)
      rw [List.length_replicate]
      decide)

/-! ## `RSFS_delete` -/

theorem free_data_block_inode_bitmap (s s1 : State) (i : Int)
    (h : free_data_block s i = some s1) : s1.inode_bitmap = s.inode_bitmap := by
  unfold free_data_block at h
  split at h
  · cases h
  · split at h
    · cases h
    · cases hs : setI s.data_bitmap i 0 with
      | none => rw [hs] at h; cases h
      | some bm => rw [hs] at h; cases h; rfl

theorem RSFS_delete_blocks_inode_bitmap (oob : State → Int) :
    ∀ (fuel i : Nat) (s s1 : State), RSFS_delete_blocks oob fuel i s = some s1 →
      s1.inode_bitmap = s.inode_bitmap := by
  intro fuel
  induction fuel with
  | zero => intro i s s1 h; cases h
  | succ fuel ih =>
    intro i s s1 h
    unfold RSFS_delete_blocks at h
    split at h
    · cases hf : free_data_block s i with
      | none => rw [hf] at h; cases h
      | some s2 =>
        rw [hf] at h
        rw [ih (i + 1) s2 s1 h, free_data_block_inode_bitmap s s2 i hf]
    · cases h; rfl

theorem free_slots_inode_bitmap :
    ∀ (slots : List Int) (s s1 : State), free_slots s slots = some s1 →
      s1.inode_bitmap = s.inode_bitmap := by
  intro slots
  induction slots with
  | nil => intro s s1 h; cases h; rfl
  | cons b rest ih =>
    intro s s1 h
    unfold free_slots at h
    split at h
    · exact ih s s1 h
    · cases hf : free_data_block s b with
      | none => rw [hf] at h; cases h
      | some s2 =>
        rw [hf] at h
        rw [ih s2 s1 h, free_data_block_inode_bitmap s s2 b hf]

/-- What `free_inode` does to the inode bitmap: it writes 0 at the index. -/
theorem free_inode_inode_bitmap (c : Consts) (s s1 : State) (i : Int)
    (h : free_inode c s i = some s1) :
    s1.inode_bitmap = s.inode_bitmap.set i.toNat 0 := by
  unfold free_inode at h
  simp only [Option.bind_eq_bind, Option.bind_eq_some] at h
  obtain ⟨ino, _, s2, hs2, bm, hbm, ins, _, hfin⟩ := h
  cases hfin
  unfold setI at hbm
  split at hbm
  · cases hbm
    show s2.inode_bitmap.set i.toNat 0 = _
    rw [free_slots_inode_bitmap _ _ _ hs2]
  · cases hbm

/-- Once the flag of inode 0 is 0, the loop of lines 361-364 leaves it 0. -/
theorem RSFS_delete_inodes_zero (c : Consts) (oob : State → Int) :
    ∀ (fuel i : Nat) (s s1 : State), RSFS_delete_inodes c oob fuel i s = some s1 →
      s.inode_bitmap[0]? = some 0 → s1.inode_bitmap[0]? = some 0 := by
  intro fuel
  induction fuel with
  | zero => intro i s s1 h; cases h
  | succ fuel ih =>
    intro i s s1 h h0
    unfold RSFS_delete_inodes at h
    split at h
    · cases hf : free_inode c s i with
      | none => rw [hf] at h; cases h
      | some s2 =>
        rw [hf] at h
        refine ih (i + 1) s2 s1 h ?_
        rw [free_inode_inode_bitmap c s s2 i hf]
        have hl : 0 < s.inode_bitmap.length := (List.getElem?_eq_some_iff.1 h0).1
        by_cases hi : i = 0
        · subst hi
          exact List.getElem?_set_self hl
        · rw [List.getElem?_set_ne (by omega)]
          exact h0
    · cases h; exact h0

/-- C6: on the state `st_ab` (files `a.txt` on inode 0 and `b.txt` on inode 1),
`RSFS_delete("b.txt")` should clear exactly inode 1 and block 2.  When the two
values read past the bitmaps are 0 it returns 0 with both bitmaps untouched;
and whatever those values are, the inode bitmap it leaves is never the
expected `[1, 0]`. -/
theorem RSFS_delete_frees_wrong_set :
    RSFS_delete tiny (fun _ => 0) (fun _ => 0) st_ab "b.txt" =
      some ({ st_ab with root_dir := [⟨"a.txt", 0⟩] }, 0) ∧
    ∀ (oob_data oob_inode : State → Int) (s1 : State) (r : Int),
      RSFS_delete tiny oob_data oob_inode st_ab "b.txt" = some (s1, r) →
      s1.inode_bitmap ≠ [1, 0] := by
  refine ⟨by decide, ?_⟩
  intro oob_data oob_inode s1 r h
  unfold RSFS_delete at h
  have hs : search_dir "b.txt" st_ab.root_dir = some ⟨"b.txt", 1⟩ := by decide
  rw [hs] at h
  simp only [Option.bind_eq_bind, Option.bind_eq_some] at h
  obtain ⟨s2, hs2, s3, hs3, hfin⟩ := h
  cases hfin
  show s3.inode_bitmap ≠ [1, 0]
  have hb2 : s2.inode_bitmap = [1, 1] := RSFS_delete_blocks_inode_bitmap _ _ _ _ _ hs2
  have hN : tiny.NUM_INODES + 1 = 2 + 1 := rfl
  rw [hN] at hs3
  unfold RSFS_delete_inodes at hs3
  split at hs3
  · cases hf : free_inode tiny s2 ((0 : Nat) : Int) with
    | none => rw [hf] at hs3; cases hs3
    | some s4 =>
      rw [hf] at hs3
      have h4 : s4.inode_bitmap[0]? = some 0 := by
        rw [free_inode_inode_bitmap tiny s2 s4 _ hf, hb2]
        rfl
      have h3 := RSFS_delete_inodes_zero tiny oob_inode _ _ _ _ hs3 h4
      intro hc
      rw [hc] at h3
      cases h3
  · cases hs3
    rw [hb2]
    decide

/-! ## Argument validation of `RSFS_read` and `RSFS_write` -/

/-- The test of lines 146 and 200: a descriptor out of range or a size that is
not positive gives -1 and leaves the state as it is. -/
theorem RSFS_read_write_rejected (c : Consts) (s : State) (fd size : Int) (buf : List Nat)
    (h : fd < 0 ∨ fd ≥ c.NUM_OPEN_FILE ∨ size ≤ 0) :
    RSFS_read c s fd size = some (s, [], -1) ∧ RSFS_write c s fd buf size = some (s, -1) := by
  unfold RSFS_read RSFS_write
  rw [if_pos h, if_pos h]
  exact ⟨rfl, rfl⟩

/-- Past the test of lines 146 and 200 the `used` flag is never read: the slot's
`dir_entry` pointer is dereferenced, and with a `NULL` pointer (a slot never
opened, or released) neither call has a defined result. -/
theorem RSFS_read_write_null (c : Consts) (s : State) (fd size : Int) (buf : List Nat)
    (entry : open_file_entry) (h : ¬ (fd < 0 ∨ fd ≥ c.NUM_OPEN_FILE ∨ size ≤ 0))
    (hentry : getI s.open_file_table fd = some entry) (hnull : entry.dir_entry = none) :
    RSFS_read c s fd size = none ∧ RSFS_write c s fd buf size = none := by
  unfold RSFS_read RSFS_write
  rw [if_neg h, if_neg h]
  simp [hentry, hnull]

/-- C11: slot 1 of `st_init` was never opened and slot 0 of `st_closed` was
opened and closed; both are in range and not in use.  `RSFS_read` and
`RSFS_write` with a positive size do not return -1 on them: their result is
undefined, because the `NULL` `dir_entry` of the slot is dereferenced. -/
theorem RSFS_read_write_unused_slot :
    st_init.open_file_table[1]? = some ⟨0, 0, 0, none⟩ ∧
    RSFS_read tiny st_init 1 5 = none ∧
    RSFS_write tiny st_init 1 hello 5 = none ∧
    RSFS_close st_open 0 = some (st_closed, 0) ∧
    RSFS_read tiny st_closed 0 5 = none ∧
    RSFS_write tiny st_closed 0 hello 5 = none := by
  decide

/-! ## `RSFS_init` -/

/-- The open file table after `RSFS_init` is the table before it: lines 39-45
assign to a local copy of each entry. -/
theorem RSFS_init_table (c : Consts) (malloc : Nat → Option (List Nat)) (s s1 : State)
    (r : Int) (h : RSFS_init c malloc s = some (s1, r)) :
    s1.open_file_table = s.open_file_table := by
  unfold RSFS_init at h
  split at h
  · cases h
  · split at h
    · cases h; rfl
    · cases h; rfl

/-- C18: `RSFS_init` returns 0 and does not reset the open file table.  At
program start the slots keep `access_flag = 0` (not -1); called on the state
`st_hello2`, where both slots are in use at positions 5 and 0, it leaves both
slots in use with their positions, while the bitmaps, the inodes and the root
directory are reset. -/
theorem RSFS_init_keeps_table :
    RSFS_init tiny (fun _ => some []) (boot tiny) =
      some ({ st_init with
              open_file_table := [⟨0, 0, 0, none⟩, ⟨0, 0, 0, none⟩] }, 0) ∧
    RSFS_init tiny (fun _ => some []) st_hello2 =
      some ({ st_init with
              open_file_table := [⟨1, 1, 5, some "a.txt"⟩, ⟨1, 0, 0, some "a.txt"⟩] }, 0) := by
  decide

/-! ## The effect of `RSFS_read` -/

/-- The loop of `RSFS_read` advances `currentPos` by what it adds to
`bytes_read`. -/
theorem RSFS_read_loop_pos (c : Consts) (ino : inode) (blocks : List (List Nat)) :
    ∀ (fuel : Nat) (buf : List Nat) (br rem pos : Int) (buf1 : List Nat) (br1 pos1 : Int),
      RSFS_read_loop c ino blocks fuel buf br rem pos = some (buf1, br1, pos1) →
      pos1 = pos + (br1 - br) := by
  intro fuel
  induction fuel with
  | zero =>
    intro buf br rem pos buf1 br1 pos1 h
    unfold RSFS_read_loop at h
    split at h
    · cases h
    · cases h; omega
  | succ fuel ih =>
    intro buf br rem pos buf1 br1 pos1 h
    unfold RSFS_read_loop at h
    split at h
    · split at h
      · cases h
      · simp only at h
        split at h
        · cases h
        · split at h
          · cases h
          · split at h
            · cases h
            · have := ih _ _ _ _ _ _ _ h
              omega
    · cases h; omega

/-- At or beyond the end of the file the loop of `RSFS_read` copies nothing. -/
theorem RSFS_read_loop_eof (c : Consts) (ino : inode) (blocks : List (List Nat))
    (fuel : Nat) (buf : List Nat) (br rem pos : Int) (h : ino.length ≤ pos) :
    RSFS_read_loop c ino blocks fuel buf br rem pos = some (buf, br, pos) := by
  have hc : ¬ (rem > 0 ∧ pos < ino.length) := by omega
  cases fuel with
  | zero => simp only [RSFS_read_loop, hc, if_false]
  | succ fuel => simp only [RSFS_read_loop, hc, if_false]

/-- C16: for a descriptor in range with position `p` and a positive size, a
read that returns `k` leaves the state as it was except for the position of
slot `fd`, which is `p + k`; and when `p` is at or beyond the length of the
file the read returns 0, copies nothing and leaves the whole state, the
position included, as it was. -/
theorem RSFS_read_effect (c : Consts) (s : State) (fd size : Int) (entry : open_file_entry)
    (hfd0 : 0 ≤ fd) (hfd : fd < c.NUM_OPEN_FILE) (hsize : 0 < size)
    (hentry : getI s.open_file_table fd = some entry) :
    (∀ (s1 : State) (out : List Nat) (k : Int),
      RSFS_read c s fd size = some (s1, out, k) →
      s1 = { s with open_file_table := s.open_file_table.set fd.toNat
                      { entry with position := entry.position + k } }) ∧
    (∀ (file_name : String) (d : dir_entry) (ino : inode),
      entry.dir_entry = some file_name → search_dir file_name s.root_dir = some d →
      getI s.inodes d.inode_number = some ino → ino.length ≤ entry.position →
      RSFS_read c s fd size = some (s, [], 0)) := by
  have hguard : ¬ (fd < 0 ∨ fd ≥ c.NUM_OPEN_FILE ∨ size ≤ 0) := by omega
  obtain ⟨_, hlt, hget⟩ := getI_eq_some hentry
  constructor
  · intro s1 out k h
    unfold RSFS_read at h
    rw [if_neg hguard] at h
    simp only [hentry, Option.bind_eq_bind, Option.some_bind, Option.bind_eq_some] at h
    obtain ⟨file_name, _, d, _, ino, _, r, hr, tbl, htbl, hfin⟩ := h
    obtain ⟨buf1, br1, pos1⟩ := r
    have hpos := RSFS_read_loop_pos c ino s.data_blocks _ _ _ _ _ _ _ _ hr
    simp only [setI, hfd0, hlt, and_self, if_true] at htbl
    cases htbl
    cases hfin
    simp only [hpos, sub_zero]
  · intro file_name d ino hname hdir hino hlen
    obtain ⟨u, a, p, de⟩ := entry
    simp only at hname hlen
    subst hname
    unfold RSFS_read
    rw [if_neg hguard]
    have hset : setI s.open_file_table fd ⟨u, a, p, some file_name⟩ =
        some s.open_file_table := by
      simp [setI, hfd0, hlt, set_same _ _ _ hget]
    simp only [hentry, hdir, hino, RSFS_read_loop_eof c ino s.data_blocks _ _ _ _ _ hlen,
      hset, Option.bind_eq_bind, Option.some_bind]

theorem RSFS_read_effect_witness :
    (∀ (s1 : State) (out : List Nat) (k : Int),
      RSFS_read tiny st_hello2 0 3 = some (s1, out, k) →
      s1 = { st_hello2 with
             open_file_table := [⟨1, 1, 5 + k, some "a.txt"⟩, ⟨1, 0, 0, some "a.txt"⟩] }) ∧
    (∀ (file_name : String) (d : dir_entry) (ino : inode),
      some "a.txt" = some file_name →
      search_dir file_name st_hello2.root_dir = some d →
      getI st_hello2.inodes d.inode_number = some ino →
      ino.length ≤ 5 →
      RSFS_read tiny st_hello2 0 3 = some (st_hello2, [], 0)) :=
  RSFS_read_effect tiny st_hello2 0 3 ⟨1, 1, 5, some "a.txt"⟩
    (by decide) (by decide) (by decide) (by decide)

/-! ## `RSFS_write` does not read the open file table beyond the slot's position -/

theorem allocate_data_block_loop_with_table (t : List open_file_entry) (s : State) :
    ∀ (fuel i : Nat), allocate_data_block_loop (with_table t s) fuel i =
      (allocate_data_block_loop s fuel i).map (fun r => (with_table t r.1, r.2)) := by
  intro fuel
  induction fuel with
  | zero => intro i; rfl
  | succ fuel ih =>
    intro i
    unfold allocate_data_block_loop
    show (match s.data_bitmap[i]? with
      | none => none
      | some b =>
        if b = 0 then
          some ({ with_table t s with data_bitmap := (with_table t s).data_bitmap.set i 1 },
            (i : Int))
        else allocate_data_block_loop (with_table t s) fuel (i + 1)) = _
    cases s.data_bitmap[i]? with
    | none => rfl
    | some b =>
      by_cases hb : b = 0
      · simp only [hb, if_true, Option.map_some']; rfl
      · simp only [hb, if_false, ih]

theorem resolve_block_with_table (c : Consts) (t : List open_file_entry) (s : State)
    (inum k : Int) :
    resolve_block c (with_table t s) inum k =
      (resolve_block c s inum k).map (fun r => (with_table t r.1, r.2)) := by
  unfold resolve_block allocate_data_block
  rw [allocate_data_block_loop_with_table]
  show ((getI s.inodes inum).bind _) = _
  cases getI s.inodes inum with
  | none => rfl
  | some ino =>
    simp only [Option.bind_eq_bind, Option.some_bind]
    cases getI ino.block k with
    | none => rfl
    | some cur =>
      simp only [Option.some_bind]
      by_cases hc : cur = -1
      · simp only [hc, if_true]
        cases allocate_data_block_loop s c.NUM_DBLOCKS 0 with
        | none => rfl
        | some a =>
          simp only [Option.map_some', Option.some_bind]
          by_cases ha : a.2 < 0
          · simp only [ha, if_true, Option.map_some']
          · simp only [ha, if_false]
            show ((getI a.1.inodes inum).bind _) = _
            cases getI a.1.inodes inum with
            | none => rfl
            | some ino1 =>
              simp only [Option.some_bind]
              cases setI ino1.block k a.2 with
              | none => rfl
              | some slots =>
                simp only [Option.some_bind]
                show ((setI a.1.inodes inum _).bind _) = _
                cases setI a.1.inodes inum { ino1 with block := slots } with
                | none => rfl
                | some ins => rfl
      · simp only [hc, if_false, Option.map_some']

theorem RSFS_write_loop_with_table (c : Consts) (inum : Int) (buf : List Nat)
    (t : List open_file_entry) :
    ∀ (fuel : Nat) (s : State) (bw rem pos : Int),
      RSFS_write_loop c inum buf fuel (with_table t s) bw rem pos =
        (RSFS_write_loop c inum buf fuel s bw rem pos).map
          (fun r => (with_table t r.1, r.2)) := by
  intro fuel
  induction fuel with
  | zero =>
    intro s bw rem pos
    simp only [RSFS_write_loop]
    split <;> rfl
  | succ fuel ih =>
    intro s bw rem pos
    simp only [RSFS_write_loop, resolve_block_with_table]
    by_cases hrem : rem > 0
    · simp only [hrem, if_true]
      by_cases hb : c.BLOCK_SIZE = 0
      · simp only [hb, if_true, Option.map_none']
      · simp only [hb, if_false]
        by_cases hk : pos.tdiv (c.BLOCK_SIZE : Int) ≥ c.NUM_POINTER
        · simp only [hk, if_true, Option.map_some']
        · simp only [hk, if_false]
          cases resolve_block c s inum (pos.tdiv (c.BLOCK_SIZE : Int)) with
          | none => rfl
          | some r =>
            obtain ⟨s1, ob⟩ := r
            cases ob with
            | none => rfl
            | some b =>
              simp only [Option.map_some']
              show (match getI s1.data_blocks b with
                | none => none
                | some blk => _) = _
              cases getI s1.data_blocks b with
              | none => rfl
              | some blk =>
                simp only
                split
                · rfl
                · show (match setI s1.data_blocks b _ with
                    | none => none
                    | some blocks => _) = _
                  split
                  · rfl
                  · next blocks _ => exact ih { s1 with data_blocks := blocks } _ _ _
    · simp only [hrem, if_false, Option.map_some']

/-- The loop of `RSFS_write` returns the open file table it was given. -/
theorem RSFS_write_loop_table (c : Consts) (inum : Int) (buf : List Nat) (fuel : Nat)
    (s s1 : State) (bw rem pos bw1 pos1 : Int)
    (h : RSFS_write_loop c inum buf fuel s bw rem pos = some (s1, bw1, pos1)) :
    s1.open_file_table = s.open_file_table := by
  have hc := RSFS_write_loop_with_table c inum buf s.open_file_table fuel s bw rem pos
  have hs : with_table s.open_file_table s = s := rfl
  rw [hs, h] at hc
  simp only [Option.map_some', Option.some.injEq, Prod.mk.injEq] at hc
  have := congrArg State.open_file_table hc.1
  exact this

/-- C20: `RSFS_write` on the state with the access flag of slot `fd` replaced by
any value `a` returns what it returns on the state itself, with the same flag
replaced in the resulting state (and is undefined exactly when it is
undefined there): the access flag is never read.  So the write of 5 bytes
through a descriptor opened with `RSFS_RDONLY` returns 5 and gives the file its
blocks and its length 5. -/
theorem RSFS_write_access_flag :
    (∀ (c : Consts) (s : State) (fd a : Int) (buf : List Nat) (size : Int),
      RSFS_write c (set_access_flag s fd.toNat a) fd buf size =
        (RSFS_write c s fd buf size).map
          (fun r => (set_access_flag r.1 fd.toNat a, r.2))) ∧
    RSFS_open tiny st_a "a.txt" tiny.RSFS_RDONLY = some (set_access_flag st_open 0 0, 0) ∧
    RSFS_write tiny (set_access_flag st_open 0 0) 0 hello 5 =
      some (set_access_flag st_hello 0 0, 5) := by
  refine ⟨?_, by decide, by decide⟩
  intro c s fd a buf size
  by_cases hguard : fd < 0 ∨ fd ≥ c.NUM_OPEN_FILE ∨ size ≤ 0
  · unfold RSFS_write
    rw [if_pos hguard, if_pos hguard]
    rfl
  · have h0 : 0 ≤ fd := by omega
    cases hget : s.open_file_table[fd.toNat]? with
    | none =>
      have hs : set_access_flag s fd.toNat a = s := by
        unfold set_access_flag; rw [hget]
      have hn : RSFS_write c s fd buf size = none := by
        unfold RSFS_write
        rw [if_neg hguard]
        simp [getI, h0, hget]
      rw [hs, hn]
      rfl
    | some entry =>
      obtain ⟨u, fl, p, de⟩ := entry
      have hlt : fd.toNat < s.open_file_table.length := (List.getElem?_eq_some_iff.1 hget).1
      have hs : set_access_flag s fd.toNat a =
          with_table (s.open_file_table.set fd.toNat ⟨u, a, p, de⟩) s := by
        unfold set_access_flag; rw [hget]
      have hg1 : getI s.open_file_table fd = some ⟨u, fl, p, de⟩ := by
        simp [getI, h0, hget]
      have hg2 : getI (with_table (s.open_file_table.set fd.toNat ⟨u, a, p, de⟩)
          s).open_file_table fd = some ⟨u, a, p, de⟩ := by
        simp [getI, h0, with_table, List.getElem?_set_self hlt]
      rw [hs]
      unfold RSFS_write
      rw [if_neg hguard, if_neg hguard]
      simp only [hg1, hg2, Option.bind_eq_bind, Option.some_bind]
      cases de with
      | none => rfl
      | some file_name =>
        simp only [Option.some_bind]
        show ((search_dir file_name s.root_dir).bind _) = _
        cases search_dir file_name s.root_dir with
        | none => rfl
        | some d =>
          simp only [Option.some_bind, RSFS_write_loop_with_table]
          cases hloop : RSFS_write_loop c d.inode_number buf size.toNat s 0 size p with
          | none => rfl
          | some r =>
            obtain ⟨s1, bw1, pos1⟩ := r
            have ht := RSFS_write_loop_table c _ _ _ _ _ _ _ _ _ _ hloop
            have hlt1 : fd.toNat < s1.open_file_table.length := by rw [ht]; exact hlt
            simp only [Option.map_some', Option.some_bind, with_table, setI, h0, ht, hlt,
              List.length_set, and_self, if_true, List.set_set]
            cases getI s1.inodes d.inode_number with
            | none => rfl
            | some ino =>
              simp only [Option.some_bind]
              have hfin : ∀ ins : List inode,
                  set_access_flag
                    { s1 with
                      open_file_table := s.open_file_table.set fd.toNat ⟨u, fl, pos1, some file_name⟩,
                      inodes := ins } fd.toNat a =
                  { s1 with
                    open_file_table := s.open_file_table.set fd.toNat ⟨u, a, pos1, some file_name⟩,
                    inodes := ins } := by
                intro ins
                unfold set_access_flag
                simp only [List.getElem?_set_self hlt, with_table, List.set_set]
              by_cases hgrow : pos1 > ino.length
              · simp only [hgrow, if_true]
                split
                · simp only [Option.some_bind, Option.map_some', hfin]
                · rfl
              · simp only [hgrow, if_false, Option.some_bind, Option.map_some', hfin]

/-! ## One iteration of the loop of `RSFS_write` -/

/-- The two outcomes of the scan of `allocate_data_block`: no index in the
scanned range is free and the state is returned with `-1`, or the lowest free
index `j` is marked and returned. -/
theorem allocate_data_block_loop_cases (s : State) :
    ∀ (fuel i : Nat) (s1 : State) (r : Int),
      allocate_data_block_loop s fuel i = some (s1, r) →
      (s1 = s ∧ r = -1 ∧ ∀ k, i ≤ k → k < i + fuel → s.data_bitmap[k]? ≠ some 0) ∨
      (∃ j : Nat, i ≤ j ∧ j < i + fuel ∧ s.data_bitmap[j]? = some 0 ∧
        s1 = { s with data_bitmap := s.data_bitmap.set j 1 } ∧ r = (j : Int)) := by
  intro fuel
  induction fuel with
  | zero =>
    intro i s1 r h
    unfold allocate_data_block_loop at h
    cases h
    exact Or.inl ⟨rfl, rfl, fun k h1 h2 => by omega⟩
  | succ fuel ih =>
    intro i s1 r h
    unfold allocate_data_block_loop at h
    cases hb : s.data_bitmap[i]? with
    | none => rw [hb] at h; cases h
    | some b =>
      rw [hb] at h
      simp only at h
      by_cases h0 : b = 0
      · rw [if_pos h0] at h
        cases h
        exact Or.inr ⟨i, le_refl i, by omega, by rw [hb, h0], rfl, rfl⟩
      · rw [if_neg h0] at h
        rcases ih (i + 1) s1 r h with ⟨e1, e2, hall⟩ | ⟨j, h1, h2, h3, h4, h5⟩
        · refine Or.inl ⟨e1, e2, fun k hk1 hk2 => ?_⟩
          by_cases hki : k = i
          · subst hki
            rw [hb]
            intro hc
            exact h0 (Option.some.inj hc)
          · exact hall k (by omega) (by omega)
        · exact Or.inr ⟨j, by omega, by omega, h3, h4, h5⟩

/-- The three outcomes of lines 232-242: the slot is bound and nothing changes;
the slot holds `-1` and no block is free (the `break`); the slot holds `-1` and
the lowest free block `j` is marked used and bound to it. -/
theorem resolve_block_cases (c : Consts) (s s1 : State) (inum k : Int) (ob : Option Int)
    (h : resolve_block c s inum k = some (s1, ob)) :
    ∃ (ino : inode) (cur : Int), getI s.inodes inum = some ino ∧
      getI ino.block k = some cur ∧
      ((cur ≠ -1 ∧ s1 = s ∧ ob = some cur) ∨
       (cur = -1 ∧ s1 = s ∧ ob = none ∧
          ∀ j, j < c.NUM_DBLOCKS → s.data_bitmap[j]? ≠ some 0) ∨
       (cur = -1 ∧ ∃ j : Nat, j < c.NUM_DBLOCKS ∧ s.data_bitmap[j]? = some 0 ∧
          ob = some (j : Int) ∧
          s1 = { s with data_bitmap := s.data_bitmap.set j 1,
                        inodes := s.inodes.set inum.toNat
                          { ino with block := ino.block.set k.toNat (j : Int) } })) := by
  unfold resolve_block at h
  simp only [Option.bind_eq_bind, Option.bind_eq_some] at h
  obtain ⟨ino, hino, cur, hcur, h⟩ := h
  refine ⟨ino, cur, hino, hcur, ?_⟩
  by_cases hc : cur = -1
  · rw [if_pos hc] at h
    simp only [Option.bind_eq_some] at h
    obtain ⟨a, ha, h⟩ := h
    obtain ⟨sa, ra⟩ := a
    unfold allocate_data_block at ha
    rcases allocate_data_block_loop_cases s _ _ _ _ ha with ⟨e1, e2, hall⟩ | ⟨j, _, hj, hfree, e1, e2⟩
    · subst e1 e2
      simp only [show ((-1 : Int) < 0) from by omega, if_true] at h
      cases h
      exact Or.inr (Or.inl ⟨hc, rfl, rfl, fun j hj => hall j (Nat.zero_le _) (by omega)⟩)
    · subst e1 e2
      simp only [show ¬ ((j : Int) < 0) from by omega, if_false, Option.bind_eq_some] at h
      obtain ⟨ino1, hino1, slots, hslots, ins, hins, h⟩ := h
      have e : ino1 = ino := by
        have : getI s.inodes inum = some ino1 := hino1
        rw [hino] at this
        exact (Option.some.inj this).symm
      subst e
      obtain ⟨hk0, hklt, _⟩ := getI_eq_some hcur
      obtain ⟨hi0, hilt, _⟩ := getI_eq_some hino
      simp only [setI, hk0, hklt, and_self, if_true, Option.some.injEq] at hslots
      subst hslots
      have hilt1 : inum.toNat <
          ({ s with data_bitmap := s.data_bitmap.set j 1 } : State).inodes.length := hilt
      simp only [setI, hi0, hilt1, and_self, if_true, Option.some.injEq] at hins
      subst hins
      cases h
      exact Or.inr (Or.inr ⟨hc, j, by omega, hfree, rfl, rfl⟩)
  · rw [if_neg hc] at h
    cases h
    exact Or.inl ⟨hc, rfl, rfl⟩

/-- Invariant rule for the loop of `RSFS_write`: a property of the state and of
`bytesWritten`, `remainingBytes`, `currentPos` that every full iteration
preserves holds at loop exit (a `break` leaves all four as they are). -/
theorem RSFS_write_loop_rule (c : Consts) (inum : Int) (buf : List Nat)
    (I : State → Int → Int → Int → Prop)
    (hstep : ∀ (s s1 : State) (bw rem pos b : Int) (blk blk1 : List Nat)
      (blocks : List (List Nat)),
      I s bw rem pos → rem > 0 → c.BLOCK_SIZE ≠ 0 →
      pos.tdiv (c.BLOCK_SIZE : Int) < c.NUM_POINTER →
      resolve_block c s inum (pos.tdiv (c.BLOCK_SIZE : Int)) = some (s1, some b) →
      getI s1.data_blocks b = some blk →
      memwrite blk (pos.tmod (c.BLOCK_SIZE : Int)) buf bw (bytes_in_block c rem pos) =
        some blk1 →
      setI s1.data_blocks b blk1 = some blocks →
      I { s1 with data_blocks := blocks } (bw + bytes_in_block c rem pos)
        (rem - bytes_in_block c rem pos) (pos + bytes_in_block c rem pos)) :
    ∀ (fuel : Nat) (s : State) (bw rem pos : Int) (s2 : State) (bw2 pos2 : Int),
      I s bw rem pos →
      RSFS_write_loop c inum buf fuel s bw rem pos = some (s2, bw2, pos2) →
      ∃ rem2, I s2 bw2 rem2 pos2 := by
  intro fuel
  induction fuel with
  | zero =>
    intro s bw rem pos s2 bw2 pos2 hI h
    simp only [RSFS_write_loop] at h
    split at h
    · cases h
    · cases h; exact ⟨rem, hI⟩
  | succ fuel ih =>
    intro s bw rem pos s2 bw2 pos2 hI h
    simp only [RSFS_write_loop] at h
    by_cases hrem : rem > 0
    · simp only [hrem, if_true] at h
      by_cases hb : c.BLOCK_SIZE = 0
      · simp only [hb, if_true] at h; cases h
      · simp only [hb, if_false] at h
        by_cases hk : pos.tdiv (c.BLOCK_SIZE : Int) ≥ c.NUM_POINTER
        · simp only [hk, if_true] at h
          cases h; exact ⟨rem, hI⟩
        · simp only [hk, if_false] at h
          cases hres : resolve_block c s inum (pos.tdiv (c.BLOCK_SIZE : Int)) with
          | none => rw [hres] at h; cases h
          | some r =>
            obtain ⟨s1, ob⟩ := r
            rw [hres] at h
            cases ob with
            | none =>
              simp only at h
              cases h
              obtain ⟨_, _, _, _, hc⟩ := resolve_block_cases c s s2 inum _ _ hres
              rcases hc with ⟨_, _, hx⟩ | ⟨_, e, _⟩ | ⟨_, _, _, _, hx, _⟩
              · cases hx
              · rw [e]; exact ⟨rem, hI⟩
              · cases hx
            | some b =>
              simp only at h
              cases hblk : getI s1.data_blocks b with
              | none => rw [hblk] at h; cases h
              | some blk =>
                rw [hblk] at h
                simp only at h
                cases hmw : memwrite blk (pos.tmod (c.BLOCK_SIZE : Int)) buf bw
                    (bytes_in_block c rem pos) with
                | none =>
                  unfold bytes_in_block at hmw
                  rw [hmw] at h; cases h
                | some blk1 =>
                  have hmw1 := hmw
                  unfold bytes_in_block at hmw1
                  rw [hmw1] at h
                  simp only at h
                  cases hset : setI s1.data_blocks b blk1 with
                  | none => rw [hset] at h; cases h
                  | some blocks =>
                    rw [hset] at h
                    simp only at h
                    exact ih _ _ _ _ _ _ _
                      (hstep s s1 bw rem pos b blk blk1 blocks hI hrem hb (by omega) hres
                        hblk hmw hset) h
    · simp only [hrem, if_false] at h
      cases h; exact ⟨rem, hI⟩

theorem map_set_same {α β : Type} (f : α → β) (l : List α) (i : Nat) (x y : α)
    (hx : l[i]? = some x) (hf : f y = f x) : (l.set i y).map f = l.map f := by
  apply List.ext_getElem?
  intro n
  simp only [List.getElem?_map]
  by_cases hn : i = n
  · subst hn
    rw [List.getElem?_set_self (List.getElem?_eq_some_iff.1 hx).1, hx]
    simp [hf]
  · rw [List.getElem?_set_ne hn]

/-- What the loop of `RSFS_write` leaves alone: the directory, the inode bitmap
and the length of every inode; and `currentPos` moves by what is added to
`bytesWritten`. -/
theorem RSFS_write_loop_frame (c : Consts) (inum : Int) (buf : List Nat) (fuel : Nat)
    (s s2 : State) (bw rem pos bw2 pos2 : Int)
    (h : RSFS_write_loop c inum buf fuel s bw rem pos = some (s2, bw2, pos2)) :
    s2.root_dir = s.root_dir ∧ s2.inode_bitmap = s.inode_bitmap ∧
    s2.inodes.map (fun n => n.length) = s.inodes.map (fun n => n.length) ∧
    pos2 - bw2 = pos - bw := by
  have hrule := RSFS_write_loop_rule c inum buf
    (fun t b _ p => t.root_dir = s.root_dir ∧ t.inode_bitmap = s.inode_bitmap ∧
      t.inodes.map (fun n => n.length) = s.inodes.map (fun n => n.length) ∧
      p - b = pos - bw)
    (by
      intro t t1 b r p blkn blk blk1 blocks hI _ _ _ hres _ _ _
      obtain ⟨h1, h2, h3, h4⟩ := hI
      obtain ⟨ino, cur, hino, _, hc⟩ := resolve_block_cases c t t1 inum _ _ hres
      obtain ⟨_, _, hget⟩ := getI_eq_some hino
      rcases hc with ⟨_, e, _⟩ | ⟨_, e, _⟩ | ⟨_, j, _, _, _, e⟩
      · subst e; exact ⟨h1, h2, h3, by omega⟩
      · subst e; exact ⟨h1, h2, h3, by omega⟩
      · subst e
        refine ⟨h1, h2, ?_, by omega⟩
        show (t.inodes.set inum.toNat _).map _ = _
        exact (map_set_same (fun n : inode => n.length) t.inodes inum.toNat ino
          { ino with block := ino.block.set (p.tdiv (c.BLOCK_SIZE : Int)).toNat (j : Int) }
          hget rfl).trans h3)
    fuel s bw rem pos s2 bw2 pos2 ⟨rfl, rfl, rfl, rfl⟩ h
  obtain ⟨_, hI⟩ := hrule
  exact hI

/-! ## Position and length after `RSFS_write` -/

/-- The state `st_over` is reached from program start: `RSFS_init`,
`RSFS_create("a.txt")`, `RSFS_open` (descriptor 0), a write of `hello`,
`RSFS_open` (descriptor 1) and a read of 10 bytes through descriptor 1. -/
theorem st_over_reached :
    (RSFS_init two_slots (fun _ => some []) (boot two_slots)).bind (fun r0 =>
      (RSFS_create two_slots r0.1 "a.txt").bind (fun r1 =>
        (RSFS_open two_slots r1.1 "a.txt" two_slots.RSFS_RDWR).bind (fun r2 =>
          (RSFS_write two_slots r2.1 r2.2 hello 5).bind (fun r3 =>
            (RSFS_open two_slots r3.1 "a.txt" two_slots.RSFS_RDONLY).bind (fun r4 =>
              RSFS_read two_slots r4.1 r4.2 10))))) =
      some (st_over, [104, 101, 108, 108, 111, 0, 0, 0], 8) := by
  decide

/-- C15, as stated, fails on `st_over`: descriptor 1 is at position 8 on a file
of length 5 whose 2 block slots are both bound.  The write of 1 byte returns 0
and leaves the position at 8, but the length of the file becomes 8. -/
theorem RSFS_write_zero_grows_length :
    RSFS_write two_slots st_over 1 [120] 1 =
      some ({ st_over with inodes := [⟨8, [0, 1]⟩, ⟨0, [-1, -1]⟩] }, 0) := by
  decide

/-- C15, as the code has it: for a descriptor in range with position `p` on a
file of length `L` and a positive size, after a write that returns `k` the
position of the slot is `p + k` and the length of the inode is
`max L (p + k)`; a write that returns 0 therefore keeps the position and
leaves the length at `max L p`. -/
theorem RSFS_write_position_length (c : Consts) (s s1 : State) (fd size k : Int)
    (buf : List Nat) (entry : open_file_entry) (file_name : String) (d : dir_entry)
    (ino : inode) (hfd0 : 0 ≤ fd) (hfd : fd < c.NUM_OPEN_FILE) (hsize : 0 < size)
    (hentry : getI s.open_file_table fd = some entry)
    (hname : entry.dir_entry = some file_name)
    (hdir : search_dir file_name s.root_dir = some d)
    (hino : getI s.inodes d.inode_number = some ino)
    (h : RSFS_write c s fd buf size = some (s1, k)) :
    ∃ (entry1 : open_file_entry) (ino1 : inode),
      getI s1.open_file_table fd = some entry1 ∧
      entry1.position = entry.position + k ∧
      getI s1.inodes d.inode_number = some ino1 ∧
      ino1.length = max ino.length (entry.position + k) := by
  have hguard : ¬ (fd < 0 ∨ fd ≥ c.NUM_OPEN_FILE ∨ size ≤ 0) := by omega
  obtain ⟨_, hlt, _⟩ := getI_eq_some hentry
  obtain ⟨hi0, hilt, hget⟩ := getI_eq_some hino
  unfold RSFS_write at h
  rw [if_neg hguard] at h
  simp only [hentry, hname, hdir, Option.bind_eq_bind, Option.some_bind] at h
  cases hr : RSFS_write_loop c d.inode_number buf size.toNat s 0 size entry.position with
  | none => rw [hr] at h; cases h
  | some r =>
    obtain ⟨s2, bw2, pos2⟩ := r
    obtain ⟨_, _, hlens, hpos⟩ := RSFS_write_loop_frame c _ _ _ _ _ _ _ _ _ _ hr
    have ht := RSFS_write_loop_table c _ _ _ _ _ _ _ _ _ _ hr
    have hlt2 : fd.toNat < s2.open_file_table.length := by rw [ht]; exact hlt
    have hk : pos2 = entry.position + bw2 := by omega
    rw [hr] at h
    simp only [Option.some_bind, setI, hfd0, hlt2, and_self, if_true] at h
    cases hino1 : getI s2.inodes d.inode_number with
    | none => rw [hino1] at h; cases h
    | some ino1 =>
      obtain ⟨_, hilt1, hget1⟩ := getI_eq_some hino1
      have hlen1 : ino1.length = ino.length := by
        have e := congrArg (fun l => l[d.inode_number.toNat]?) hlens
        simp only [List.getElem?_map, hget, hget1, Option.map_some', Option.some.injEq] at e
        exact e
      rw [hino1] at h
      simp only [Option.some_bind] at h
      refine ⟨{ entry with position := pos2 }, ?_⟩
      by_cases hgrow : pos2 > ino1.length
      · simp only [hgrow, if_true, hi0, hilt1, and_self, Option.some_bind,
          Option.some.injEq, Prod.mk.injEq] at h
        obtain ⟨e1, e2⟩ := h
        subst e1 e2
        refine ⟨{ ino1 with length := pos2 }, ?_, hk, ?_, ?_⟩
        · simp [getI, hfd0, List.getElem?_set_self hlt2, hname]
        · simp [getI, hi0, List.getElem?_set_self hilt1]
        · show pos2 = max ino.length (entry.position + bw2)
          rw [← hk, max_eq_right (by omega)]
      · simp only [hgrow, if_false, Option.some_bind, Option.some.injEq,
          Prod.mk.injEq] at h
        obtain ⟨e1, e2⟩ := h
        subst e1 e2
        refine ⟨ino1, ?_, hk, hino1, ?_⟩
        · simp [getI, hfd0, List.getElem?_set_self hlt2, hname]
        · rw [hlen1, ← hk, max_eq_left (by omega)]

theorem RSFS_write_position_length_witness :
    ∃ (entry1 : open_file_entry) (ino1 : inode),
      getI st_hello.open_file_table 0 = some entry1 ∧
      entry1.position = 0 + 5 ∧
      getI st_hello.inodes 0 = some ino1 ∧
      ino1.length = max 0 (0 + 5) :=
  RSFS_write_position_length tiny st_open st_hello 0 5 5 hello ⟨1, 1, 0, some "a.txt"⟩
    "a.txt" ⟨"a.txt", 0⟩ ⟨0, [-1, -1, -1]⟩ (by decide) (by decide) (by decide) (by decide)
    (by decide) (by decide) (by decide) (by decide)

/-! ## `RSFS_write` keeps the ownership of data blocks exclusive -/

/-- The bound slots after lines 232-242 have bound a free block `j` to slot `k`
of inode `inum`: the slots bound before, and that one. -/
theorem holds_fresh (t : State) (inum k : Int) (ino : inode) (j : Nat) (x : List (List Nat))
    (hino : getI t.inodes inum = some ino) (hcur : getI ino.block k = some (-1))
    (i1 j1 : Nat) (b : Int) :
    holds { t with data_blocks := x, data_bitmap := t.data_bitmap.set j 1,
                   inodes := t.inodes.set inum.toNat
                     { ino with block := ino.block.set k.toNat (j : Int) } } i1 j1 b ↔
      (i1 = inum.toNat ∧ j1 = k.toNat ∧ b = (j : Int)) ∨ holds t i1 j1 b := by
  obtain ⟨_, hilt, hget⟩ := getI_eq_some hino
  obtain ⟨_, hklt, hgetk⟩ := getI_eq_some hcur
  unfold holds
  show (∃ n, (t.inodes.set inum.toNat _)[i1]? = some n ∧ _) ↔ _
  by_cases hi : inum.toNat = i1
  · subst hi
    rw [List.getElem?_set_self hilt]
    by_cases hj : k.toNat = j1
    · subst hj
      constructor
      · rintro ⟨n, hn, hb, hne⟩
        cases hn
        simp only [List.getElem?_set_self hklt, Option.some.injEq] at hb
        exact Or.inl ⟨rfl, rfl, hb.symm⟩
      · rintro (⟨_, _, hb⟩ | ⟨n, hn, hb, hne⟩)
        · refine ⟨_, rfl, ?_, by omega⟩
          simp only [List.getElem?_set_self hklt, hb]
        · rw [hget] at hn
          cases hn
          rw [hgetk] at hb
          exact absurd (Option.some.inj hb).symm hne
    · constructor
      · rintro ⟨n, hn, hb, hne⟩
        cases hn
        simp only [List.getElem?_set_ne hj] at hb
        exact Or.inr ⟨ino, hget, hb, hne⟩
      · rintro (⟨_, hj1, _⟩ | ⟨n, hn, hb, hne⟩)
        · exact absurd hj1.symm hj
        · rw [hget] at hn
          cases hn
          refine ⟨_, rfl, ?_, hne⟩
          simp only [List.getElem?_set_ne hj]
          exact hb
  · rw [List.getElem?_set_ne hi]
    constructor
    · rintro ⟨n, hn, hb, hne⟩
      exact Or.inr ⟨n, hn, hb, hne⟩
    · rintro (⟨hi1, _, _⟩ | h)
      · exact absurd hi1.symm hi
      · exact h

/-- Whether a slot is bound depends on the block lists of the inodes only. -/
theorem holds_congr (s t : State)
    (h : t.inodes.map (fun n => n.block) = s.inodes.map (fun n => n.block))
    (i j : Nat) (b : Int) : holds s i j b → holds t i j b := by
  rintro ⟨ino, hino, hb, hne⟩
  have e := congrArg (fun l => l[i]?) h
  simp only [List.getElem?_map, hino, Option.map_some'] at e
  cases ht : t.inodes[i]? with
  | none => rw [ht] at e; cases e
  | some n =>
    rw [ht] at e
    simp only [Option.map_some', Option.some.injEq] at e
    exact ⟨n, ht, by rw [e]; exact hb, hne⟩

/-- The loop of `RSFS_write` keeps ownership exclusive; it leaves every bound
slot as it is, binds only blocks that were free and marks them used, and
changes the data bitmap only by marking free blocks. -/
theorem RSFS_write_loop_exclusive (c : Consts) (inum : Int) (buf : List Nat) (fuel : Nat)
    (s s2 : State) (bw rem pos bw2 pos2 : Int) (hex : exclusive c s)
    (h : RSFS_write_loop c inum buf fuel s bw rem pos = some (s2, bw2, pos2)) :
    exclusive c s2 ∧
    (∀ i j b, holds s i j b → holds s2 i j b) ∧
    (∀ i j b, holds s2 i j b → ¬ holds s i j b →
      block_free s b ∧ s2.data_bitmap[b.toNat]? = some 1) ∧
    (∀ (n : Nat) (v : Int), s2.data_bitmap[n]? = some v →
      s.data_bitmap[n]? = some v ∨ (s.data_bitmap[n]? = some 0 ∧ v = 1)) := by
  have hrule := RSFS_write_loop_rule c inum buf
    (fun t _ _ _ => exclusive c t ∧
      (∀ i j b, holds s i j b → holds t i j b) ∧
      (∀ i j b, holds t i j b → ¬ holds s i j b →
        block_free s b ∧ t.data_bitmap[b.toNat]? = some 1) ∧
      (∀ (n : Nat) (v : Int), t.data_bitmap[n]? = some v →
        s.data_bitmap[n]? = some v ∨ (s.data_bitmap[n]? = some 0 ∧ v = 1)))
    (by
      intro t t1 b r p blkn blk blk1 blocks hI _ _ _ hres _ _ _
      obtain ⟨ino, cur, hino, hcur, hc⟩ := resolve_block_cases c t t1 inum _ _ hres
      rcases hc with ⟨_, e, _⟩ | ⟨_, e, _⟩ | ⟨hm1, j, hjN, hj0, _, e⟩
      · subst e; exact hI
      · subst e; exact hI
      · subst e
        subst hm1
        obtain ⟨⟨hx1, hx2⟩, hk2, hk3, hk4⟩ := hI
        have hjl : j < t.data_bitmap.length := (List.getElem?_eq_some_iff.1 hj0).1
        have hsj : s.data_bitmap[j]? = some 0 := by
          rcases hk4 j 0 hj0 with h1 | ⟨h1, _⟩
          · exact h1
          · exact h1
        have hold : ∀ i1 j1, ¬ holds t i1 j1 (j : Int) := by
          intro i1 j1 hh
          obtain ⟨_, _, v, hv, hv0⟩ := hx1 i1 j1 _ hh
          rw [Int.toNat_natCast, hj0] at hv
          exact hv0 (Option.some.inj hv).symm
        have hfl : ∀ (n : Nat) (v : Int), t.data_bitmap[n]? = some v → v ≠ 0 →
            ∃ v1, (t.data_bitmap.set j 1)[n]? = some v1 ∧ v1 ≠ 0 := by
          intro n v hv hv0
          by_cases hjn : j = n
          · subst hjn
            exact ⟨1, List.getElem?_set_self hjl, by omega⟩
          · exact ⟨v, by rw [List.getElem?_set_ne hjn]; exact hv, hv0⟩
        refine ⟨⟨?_, ?_⟩, ?_, ?_, ?_⟩
        · intro i1 j1 b1 hh
          rcases (holds_fresh t inum _ ino j blocks hino hcur i1 j1 b1).1 hh with
            ⟨_, _, hb⟩ | hh1
          · subst hb
            refine ⟨by omega, by omega, 1, ?_, by omega⟩
            show (t.data_bitmap.set j 1)[((j : Int)).toNat]? = some 1
            rw [Int.toNat_natCast]
            exact List.getElem?_set_self hjl
          · obtain ⟨hlt, h0, v, hv, hv0⟩ := hx1 i1 j1 b1 hh1
            exact ⟨hlt, h0, hfl _ v hv hv0⟩
        · intro i1 j1 i2 j2 b1 hh hh2
          rcases (holds_fresh t inum _ ino j blocks hino hcur i1 j1 b1).1 hh with
            ⟨e1, e2, hb⟩ | hh1
          · rcases (holds_fresh t inum _ ino j blocks hino hcur i2 j2 b1).1 hh2 with
              ⟨e3, e4, _⟩ | hh3
            · exact ⟨e1.trans e3.symm, e2.trans e4.symm⟩
            · subst hb
              exact absurd hh3 (hold i2 j2)
          · rcases (holds_fresh t inum _ ino j blocks hino hcur i2 j2 b1).1 hh2 with
              ⟨_, _, hb⟩ | hh3
            · subst hb
              exact absurd hh1 (hold i1 j1)
            · exact hx2 i1 j1 i2 j2 b1 hh1 hh3
        · intro i1 j1 b1 hh
          exact (holds_fresh t inum _ ino j blocks hino hcur i1 j1 b1).2 (Or.inr (hk2 _ _ _ hh))
        · intro i1 j1 b1 hh hns
          rcases (holds_fresh t inum _ ino j blocks hino hcur i1 j1 b1).1 hh with
            ⟨_, _, hb⟩ | hh1
          · subst hb
            refine ⟨⟨by omega, by rw [Int.toNat_natCast]; exact hsj⟩, ?_⟩
            show (t.data_bitmap.set j 1)[((j : Int)).toNat]? = some 1
            rw [Int.toNat_natCast]
            exact List.getElem?_set_self hjl
          · obtain ⟨hf, h1⟩ := hk3 i1 j1 b1 hh1 hns
            refine ⟨hf, ?_⟩
            show (t.data_bitmap.set j 1)[b1.toNat]? = some 1
            by_cases hjn : j = b1.toNat
            · rw [← hjn]; exact List.getElem?_set_self hjl
            · rw [List.getElem?_set_ne hjn]; exact h1
        · intro n v hv
          have hv1 : (t.data_bitmap.set j 1)[n]? = some v := hv
          by_cases hjn : j = n
          · subst hjn
            rw [List.getElem?_set_self hjl] at hv1
            exact Or.inr ⟨hsj, (Option.some.inj hv1).symm⟩
          · rw [List.getElem?_set_ne hjn] at hv1
            exact hk4 n v hv1)
    fuel s bw rem pos s2 bw2 pos2
    ⟨hex, fun _ _ _ hh => hh, fun _ _ _ hh hn => absurd hh hn, fun _ _ hv => Or.inl hv⟩ h
  obtain ⟨_, hI⟩ := hrule
  exact hI

/-- The shape of every defined result of `RSFS_write`: either the arguments are
rejected, or the loop runs on the inode of the slot's directory entry and
then the position of the slot and the length of the inode are stored. -/
theorem RSFS_write_cases (c : Consts) (s s1 : State) (fd size r : Int) (buf : List Nat)
    (h : RSFS_write c s fd buf size = some (s1, r)) :
    ((fd < 0 ∨ fd ≥ c.NUM_OPEN_FILE ∨ size ≤ 0) ∧ s1 = s ∧ r = -1) ∨
    (¬ (fd < 0 ∨ fd ≥ c.NUM_OPEN_FILE ∨ size ≤ 0) ∧
      ∃ (entry : open_file_entry) (file_name : String) (d : dir_entry) (s2 : State)
        (pos2 : Int) (ino1 : inode),
        getI s.open_file_table fd = some entry ∧ entry.dir_entry = some file_name ∧
        search_dir file_name s.root_dir = some d ∧
        RSFS_write_loop c d.inode_number buf size.toNat s 0 size entry.position =
          some (s2, r, pos2) ∧
        getI s2.inodes d.inode_number = some ino1 ∧
        s1 = { s2 with
               open_file_table := s.open_file_table.set fd.toNat
                 { entry with position := pos2 },
               inodes := s2.inodes.set d.inode_number.toNat
                 { ino1 with length := max ino1.length pos2 } }) := by
  unfold RSFS_write at h
  by_cases hguard : fd < 0 ∨ fd ≥ c.NUM_OPEN_FILE ∨ size ≤ 0
  · rw [if_pos hguard] at h
    cases h
    exact Or.inl ⟨hguard, rfl, rfl⟩
  · rw [if_neg hguard] at h
    refine Or.inr ⟨hguard, ?_⟩
    simp only [Option.bind_eq_bind] at h
    cases hentry : getI s.open_file_table fd with
    | none => rw [hentry] at h; cases h
    | some entry =>
      obtain ⟨u, fl, p, de⟩ := entry
      obtain ⟨hfd0, hlt, _⟩ := getI_eq_some hentry
      rw [hentry] at h
      simp only [Option.some_bind] at h
      cases de with
      | none => cases h
      | some file_name =>
        simp only [Option.some_bind] at h
        cases hdir : search_dir file_name s.root_dir with
        | none => rw [hdir] at h; cases h
        | some d =>
          rw [hdir] at h
          simp only [Option.some_bind] at h
          cases hr : RSFS_write_loop c d.inode_number buf size.toNat s 0 size p with
          | none => rw [hr] at h; cases h
          | some res =>
            obtain ⟨s2, bw2, pos2⟩ := res
            have ht := RSFS_write_loop_table c _ _ _ _ _ _ _ _ _ _ hr
            have hlt2 : fd.toNat < s2.open_file_table.length := by rw [ht]; exact hlt
            rw [hr] at h
            simp only [Option.some_bind, setI, hfd0, ht, hlt, and_self, if_true] at h
            cases hino1 : getI s2.inodes d.inode_number with
            | none => rw [hino1] at h; cases h
            | some ino1 =>
              obtain ⟨hi0, hilt1, hget1⟩ := getI_eq_some hino1
              rw [hino1] at h
              simp only [Option.some_bind] at h
              by_cases hgrow : pos2 > ino1.length
              · simp only [hgrow, if_true, hi0, hilt1, and_self, Option.some_bind,
                  Option.some.injEq, Prod.mk.injEq] at h
                obtain ⟨e1, e2⟩ := h
                subst e1 e2
                refine ⟨⟨u, fl, p, some file_name⟩, file_name, d, s2, pos2, ino1, rfl, rfl,
                  hdir, hr, hino1, ?_⟩
                rw [max_eq_right (by omega)]
              · simp only [hgrow, if_false, Option.some_bind, Option.some.injEq,
                  Prod.mk.injEq] at h
                obtain ⟨e1, e2⟩ := h
                subst e1 e2
                refine ⟨⟨u, fl, p, some file_name⟩, file_name, d, s2, pos2, ino1, rfl, rfl,
                  hdir, hr, hino1, ?_⟩
                rw [max_eq_left (by omega)]
                have e : ({ ino1 with length := ino1.length } : inode) = ino1 := rfl
                rw [e, set_same _ _ _ hget1]

theorem exclusive_congr (c : Consts) (s t : State)
    (hb : t.inodes.map (fun n => n.block) = s.inodes.map (fun n => n.block))
    (hm : t.data_bitmap = s.data_bitmap) (hex : exclusive c s) : exclusive c t := by
  obtain ⟨h1, h2⟩ := hex
  refine ⟨?_, ?_⟩
  · intro i j b hh
    obtain ⟨hlt, h0, hv⟩ := h1 i j b (holds_congr t s hb.symm i j b hh)
    exact ⟨hlt, h0, by rw [hm]; exact hv⟩
  · intro i j i1 j1 b hh hh1
    exact h2 i j i1 j1 b (holds_congr t s hb.symm i j b hh) (holds_congr t s hb.symm i1 j1 b hh1)

/-- C17: if ownership of the data blocks is exclusive before `RSFS_write` (every
bound slot of every inode holds an index below `NUM_DBLOCKS` that is marked
used, and no index occurs in two slots), it is exclusive in the state the
call returns; every slot that was bound holds the same block afterwards, and
every block bound by the call was free before it and is marked used (flag 1)
after it. -/
theorem RSFS_write_exclusive (c : Consts) (s s1 : State) (fd size r : Int) (buf : List Nat)
    (hex : exclusive c s) (h : RSFS_write c s fd buf size = some (s1, r)) :
    exclusive c s1 ∧
    (∀ i j b, holds s i j b → holds s1 i j b) ∧
    (∀ i j b, holds s1 i j b → ¬ holds s i j b →
      block_free s b ∧ s1.data_bitmap[b.toNat]? = some 1) := by
  rcases RSFS_write_cases c s s1 fd size r buf h with ⟨_, e, _⟩ |
    ⟨_, entry, file_name, d, s2, pos2, ino1, _, _, _, hr, hino1, e⟩
  · subst e
    exact ⟨hex, fun _ _ _ hh => hh, fun _ _ _ hh hn => absurd hh hn⟩
  · obtain ⟨hx, hk2, hk3, _⟩ := RSFS_write_loop_exclusive c _ _ _ _ _ _ _ _ _ _ hex hr
    obtain ⟨_, _, hget1⟩ := getI_eq_some hino1
    have hmap : s1.inodes.map (fun n => n.block) = s2.inodes.map (fun n => n.block) := by
      rw [e]
      exact map_set_same (fun n : inode => n.block) s2.inodes d.inode_number.toNat ino1
        { ino1 with length := max ino1.length pos2 } hget1 rfl
    have hbm : s1.data_bitmap = s2.data_bitmap := by rw [e]
    refine ⟨exclusive_congr c s2 s1 hmap hbm hx, ?_, ?_⟩
    · intro i j b hh
      exact holds_congr s2 s1 hmap i j b (hk2 i j b hh)
    · intro i j b hh hn
      rw [hbm]
      exact hk3 i j b (holds_congr s1 s2 hmap.symm i j b hh) hn

theorem exclusive_st_open : exclusive tiny st_open := by
  have hno : ∀ i j b, ¬ holds st_open i j b := by
    rintro i j b ⟨ino, hino, hb, hne⟩
    have hm : ino ∈ st_open.inodes := List.getElem?_mem hino
    have he : ino = ⟨0, [-1, -1, -1]⟩ := by
      simpa [st_open, st_a, st_init] using hm
    subst he
    have hbm : b ∈ ([-1, -1, -1] : List Int) := List.getElem?_mem hb
    simp at hbm
    exact hne hbm
  exact ⟨fun i j b hh => absurd hh (hno i j b), fun i j _ _ b hh _ => absurd hh (hno i j b)⟩

theorem RSFS_write_exclusive_witness :
    exclusive tiny st_hello ∧
    (∀ i j b, holds st_open i j b → holds st_hello i j b) ∧
    (∀ i j b, holds st_hello i j b → ¬ holds st_open i j b →
      block_free st_open b ∧ st_hello.data_bitmap[b.toNat]? = some 1) :=
  RSFS_write_exclusive tiny st_open st_hello 0 5 5 hello exclusive_st_open (by decide)

/-! ## The shape of the inodes in the reachable states -/

theorem bound_upto_fresh (c : Consts) : bound_upto c (fresh_inode c) 0 := by
  refine ⟨List.length_replicate _ _, Nat.zero_le _, fun j hj => absurd hj (Nat.not_lt_zero j),
    fun j _ hj => ?_⟩
  show (List.replicate c.NUM_POINTER (-1 : Int))[j]? = some (-1)
  rw [List.getElem?_replicate, if_pos hj]

/-- The claim's shape of an inode follows from the invariant. -/
theorem inode_shape_of_bound (c : Consts) (ino : inode) (f : Nat) (hb : bound_upto c ino f)
    (hlen : ino.length ≤ (f : Int) * c.BLOCK_SIZE) : inode_shape c ino := by
  obtain ⟨hl, hf, hlow, hhigh⟩ := hb
  have hfB : (f : Int) * c.BLOCK_SIZE ≤ (c.NUM_POINTER : Int) * c.BLOCK_SIZE := by
    have : f * c.BLOCK_SIZE ≤ c.NUM_POINTER * c.BLOCK_SIZE := Nat.mul_le_mul_right _ hf
    exact_mod_cast this
  refine ⟨by omega, ?_, ?_⟩
  · intro i j b hij hj hne
    have hjl : j < ino.block.length := (List.getElem?_eq_some_iff.1 hj).1
    have hjf : j < f := by
      by_contra hge
      have := hhigh j (by omega) (by omega)
      rw [hj] at this
      exact hne (Option.some.inj this)
    exact hlow i (by omega)
  · intro q hq
    have hq1 : q < f * c.BLOCK_SIZE := by
      have : (q : Int) < ((f * c.BLOCK_SIZE : Nat) : Int) := by push_cast; omega
      exact_mod_cast this
    have hB : 0 < c.BLOCK_SIZE := by
      rcases Nat.eq_zero_or_pos c.BLOCK_SIZE with h | h
      · rw [h] at hq1; omega
      · exact h
    exact hlow _ ((Nat.div_lt_iff_lt_mul hB).2 hq1)

theorem consistent_init (c : Consts) (malloc : Nat → Option (List Nat)) (s : State)
    (h : RSFS_init c malloc (boot c) = some (s, 0)) : consistent c s := by
  unfold RSFS_init at h
  split at h
  · cases h
  · next blocks r _ =>
    split at h
    · cases h
    · cases h
      have htbl : ∀ e ∈ (boot c).open_file_table, e = ⟨0, 0, 0, none⟩ := by
        intro e he
        exact List.eq_of_mem_replicate he
      refine ⟨?_, ?_, ?_, ?_⟩
      · intro i ino hino
        have hm : ino ∈ List.replicate c.NUM_INODES (fresh_inode c) := List.getElem?_mem hino
        rw [List.eq_of_mem_replicate hm]
        refine ⟨0, bound_upto_fresh c, le_refl _, by simp [fresh_inode], ?_⟩
        intro e he name d hname
        rw [htbl e he] at hname
        cases hname
      · intro e he _
        rw [htbl e he]
        exact ⟨rfl, rfl⟩
      · intro d hd
        cases hd
      · intro e he name hname
        rw [htbl e he] at hname
        cases hname

theorem consistent_close (c : Consts) (s s1 : State) (fd r : Int) (hinv : consistent c s)
    (h : RSFS_close s fd = some (s1, r)) : consistent c s1 := by
  unfold RSFS_close at h
  split at h
  · unfold free_open_file_entry at h
    cases hset : setI s.open_file_table fd ⟨0, -1, 0, none⟩ with
    | none => rw [hset] at h; cases h
    | some t =>
      rw [hset] at h
      cases h
      unfold setI at hset
      split at hset
      · cases hset
        obtain ⟨h1, h2, h3, h4⟩ := hinv
        have hmem : ∀ e ∈ s.open_file_table.set fd.toNat ⟨0, -1, 0, none⟩,
            e ∈ s.open_file_table ∨ e = ⟨0, -1, 0, none⟩ :=
          fun e he => List.mem_or_eq_of_mem_set he
        refine ⟨?_, ?_, h3, ?_⟩
        · intro i ino hino
          obtain ⟨f, hb, hl0, hl, hc⟩ := h1 i ino hino
          refine ⟨f, hb, hl0, hl, ?_⟩
          intro e he name d hname
          rcases hmem e he with h | h
          · exact hc e h name d hname
          · rw [h] at hname; cases hname
        · intro e he hu
          rcases hmem e he with h | h
          · exact h2 e h hu
          · rw [h]; exact ⟨rfl, rfl⟩
        · intro e he name hname
          rcases hmem e he with h | h
          · exact h4 e h name hname
          · rw [h] at hname; cases hname
      · cases hset
  · cases h
    exact hinv

theorem consistent_fseek (c : Consts) (s s1 : State) (fd offset whence r : Int)
    (hinv : consistent c s) (h : RSFS_fseek c s fd offset whence = some (s1, r)) :
    consistent c s1 := by
  rw [RSFS_fseek_state c s s1 fd offset whence r h]
  exact hinv

/-- One iteration stays within the block it starts in: from a position in
block `k < f` the copy is positive and ends at or before `f * BLOCK_SIZE`. -/
theorem bytes_in_block_bounds (c : Consts) (f : Nat) (rem pos : Int)
    (hB : c.BLOCK_SIZE ≠ 0) (h0 : 0 ≤ pos) (hk : pos.tdiv (c.BLOCK_SIZE : Int) < f)
    (hrem : 0 < rem) :
    0 < bytes_in_block c rem pos ∧
    pos + bytes_in_block c rem pos ≤ (f : Int) * c.BLOCK_SIZE := by
  have hBpos : (0 : Int) < c.BLOCK_SIZE := by omega
  rw [Int.tdiv_eq_ediv h0 (by omega)] at hk
  unfold bytes_in_block
  rw [Int.tmod_eq_emod h0 (by omega)]
  have h1 := Int.ediv_add_emod pos c.BLOCK_SIZE
  have h2 := Int.emod_nonneg pos (show (c.BLOCK_SIZE : Int) ≠ 0 by omega)
  have h3 := Int.emod_lt_of_pos pos hBpos
  have h4 : (c.BLOCK_SIZE : Int) * (pos / c.BLOCK_SIZE + 1) ≤ (c.BLOCK_SIZE : Int) * f :=
    Int.mul_le_mul_of_nonneg_left (by omega) (by omega)
  have h5 : (c.BLOCK_SIZE : Int) * (pos / c.BLOCK_SIZE + 1) =
      (c.BLOCK_SIZE : Int) * (pos / c.BLOCK_SIZE) + c.BLOCK_SIZE := by ring
  have h6 : (c.BLOCK_SIZE : Int) * f = (f : Int) * c.BLOCK_SIZE := by ring
  split <;> constructor <;> omega

theorem tdiv_lt_of_lt_mul (c : Consts) (f : Nat) (pos : Int) (hB : c.BLOCK_SIZE ≠ 0)
    (h0 : 0 ≤ pos) (hlt : pos < (f : Int) * c.BLOCK_SIZE) :
    pos.tdiv (c.BLOCK_SIZE : Int) < f := by
  rw [Int.tdiv_eq_ediv h0 (by omega)]
  exact Int.ediv_lt_of_lt_mul (by omega) hlt

theorem tdiv_le_of_le_mul (c : Consts) (f : Nat) (pos : Int) (hB : c.BLOCK_SIZE ≠ 0)
    (h0 : 0 ≤ pos) (hle : pos ≤ (f : Int) * c.BLOCK_SIZE) :
    0 ≤ pos.tdiv (c.BLOCK_SIZE : Int) ∧ pos.tdiv (c.BLOCK_SIZE : Int) ≤ f := by
  rw [Int.tdiv_eq_ediv h0 (by omega)]
  exact ⟨Int.ediv_nonneg h0 (by omega), Int.ediv_le_of_le_mul (by omega) hle⟩

/-- The loop of `RSFS_read` on a file whose length lies within its first `f`
blocks leaves `currentPos` within those blocks. -/
theorem RSFS_read_loop_bound (c : Consts) (ino : inode) (blocks : List (List Nat)) (f : Nat)
    (hlen : ino.length ≤ (f : Int) * c.BLOCK_SIZE) :
    ∀ (fuel : Nat) (buf : List Nat) (br rem pos : Int) (buf1 : List Nat) (br1 pos1 : Int),
      RSFS_read_loop c ino blocks fuel buf br rem pos = some (buf1, br1, pos1) →
      0 ≤ pos → pos ≤ (f : Int) * c.BLOCK_SIZE →
      0 ≤ pos1 ∧ pos1 ≤ (f : Int) * c.BLOCK_SIZE := by
  intro fuel
  induction fuel with
  | zero =>
    intro buf br rem pos buf1 br1 pos1 h h0 hle
    unfold RSFS_read_loop at h
    split at h
    · cases h
    · cases h; exact ⟨h0, hle⟩
  | succ fuel ih =>
    intro buf br rem pos buf1 br1 pos1 h h0 hle
    unfold RSFS_read_loop at h
    split at h
    · next hc =>
      split at h
      · cases h
      · next hB =>
        simp only at h
        split at h
        · cases h
        · split at h
          · cases h
          · split at h
            · cases h
            · have hb := bytes_in_block_bounds c f rem pos hB h0
                (tdiv_lt_of_lt_mul c f pos hB h0 (by omega)) hc.1
              unfold bytes_in_block at hb
              exact ih _ _ _ _ _ _ _ h (by omega) hb.2
    · cases h; exact ⟨h0, hle⟩

/-- The shape of every defined result of `RSFS_read`. -/
theorem RSFS_read_cases (c : Consts) (s s1 : State) (fd size r : Int) (out : List Nat)
    (h : RSFS_read c s fd size = some (s1, out, r)) :
    ((fd < 0 ∨ fd ≥ c.NUM_OPEN_FILE ∨ size ≤ 0) ∧ s1 = s ∧ r = -1) ∨
    (¬ (fd < 0 ∨ fd ≥ c.NUM_OPEN_FILE ∨ size ≤ 0) ∧
      ∃ (entry : open_file_entry) (file_name : String) (d : dir_entry) (ino : inode)
        (pos1 : Int),
        getI s.open_file_table fd = some entry ∧ entry.dir_entry = some file_name ∧
        search_dir file_name s.root_dir = some d ∧
        getI s.inodes d.inode_number = some ino ∧
        RSFS_read_loop c ino s.data_blocks size.toNat [] 0 size entry.position =
          some (out, r, pos1) ∧
        s1 = { s with open_file_table := s.open_file_table.set fd.toNat
                        { entry with position := pos1 } }) := by
  unfold RSFS_read at h
  by_cases hguard : fd < 0 ∨ fd ≥ c.NUM_OPEN_FILE ∨ size ≤ 0
  · rw [if_pos hguard] at h
    cases h
    exact Or.inl ⟨hguard, rfl, rfl⟩
  · rw [if_neg hguard] at h
    refine Or.inr ⟨hguard, ?_⟩
    simp only [Option.bind_eq_bind] at h
    cases hentry : getI s.open_file_table fd with
    | none => rw [hentry] at h; cases h
    | some entry =>
      obtain ⟨u, fl, p, de⟩ := entry
      obtain ⟨hfd0, hlt, _⟩ := getI_eq_some hentry
      rw [hentry] at h
      simp only [Option.some_bind] at h
      cases de with
      | none => cases h
      | some file_name =>
        simp only [Option.some_bind] at h
        cases hdir : search_dir file_name s.root_dir with
        | none => rw [hdir] at h; cases h
        | some d =>
          rw [hdir] at h
          simp only [Option.some_bind] at h
          cases hino : getI s.inodes d.inode_number with
          | none => rw [hino] at h; cases h
          | some ino =>
            rw [hino] at h
            simp only [Option.some_bind] at h
            cases hr : RSFS_read_loop c ino s.data_blocks size.toNat [] 0 size p with
            | none => rw [hr] at h; cases h
            | some res =>
              obtain ⟨buf1, br1, pos1⟩ := res
              rw [hr] at h
              simp only [Option.some_bind, setI, hfd0, hlt, and_self, if_true,
                Option.some.injEq, Prod.mk.injEq] at h
              obtain ⟨e1, e2, e3⟩ := h
              subst e1 e2 e3
              exact ⟨⟨u, fl, p, some file_name⟩, file_name, d, ino, pos1, rfl, rfl, hdir,
                hino, hr, rfl⟩

theorem RSFS_open_loop_cases (access_flag : Int) (file_name : String)
    (tbl : List open_file_entry) :
    ∀ (fuel i : Nat) (tbl1 : List open_file_entry) (r : Int),
      RSFS_open_loop access_flag file_name tbl fuel i = some (tbl1, r) →
      tbl1 = tbl ∨ ∃ (j : Nat) (e : open_file_entry), tbl[j]? = some e ∧ e.used = 0 ∧
        tbl1 = tbl.set j { e with used := 1, access_flag := access_flag,
                                  dir_entry := some file_name } := by
  intro fuel
  induction fuel with
  | zero =>
    intro i tbl1 r h
    unfold RSFS_open_loop at h
    cases h
    exact Or.inl rfl
  | succ fuel ih =>
    intro i tbl1 r h
    unfold RSFS_open_loop at h
    cases he : tbl[i]? with
    | none => rw [he] at h; cases h
    | some e =>
      rw [he] at h
      simp only at h
      by_cases hu : e.used = 0
      · rw [if_pos hu] at h
        cases h
        exact Or.inr ⟨i, e, he, hu, rfl⟩
      · rw [if_neg hu] at h
        exact ih _ _ _ h

theorem consistent_open (c : Consts) (s s1 : State) (file_name : String)
    (access_flag r : Int) (hinv : consistent c s)
    (h : RSFS_open c s file_name access_flag = some (s1, r)) : consistent c s1 := by
  unfold RSFS_open at h
  split at h
  · cases h; exact hinv
  · cases hdir : search_dir file_name s.root_dir with
    | none => rw [hdir] at h; cases h; exact hinv
    | some d =>
      rw [hdir] at h
      simp only at h
      cases hl : RSFS_open_loop access_flag d.name s.open_file_table c.NUM_OPEN_FILE 0 with
      | none => rw [hl] at h; cases h
      | some res =>
        obtain ⟨tbl1, r1⟩ := res
        rw [hl] at h
        cases h
        rcases RSFS_open_loop_cases _ _ _ _ _ _ _ hl with e | ⟨j, e, hj, hu, e1⟩
        · rw [e]; exact hinv
        · subst e1
          obtain ⟨h1, h2, h3, h4⟩ := hinv
          have hp := h2 e (List.getElem?_mem hj) hu
          have hmem : ∀ x ∈ s.open_file_table.set j ⟨1, access_flag, e.position, some d.name⟩,
              x ∈ s.open_file_table ∨ x = ⟨1, access_flag, e.position, some d.name⟩ :=
            fun x hx => List.mem_or_eq_of_mem_set hx
          refine ⟨?_, ?_, h3, ?_⟩
          · intro i ino hino
            obtain ⟨f, hb, hl0, hlen, hc⟩ := h1 i ino hino
            refine ⟨f, hb, hl0, hlen, ?_⟩
            intro x hx name d1 hname hd1 hi
            rcases hmem x hx with hx1 | hx1
            · exact hc x hx1 name d1 hname hd1 hi
            · rw [hx1]
              show 0 ≤ e.position ∧ e.position ≤ (f : Int) * c.BLOCK_SIZE
              rw [hp.1]
              exact ⟨le_refl _, by omega⟩
          · intro x hx hxu
            rcases hmem x hx with hx1 | hx1
            · exact h2 x hx1 hxu
            · rw [hx1] at hxu
              cases hxu
          · intro x hx name hname
            rcases hmem x hx with hx1 | hx1
            · exact h4 x hx1 name hname
            · rw [hx1] at hname
              cases hname
              rw [search_dir_name hdir, hdir]
              exact fun hc => by cases hc

theorem consistent_read (c : Consts) (s s1 : State) (fd size r : Int) (out : List Nat)
    (hinv : consistent c s) (h : RSFS_read c s fd size = some (s1, out, r)) :
    consistent c s1 := by
  rcases RSFS_read_cases c s s1 fd size r out h with ⟨_, e, _⟩ |
    ⟨_, entry, file_name, d, ino, pos1, hentry, hname, hdir, hino, hloop, e⟩
  · rw [e]; exact hinv
  · subst e
    obtain ⟨h1, h2, h3, h4⟩ := hinv
    obtain ⟨_, _, hget⟩ := getI_eq_some hentry
    obtain ⟨hi0, _, hgeti⟩ := getI_eq_some hino
    have hme : entry ∈ s.open_file_table := List.getElem?_mem hget
    have hmem : ∀ x ∈ s.open_file_table.set fd.toNat { entry with position := pos1 },
        x ∈ s.open_file_table ∨ x = { entry with position := pos1 } :=
      fun x hx => List.mem_or_eq_of_mem_set hx
    refine ⟨?_, ?_, h3, ?_⟩
    · intro i ino1 hino1
      obtain ⟨f, hb, hl0, hlen, hc⟩ := h1 i ino1 hino1
      refine ⟨f, hb, hl0, hlen, ?_⟩
      intro x hx name d1 hnm hd1 hi
      rcases hmem x hx with hx1 | hx1
      · exact hc x hx1 name d1 hnm hd1 hi
      · rw [hx1] at hnm ⊢
        have hnm1 : entry.dir_entry = some name := hnm
        rw [hname] at hnm1
        cases hnm1
        rw [hdir] at hd1
        cases hd1
        have hii : d.inode_number.toNat = i := by omega
        rw [hii, hino1] at hgeti
        cases hgeti
        obtain ⟨hp0, hp1⟩ := hc entry hme file_name d hname hdir hi
        exact RSFS_read_loop_bound c _ _ f hlen _ _ _ _ _ _ _ _ hloop hp0 hp1
    · intro x hx hxu
      rcases hmem x hx with hx1 | hx1
      · exact h2 x hx1 hxu
      · rw [hx1] at hxu
        have := (h2 entry hme hxu).2
        rw [hname] at this
        cases this
    · intro x hx name hnm
      rcases hmem x hx with hx1 | hx1
      · exact h4 x hx1 name hnm
      · rw [hx1] at hnm
        exact h4 entry hme name hnm

theorem allocate_inode_loop_cases (c : Consts) (s : State) :
    ∀ (fuel i : Nat) (s1 : State) (r : Int),
      allocate_inode_loop c s fuel i = some (s1, r) →
      (s1 = s ∧ r = -1) ∨
      (∃ j : Nat, s.inode_bitmap[j]? = some 0 ∧
        s1 = { s with inode_bitmap := s.inode_bitmap.set j 1,
                      inodes := s.inodes.set j (fresh_inode c) } ∧ r = (j : Int)) := by
  intro fuel
  induction fuel with
  | zero =>
    intro i s1 r h
    unfold allocate_inode_loop at h
    cases h
    exact Or.inl ⟨rfl, rfl⟩
  | succ fuel ih =>
    intro i s1 r h
    unfold allocate_inode_loop at h
    cases hb : s.inode_bitmap[i]? with
    | none => rw [hb] at h; cases h
    | some b =>
      rw [hb] at h
      simp only at h
      by_cases h0 : b = 0
      · rw [if_pos h0] at h
        split at h
        · cases h
          exact Or.inr ⟨i, by rw [hb, h0], rfl, rfl⟩
        · cases h
      · rw [if_neg h0] at h
        exact ih _ _ _ h

theorem search_dir_insert_dir_ne (file_name name : String) (dir : List dir_entry)
    (hne : name ≠ file_name) :
    search_dir name (insert_dir file_name dir) = search_dir name dir := by
  unfold search_dir insert_dir
  rw [List.find?_append]
  have : List.find? (fun e => decide (e.name = name)) [(⟨file_name, -1⟩ : dir_entry)] = none := by
    simp [List.find?_cons, Ne.symm hne]
  rw [this]
  cases List.find? (fun e => decide (e.name = name)) dir <;> rfl

theorem search_dir_bind_inode_number_ne (file_name name : String) (n : Int)
    (dir : List dir_entry) (hne : name ≠ file_name) :
    search_dir name (bind_inode_number file_name n dir) = search_dir name dir := by
  induction dir with
  | nil => rfl
  | cons e rest ih =>
    by_cases h : e.name = file_name
    · have hn : ¬ file_name = name := fun h1 => hne h1.symm
      simp only [bind_inode_number, h, if_true, search_dir, List.find?_cons, hn,
        decide_False]
    · simp only [bind_inode_number, h, if_false]
      simp only [search_dir, List.find?_cons] at ih ⊢
      rw [ih]

theorem mem_bind_inode_number (file_name : String) (n : Int) (dir : List dir_entry)
    (d : dir_entry) (h : d ∈ bind_inode_number file_name n dir) :
    d ∈ dir ∨ d.inode_number = n := by
  induction dir with
  | nil => cases h
  | cons e rest ih =>
    unfold bind_inode_number at h
    by_cases hn : e.name = file_name
    · rw [if_pos hn] at h
      rcases List.mem_cons.1 h with h1 | h1
      · right; rw [h1]
      · left; exact List.mem_cons_of_mem _ h1
    · rw [if_neg hn] at h
      rcases List.mem_cons.1 h with h1 | h1
      · left; rw [h1]; exact List.mem_cons_self _ _
      · rcases ih h1 with h2 | h2
        · left; exact List.mem_cons_of_mem _ h2
        · right; exact h2

theorem consistent_create (c : Consts) (s s1 : State) (file_name : String) (r : Int)
    (hinv : consistent c s) (h : RSFS_create c s file_name = some (s1, r)) :
    consistent c s1 := by
  unfold RSFS_create at h
  cases habs : search_dir file_name s.root_dir with
  | some d => rw [habs] at h; cases h; exact hinv
  | none =>
    rw [habs] at h
    simp only at h
    obtain ⟨h1, h2, h3, h4⟩ := hinv
    have hne : ∀ e ∈ s.open_file_table, ∀ name : String, e.dir_entry = some name →
        name ≠ file_name := by
      intro e he name hname hc
      rw [hc] at hname
      exact h4 e he file_name hname habs
    cases ha : allocate_inode c { s with root_dir := insert_dir file_name s.root_dir } with
    | none => rw [ha] at h; cases h
    | some res =>
      obtain ⟨s2, n⟩ := res
      rw [ha] at h
      simp only at h
      unfold allocate_inode at ha
      rcases allocate_inode_loop_cases c _ _ _ _ _ ha with ⟨e1, e2⟩ | ⟨j, hj, e1, e2⟩
      · subst e1 e2
        simp only [show ((-1 : Int) < 0) from by omega, if_true, Option.some.injEq,
          Prod.mk.injEq] at h
        obtain ⟨e, _⟩ := h
        subst e
        refine ⟨?_, h2, ?_, ?_⟩
        · intro i ino hino
          obtain ⟨f, hb, hl0, hlen, hc⟩ := h1 i ino hino
          refine ⟨f, hb, hl0, hlen, ?_⟩
          intro x hx name d1 hname hd1 hi
          have hd2 : search_dir name (insert_dir file_name s.root_dir) = some d1 := hd1
          rw [search_dir_insert_dir_ne _ _ _ (hne x hx name hname)] at hd2
          exact hc x hx name d1 hname hd2 hi
        · intro d hd i hi
          have hd1 : d ∈ s.root_dir ++ [⟨file_name, -1⟩] := hd
          rcases List.mem_append.1 hd1 with hd2 | hd2
          · exact h3 d hd2 i hi
          · rw [List.mem_singleton.1 hd2] at hi
            have : (-1 : Int) = (i : Int) := hi
            omega
        · intro x hx name hname
          show search_dir name (insert_dir file_name s.root_dir) ≠ none
          rw [search_dir_insert_dir_ne _ _ _ (hne x hx name hname)]
          exact h4 x hx name hname
      · subst e1 e2
        simp only [show ¬ ((j : Int) < 0) from by omega, if_false, Option.some.injEq,
          Prod.mk.injEq] at h
        obtain ⟨e, _⟩ := h
        subst e
        have hjl : j < s.inode_bitmap.length := (List.getElem?_eq_some_iff.1 hj).1
        have hsearch : ∀ x ∈ s.open_file_table, ∀ (name : String) (d1 : dir_entry),
            x.dir_entry = some name →
            search_dir name (bind_inode_number file_name (j : Int)
              (insert_dir file_name s.root_dir)) = some d1 →
            search_dir name s.root_dir = some d1 := by
          intro x hx name d1 hname hd1
          rw [search_dir_bind_inode_number_ne _ _ _ _ (hne x hx name hname),
            search_dir_insert_dir_ne _ _ _ (hne x hx name hname)] at hd1
          exact hd1
        refine ⟨?_, h2, ?_, ?_⟩
        · intro i ino hino
          have hino1 : (s.inodes.set j (fresh_inode c))[i]? = some ino := hino
          by_cases hij : j = i
          · subst hij
            have hlt : j < s.inodes.length := by
              by_contra hge
              rw [List.getElem?_eq_none (by simpa using hge)] at hino1
              cases hino1
            rw [List.getElem?_set_self hlt] at hino1
            cases hino1
            refine ⟨0, bound_upto_fresh c, le_refl _, by simp [fresh_inode], ?_⟩
            intro x hx name d1 hname hd1 hi
            have hd2 := hsearch x hx name d1 hname hd1
            have hm : d1 ∈ s.root_dir := List.mem_of_find?_eq_some hd2
            exact absurd hj (h3 d1 hm j hi)
          · rw [List.getElem?_set_ne hij] at hino1
            obtain ⟨f, hb, hl0, hlen, hc⟩ := h1 i ino hino1
            refine ⟨f, hb, hl0, hlen, ?_⟩
            intro x hx name d1 hname hd1 hi
            exact hc x hx name d1 hname (hsearch x hx name d1 hname hd1) hi
        · intro d hd i hi
          show (s.inode_bitmap.set j 1)[i]? ≠ some 0
          by_cases hij : j = i
          · subst hij
            rw [List.getElem?_set_self hjl]
            exact fun hc => by cases hc
          · rw [List.getElem?_set_ne hij]
            rcases mem_bind_inode_number _ _ _ _ hd with hd1 | hd1
            · have hd2 : d ∈ s.root_dir ++ [⟨file_name, -1⟩] := hd1
              rcases List.mem_append.1 hd2 with hd3 | hd3
              · exact h3 d hd3 i hi
              · rw [List.mem_singleton.1 hd3] at hi
                have : (-1 : Int) = (i : Int) := hi
                omega
            · rw [hd1] at hi
              omega
        · intro x hx name hname
          show search_dir name (bind_inode_number file_name (j : Int)
            (insert_dir file_name s.root_dir)) ≠ none
          rw [search_dir_bind_inode_number_ne _ _ _ _ (hne x hx name hname),
            search_dir_insert_dir_ne _ _ _ (hne x hx name hname)]
          exact h4 x hx name hname

theorem cursors_within_mono (c : Consts) (T : List open_file_entry) (R : List dir_entry)
    (i f g : Nat) (hfg : f ≤ g) (h : cursors_within c T R i f) : cursors_within c T R i g := by
  intro e he name d hname hd hi
  obtain ⟨h0, h1⟩ := h e he name d hname hd hi
  have : (f : Int) * c.BLOCK_SIZE ≤ (g : Int) * c.BLOCK_SIZE := by
    have : f * c.BLOCK_SIZE ≤ g * c.BLOCK_SIZE := Nat.mul_le_mul_right _ hfg
    exact_mod_cast this
  exact ⟨h0, by omega⟩

/-- The invariant of the loop of `RSFS_write` behind the shape of the inodes:
every inode keeps a bound initial segment that covers its length and the
descriptors on it, and `currentPos` stays within the bound blocks of the
inode that is written. -/
theorem RSFS_write_loop_shapes (c : Consts) (inum : Int) (buf : List Nat)
    (T : List open_file_entry) (R : List dir_entry) (fuel : Nat)
    (s s2 : State) (bw rem pos bw2 pos2 : Int)
    (hpos : 0 ≤ pos)
    (hs : ∀ (i : Nat) (ino : inode), s.inodes[i]? = some ino →
      ∃ f, bound_upto c ino f ∧ 0 ≤ ino.length ∧ ino.length ≤ (f : Int) * c.BLOCK_SIZE ∧
        cursors_within c T R i f ∧ ((i : Int) = inum → pos ≤ (f : Int) * c.BLOCK_SIZE))
    (h : RSFS_write_loop c inum buf fuel s bw rem pos = some (s2, bw2, pos2)) :
    0 ≤ pos2 ∧
    ∀ (i : Nat) (ino : inode), s2.inodes[i]? = some ino →
      ∃ f, bound_upto c ino f ∧ 0 ≤ ino.length ∧ ino.length ≤ (f : Int) * c.BLOCK_SIZE ∧
        cursors_within c T R i f ∧ ((i : Int) = inum → pos2 ≤ (f : Int) * c.BLOCK_SIZE) := by
  have hrule := RSFS_write_loop_rule c inum buf
    (fun t _ _ p => 0 ≤ p ∧
      ∀ (i : Nat) (ino : inode), t.inodes[i]? = some ino →
        ∃ f, bound_upto c ino f ∧ 0 ≤ ino.length ∧
          ino.length ≤ (f : Int) * c.BLOCK_SIZE ∧
          cursors_within c T R i f ∧ ((i : Int) = inum → p ≤ (f : Int) * c.BLOCK_SIZE))
    (by
      intro t t1 b r p blkn blk blk1 blocks hI hrem hB hk hres _ _ _
      obtain ⟨hp0, hsh⟩ := hI
      obtain ⟨ino0, cur, hino0, hcur, hc⟩ := resolve_block_cases c t t1 inum _ _ hres
      obtain ⟨hi0, hilt, hgeti⟩ := getI_eq_some hino0
      obtain ⟨hk0, hklt, hgetk⟩ := getI_eq_some hcur
      have hcast : ((inum.toNat : Nat) : Int) = inum := Int.toNat_of_nonneg hi0
      have hkcast : (((p.tdiv (c.BLOCK_SIZE : Int)).toNat : Nat) : Int) =
          p.tdiv (c.BLOCK_SIZE : Int) := Int.toNat_of_nonneg hk0
      have hkN : (p.tdiv (c.BLOCK_SIZE : Int)).toNat < c.NUM_POINTER := by omega
      have hbound : ∀ (t2 : State), t2.inodes = t.inodes → cur ≠ -1 →
          (0 ≤ p + bytes_in_block c r p ∧
          ∀ (i : Nat) (ino : inode), t2.inodes[i]? = some ino →
            ∃ f, bound_upto c ino f ∧ 0 ≤ ino.length ∧
              ino.length ≤ (f : Int) * c.BLOCK_SIZE ∧ cursors_within c T R i f ∧
              ((i : Int) = inum →
                p + bytes_in_block c r p ≤ (f : Int) * c.BLOCK_SIZE)) := by
        intro t2 ht2 hne
        obtain ⟨f0, hb0, _, _, _, _⟩ := hsh _ _ hgeti
        have hkf0 : (p.tdiv (c.BLOCK_SIZE : Int)).toNat < f0 := by
          by_contra hge
          have := hb0.2.2.2 (p.tdiv (c.BLOCK_SIZE : Int)).toNat (by omega) hkN
          rw [hgetk] at this
          exact hne (Option.some.inj this)
        have hb00 := (bytes_in_block_bounds c f0 r p hB hp0 (by omega) hrem).1
        refine ⟨by omega, ?_⟩
        intro i ino hino
        rw [ht2] at hino
        obtain ⟨f, hb, hl0, hlen, hcw, hpf⟩ := hsh i ino hino
        refine ⟨f, hb, hl0, hlen, hcw, ?_⟩
        intro hi
        have hii : i = inum.toNat := by omega
        subst hii
        rw [hgeti] at hino
        cases hino
        have hkf : (p.tdiv (c.BLOCK_SIZE : Int)).toNat < f := by
          by_contra hge
          have := hb.2.2.2 (p.tdiv (c.BLOCK_SIZE : Int)).toNat (by omega) hkN
          rw [hgetk] at this
          exact hne (Option.some.inj this)
        exact (bytes_in_block_bounds c f r p hB hp0 (by omega) hrem).2
      rcases hc with ⟨hne, e, _⟩ | ⟨_, _, hx, _⟩ | ⟨hm1, j, _, _, _, e⟩
      · subst e
        exact hbound _ rfl hne
      · cases hx
      · subst e hm1
        obtain ⟨f0, hb0, hl00, hlen0, hcw0, hpf0⟩ := hsh _ _ hgeti
        have hpf1 := hpf0 hcast
        have hkle := (tdiv_le_of_le_mul c f0 p hB hp0 hpf1).2
        have hkge : f0 ≤ (p.tdiv (c.BLOCK_SIZE : Int)).toNat := by
          by_contra hlt
          obtain ⟨b1, hb1, hb1ne⟩ :=
            hb0.2.2.1 (p.tdiv (c.BLOCK_SIZE : Int)).toNat (by omega)
          rw [hgetk] at hb1
          exact hb1ne (Option.some.inj hb1).symm
        have hkeq : (p.tdiv (c.BLOCK_SIZE : Int)).toNat = f0 := by omega
        have hbb := bytes_in_block_bounds c (f0 + 1) r p hB hp0 (by push_cast; omega) hrem
        refine ⟨by omega, ?_⟩
        intro i ino hino
        have hino1 : (t.inodes.set inum.toNat
            { ino0 with block := ino0.block.set (p.tdiv (c.BLOCK_SIZE : Int)).toNat (j : Int) })[i]?
            = some ino := hino
        by_cases hii : inum.toNat = i
        · subst hii
          rw [List.getElem?_set_self hilt] at hino1
          cases hino1
          refine ⟨f0 + 1, ⟨?_, by omega, ?_, ?_⟩, hl00, ?_,
            cursors_within_mono c T R _ f0 (f0 + 1) (by omega) hcw0, fun _ => hbb.2⟩
          · show (ino0.block.set _ _).length = c.NUM_POINTER
            rw [List.length_set]
            exact hb0.1
          · intro j1 hj1
            show ∃ b2, (ino0.block.set _ _)[j1]? = some b2 ∧ b2 ≠ -1
            by_cases hj1f : j1 = f0
            · subst hj1f
              rw [hkeq, List.getElem?_set_self (by rw [hb0.1]; omega)]
              exact ⟨(j : Int), rfl, by omega⟩
            · rw [hkeq, List.getElem?_set_ne (by omega)]
              exact hb0.2.2.1 j1 (by omega)
          · intro j1 hj1 hj1N
            show (ino0.block.set _ _)[j1]? = some (-1)
            rw [hkeq, List.getElem?_set_ne (by omega)]
            exact hb0.2.2.2 j1 (by omega) hj1N
          · show ino0.length ≤ ((f0 + 1 : Nat) : Int) * c.BLOCK_SIZE
            have : (f0 : Int) * c.BLOCK_SIZE ≤ ((f0 + 1 : Nat) : Int) * c.BLOCK_SIZE := by
              have : f0 * c.BLOCK_SIZE ≤ (f0 + 1) * c.BLOCK_SIZE :=
                Nat.mul_le_mul_right _ (by omega)
              exact_mod_cast this
            omega
        · rw [List.getElem?_set_ne hii] at hino1
          obtain ⟨f, hb, hl0, hlen, hcw, _⟩ := hsh i ino hino1
          exact ⟨f, hb, hl0, hlen, hcw, fun hi => absurd (by omega) hii⟩)
    fuel s bw rem pos s2 bw2 pos2 ⟨hpos, hs⟩ h
  obtain ⟨_, hI⟩ := hrule
  exact hI

theorem consistent_write (c : Consts) (s s1 : State) (fd size r : Int) (buf : List Nat)
    (hinv : consistent c s) (h : RSFS_write c s fd buf size = some (s1, r)) :
    consistent c s1 := by
  rcases RSFS_write_cases c s s1 fd size r buf h with ⟨_, e, _⟩ |
    ⟨_, entry, file_name, d, s2, pos2, ino1, hentry, hname, hdir, hloop, hino1, e⟩
  · rw [e]; exact hinv
  · obtain ⟨h1, h2, h3, h4⟩ := hinv
    obtain ⟨_, _, hget⟩ := getI_eq_some hentry
    obtain ⟨hi0, hilt1, hgeti1⟩ := getI_eq_some hino1
    obtain ⟨hroot, hibm, hlens, _⟩ := RSFS_write_loop_frame c _ _ _ _ _ _ _ _ _ _ hloop
    have hme : entry ∈ s.open_file_table := List.getElem?_mem hget
    have hcast : ((d.inode_number.toNat : Nat) : Int) = d.inode_number :=
      Int.toNat_of_nonneg hi0
    -- the inode exists before the loop
    have hilt : d.inode_number.toNat < s.inodes.length := by
      have := congrArg List.length hlens
      simp only [List.length_map] at this
      omega
    obtain ⟨f0, _, _, _, hcw0⟩ := h1 _ _ (List.getElem?_eq_getElem hilt)
    have hp0 := (hcw0 entry hme file_name d hname hdir hcast.symm).1
    obtain ⟨hpos2, hsh⟩ := RSFS_write_loop_shapes c d.inode_number buf s.open_file_table
      s.root_dir _ s s2 _ _ _ _ _ hp0
      (by
        intro i ino hino
        obtain ⟨f, hb, hl0, hlen, hcw⟩ := h1 i ino hino
        exact ⟨f, hb, hl0, hlen, hcw,
          fun hi => (hcw entry hme file_name d hname hdir hi.symm).2⟩)
      hloop
    have hmem : ∀ x ∈ s.open_file_table.set fd.toNat { entry with position := pos2 },
        x ∈ s.open_file_table ∨ x = { entry with position := pos2 } :=
      fun x hx => List.mem_or_eq_of_mem_set hx
    subst e
    refine ⟨?_, ?_, ?_, ?_⟩
    · intro i ino hino
      have hino2 : (s2.inodes.set d.inode_number.toNat
          { ino1 with length := max ino1.length pos2 })[i]? = some ino := hino
      show ∃ f, bound_upto c ino f ∧ 0 ≤ ino.length ∧
        ino.length ≤ (f : Int) * c.BLOCK_SIZE ∧
        cursors_within c (s.open_file_table.set fd.toNat { entry with position := pos2 })
          s2.root_dir i f
      rw [hroot]
      by_cases hii : d.inode_number.toNat = i
      · subst hii
        rw [List.getElem?_set_self hilt1] at hino2
        cases hino2
        obtain ⟨f, hb, hl0, hlen, hcw, hpf⟩ := hsh _ _ hgeti1
        have hpf1 := hpf hcast
        refine ⟨f, hb, ?_, ?_, ?_⟩
        · show 0 ≤ max ino1.length pos2
          exact le_max_of_le_left hl0
        · show max ino1.length pos2 ≤ (f : Int) * c.BLOCK_SIZE
          exact max_le hlen hpf1
        · intro x hx name d1 hnm hd1 hi
          rcases hmem x hx with hx1 | hx1
          · exact hcw x hx1 name d1 hnm hd1 hi
          · rw [hx1]
            exact ⟨hpos2, hpf1⟩
      · rw [List.getElem?_set_ne hii] at hino2
        obtain ⟨f, hb, hl0, hlen, hcw, _⟩ := hsh i ino hino2
        refine ⟨f, hb, hl0, hlen, ?_⟩
        intro x hx name d1 hnm hd1 hi
        rcases hmem x hx with hx1 | hx1
        · exact hcw x hx1 name d1 hnm hd1 hi
        · rw [hx1] at hnm
          have hnm1 : entry.dir_entry = some name := hnm
          rw [hname] at hnm1
          cases hnm1
          rw [hdir] at hd1
          cases hd1
          exact absurd (by omega) hii
    · intro x hx hxu
      rcases hmem x hx with hx1 | hx1
      · exact h2 x hx1 hxu
      · rw [hx1] at hxu
        have := (h2 entry hme hxu).2
        rw [hname] at this
        cases this
    · intro d1 hd1 i hi
      show s2.inode_bitmap[i]? ≠ some 0
      rw [hibm]
      have hd2 : d1 ∈ s2.root_dir := hd1
      rw [hroot] at hd2
      exact h3 d1 hd2 i hi
    · intro x hx name hnm
      show search_dir name s2.root_dir ≠ none
      rw [hroot]
      rcases hmem x hx with hx1 | hx1
      · exact h4 x hx1 name hnm
      · rw [hx1] at hnm
        exact h4 entry hme name hnm

/-- Every state reached with one `RSFS_init` satisfies the invariant. -/
theorem consistent_of_reachable_once (c : Consts) (s : State) (h : ReachableOnce c s) :
    consistent c s := by
  induction h with
  | init malloc s h => exact consistent_init c malloc s h
  | create s s1 file_name r _ h ih => exact consistent_create c s s1 file_name r ih h
  | opened s s1 file_name access_flag r _ h ih =>
    exact consistent_open c s s1 file_name access_flag r ih h
  | read s s1 fd size r out _ h ih => exact consistent_read c s s1 fd size r out ih h
  | write s s1 fd size r buf _ h ih => exact consistent_write c s s1 fd size r buf ih h
  | fseek s s1 fd offset whence r _ h ih => exact consistent_fseek c s s1 fd offset whence r ih h
  | close s s1 fd r _ h ih => exact consistent_close c s s1 fd r ih h

/-- As long as `RSFS_init` is not called a second time: in every state reached
from the `RSFS_init` of program start by defined calls of `RSFS_create`,
`RSFS_open`, `RSFS_read`, `RSFS_write`, `RSFS_fseek` and `RSFS_close`, every
inode has a length of at most `NUM_POINTER * BLOCK_SIZE`, its bound slots form
an initial segment of the slot array, and every byte offset below its length
lies in a bound slot. -/
theorem reachable_once_inode_shape (c : Consts) (s : State) (h : ReachableOnce c s) :
    ∀ ino ∈ s.inodes, inode_shape c ino := by
  intro ino hino
  obtain ⟨i, hi⟩ := List.getElem?_of_mem hino
  obtain ⟨f, hb, _, hlen, _⟩ := (consistent_of_reachable_once c s h).1 i ino hi
  exact inode_shape_of_bound c ino f hb hlen

theorem reachable_once_st_hello : ReachableOnce tiny st_hello :=
  ReachableOnce.write st_open st_hello 0 5 5 hello
    (ReachableOnce.opened st_a st_open "a.txt" 1 0
      (ReachableOnce.create st_init st_a "a.txt" 0
        (ReachableOnce.init (fun _ => some []) st_init (by decide)) (by decide))
      (by decide))
    (by decide)

theorem reachable_once_st_hello_shape :
    ReachableOnce tiny st_hello ∧ inode_shape tiny ⟨5, [0, 1, -1]⟩ ∧
      inode_shape tiny ⟨0, [-1, -1, -1]⟩ :=
  ⟨reachable_once_st_hello,
    reachable_once_inode_shape tiny st_hello reachable_once_st_hello _ (by decide),
    reachable_once_inode_shape tiny st_hello reachable_once_st_hello _ (by decide)⟩

/-! ## The number of bytes `RSFS_write` writes -/

/-- Lines 232-242 on a slot that is bound: nothing changes. -/
theorem resolve_block_bound (c : Consts) (s : State) (inum k : Int) (ino : inode) (cur : Int)
    (hino : getI s.inodes inum = some ino) (hcur : getI ino.block k = some cur)
    (hne : cur ≠ -1) : resolve_block c s inum k = some (s, some cur) := by
  unfold resolve_block
  simp only [hino, hcur, Option.bind_eq_bind, Option.some_bind, hne, if_false]

theorem allocate_data_block_loop_none (s : State) :
    ∀ (fuel i : Nat), i + fuel ≤ s.data_bitmap.length →
      (∀ k, i ≤ k → k < i + fuel → s.data_bitmap[k]? ≠ some 0) →
      allocate_data_block_loop s fuel i = some (s, -1) := by
  intro fuel
  induction fuel with
  | zero => intro i _ _; rfl
  | succ fuel ih =>
    intro i hlen hfull
    unfold allocate_data_block_loop
    have hil : i < s.data_bitmap.length := by omega
    have hne := hfull i (le_refl i) (by omega)
    rw [List.getElem?_eq_getElem hil] at hne ⊢
    have hb : s.data_bitmap[i] ≠ 0 := fun h0 => hne (by rw [h0])
    simp only [hb, if_false]
    exact ih (i + 1) (by omega) (fun k hk1 hk2 => hfull k (by omega) (by omega))

/-- Lines 232-242 on a slot that holds `-1` when no block is free: the `break`
of line 237, with the state as it was. -/
theorem resolve_block_nofree (c : Consts) (s : State) (inum k : Int) (ino : inode)
    (hino : getI s.inodes inum = some ino) (hcur : getI ino.block k = some (-1))
    (hlen : s.data_bitmap.length = c.NUM_DBLOCKS) (hfree : s.data_bitmap.count 0 = 0) :
    resolve_block c s inum k = some (s, none) := by
  have hall : ∀ j : Nat, s.data_bitmap[j]? ≠ some 0 := by
    intro j hj
    have : 0 < s.data_bitmap.count 0 := List.count_pos_iff.2 (List.getElem?_mem hj)
    omega
  have ha : allocate_data_block c s = some (s, -1) :=
    allocate_data_block_loop_none s c.NUM_DBLOCKS 0 (by omega) (fun k _ _ => hall k)
  unfold resolve_block
  simp only [hino, hcur, Option.bind_eq_bind, Option.some_bind, if_true, ha,
    show ((-1 : Int) < 0) from by omega]

/-- One full iteration of the loop of `RSFS_write` (lines 242-251), once the
slot is resolved to a block `b` of `BLOCK_SIZE` bytes: the bytes of the
request that fit into the block are copied and the loop goes on behind
them. -/
theorem RSFS_write_loop_step (c : Consts) (inum : Int) (buf : List Nat) (fuel : Nat)
    (s s1 : State) (bw rem pos : Int) (b : Nat) (blk : List Nat)
    (hB : c.BLOCK_SIZE ≠ 0) (hrem : 0 < rem) (hbw : 0 ≤ bw) (hp0 : 0 ≤ pos)
    (hk : pos.tdiv (c.BLOCK_SIZE : Int) < c.NUM_POINTER)
    (hres : resolve_block c s inum (pos.tdiv (c.BLOCK_SIZE : Int)) = some (s1, some (b : Int)))
    (hblk : s1.data_blocks[b]? = some blk) (hlen : blk.length = c.BLOCK_SIZE)
    (hbuf : bw + rem ≤ buf.length) :
    ∃ blk1, blk1.length = c.BLOCK_SIZE ∧
      memwrite blk (pos.tmod (c.BLOCK_SIZE : Int)) buf bw (bytes_in_block c rem pos) =
        some blk1 ∧
      RSFS_write_loop c inum buf (fuel + 1) s bw rem pos =
        RSFS_write_loop c inum buf fuel { s1 with data_blocks := s1.data_blocks.set b blk1 }
          (bw + bytes_in_block c rem pos) (rem - bytes_in_block c rem pos)
          (pos + bytes_in_block c rem pos) := by
  have hBpos : (0 : Int) < c.BLOCK_SIZE := by omega
  have hm0 := Int.emod_nonneg pos (show (c.BLOCK_SIZE : Int) ≠ 0 by omega)
  have hm1 := Int.emod_lt_of_pos pos hBpos
  have hoff : pos.tmod (c.BLOCK_SIZE : Int) = pos % c.BLOCK_SIZE :=
    Int.tmod_eq_emod hp0 (by omega)
  have hn1 : 0 < bytes_in_block c rem pos ∧ bytes_in_block c rem pos ≤ rem ∧
      bytes_in_block c rem pos ≤ c.BLOCK_SIZE - pos % c.BLOCK_SIZE := by
    unfold bytes_in_block
    rw [hoff]
    split <;> omega
  have hbl : b < s1.data_blocks.length := (List.getElem?_eq_some_iff.1 hblk).1
  obtain ⟨blk1, hmw⟩ : ∃ blk1, memwrite blk (pos.tmod (c.BLOCK_SIZE : Int)) buf bw
      (bytes_in_block c rem pos) = some blk1 := by
    unfold memwrite
    refine ⟨_, if_pos ⟨by omega, by omega, hbw, ?_, ?_⟩⟩
    · have : (pos.tmod (c.BLOCK_SIZE : Int) + bytes_in_block c rem pos).toNat ≤
          ((c.BLOCK_SIZE : Int)).toNat := Int.toNat_le_toNat (by omega)
      simpa [hlen] using this
    · have : (bw + bytes_in_block c rem pos).toNat ≤ ((buf.length : Int)).toNat :=
        Int.toNat_le_toNat (by omega)
      simpa using this
  refine ⟨blk1, (memwrite_length _ _ _ _ _ _ hmw).trans hlen, hmw, ?_⟩
  have hgetb : getI s1.data_blocks (b : Int) = some blk := by
    rw [getI_natCast]; exact hblk
  have hsetb : setI s1.data_blocks (b : Int) blk1 = some (s1.data_blocks.set b blk1) :=
    setI_natCast _ _ _ hbl
  have hmw1 := hmw
  unfold bytes_in_block at hmw1 ⊢
  have hrem1 : rem > 0 := hrem
  have hk1 : ¬ (pos.tdiv (c.BLOCK_SIZE : Int) ≥ c.NUM_POINTER) := by omega
  simp only [RSFS_write_loop, hrem1, if_true, hB, if_false, hk1, hres, hgetb, hmw1, hsetb]

theorem capacity_ge (c : Consts) (f b : Nat) (hf : f ≤ c.NUM_POINTER) :
    (f : Int) * c.BLOCK_SIZE ≤ capacity c f b := by
  unfold capacity
  have : f * c.BLOCK_SIZE ≤ min c.NUM_POINTER (f + b) * c.BLOCK_SIZE :=
    Nat.mul_le_mul_right _ (by omega)
  exact_mod_cast this

/-- The loop of `RSFS_write` from a position within the `f` bound slots of the
inode: it writes the request up to the capacity of the file, which the bound
slots, the free blocks and `NUM_POINTER` determine. -/
theorem RSFS_write_loop_count (c : Consts) (inum : Int) (buf : List Nat)
    (hB : 0 < c.BLOCK_SIZE) :
    ∀ (fuel : Nat) (s : State) (ino : inode) (f : Nat) (bw rem pos : Int),
      s.data_bitmap.length = c.NUM_DBLOCKS → s.data_blocks.length = c.NUM_DBLOCKS →
      (∀ blk ∈ s.data_blocks, blk.length = c.BLOCK_SIZE) →
      getI s.inodes inum = some ino → f ≤ c.NUM_POINTER →
      (∀ j, j < f → ∃ b : Nat, ino.block[j]? = some (b : Int) ∧ b < c.NUM_DBLOCKS) →
      (∀ j, f ≤ j → j < c.NUM_POINTER → ino.block[j]? = some (-1)) →
      0 ≤ bw → 0 ≤ rem → rem.toNat ≤ fuel → 0 ≤ pos →
      pos ≤ (f : Int) * c.BLOCK_SIZE → bw + rem ≤ buf.length →
      ∃ s2, RSFS_write_loop c inum buf fuel s bw rem pos =
        some (s2, bw + min rem (capacity c f (s.data_bitmap.count 0) - pos),
          pos + min rem (capacity c f (s.data_bitmap.count 0) - pos)) := by
  have hB0 : c.BLOCK_SIZE ≠ 0 := by omega
  have hBpos : (0 : Int) < c.BLOCK_SIZE := by omega
  intro fuel
  induction fuel with
  | zero =>
    intro s ino f bw rem pos _ _ _ _ hf _ _ _ hrem0 hfuel _ hpf _
    have hcap := capacity_ge c f (s.data_bitmap.count 0) hf
    have hr : rem = 0 := by omega
    subst hr
    refine ⟨s, ?_⟩
    simp only [RSFS_write_loop, show ¬ ((0 : Int) > 0) from by omega, if_false,
      Option.some.injEq, Prod.mk.injEq, true_and]
    constructor <;> omega
  | succ fuel ih =>
    intro s ino f bw rem pos hbm hdl hblk hino hf hbound hrest hbw hrem0 hfuel hp0 hpf hbuf
    have hcap := capacity_ge c f (s.data_bitmap.count 0) hf
    by_cases hr : rem = 0
    · subst hr
      refine ⟨s, ?_⟩
      simp only [RSFS_write_loop, show ¬ ((0 : Int) > 0) from by omega, if_false,
        Option.some.injEq, Prod.mk.injEq, true_and]
      constructor <;> omega
    · have hrem : 0 < rem := by omega
      obtain ⟨hk0, hkf⟩ := tdiv_le_of_le_mul c f pos hB0 hp0 hpf
      obtain ⟨K, hK⟩ := Int.eq_ofNat_of_zero_le hk0
      have hKf : K ≤ f := by omega
      have hdm := Int.ediv_add_emod pos c.BLOCK_SIZE
      have hm0 := Int.emod_nonneg pos (show (c.BLOCK_SIZE : Int) ≠ 0 by omega)
      have hm1 := Int.emod_lt_of_pos pos hBpos
      have hKd : pos / (c.BLOCK_SIZE : Int) = K := by
        rw [← Int.tdiv_eq_ediv hp0 (by omega)]; exact hK
      rw [hKd] at hdm
      have hcomm : (c.BLOCK_SIZE : Int) * K = (K : Int) * c.BLOCK_SIZE := by ring
      by_cases hKN : c.NUM_POINTER ≤ K
      · -- the block index has reached NUM_POINTER
        have hfN : f = c.NUM_POINTER := by omega
        have hKe : K = f := by omega
        subst hKe
        have hcapN : capacity c K (s.data_bitmap.count 0) = (K : Int) * c.BLOCK_SIZE := by
          unfold capacity
          rw [show min c.NUM_POINTER (K + s.data_bitmap.count 0) = K from by omega]
        refine ⟨s, ?_⟩
        have hge : pos.tdiv (c.BLOCK_SIZE : Int) ≥ c.NUM_POINTER := by omega
        have hrem1 : rem > 0 := hrem
        simp only [RSFS_write_loop, hrem1, if_true, hB0, if_false, hge, Option.some.injEq,
          Prod.mk.injEq, true_and]
        rw [hcapN]
        constructor <;> omega
      · have hKN1 : K < c.NUM_POINTER := by omega
        have hk : pos.tdiv (c.BLOCK_SIZE : Int) < c.NUM_POINTER := by omega
        have hbb := bytes_in_block_bounds c (K + 1) rem pos hB0 hp0 (by push_cast; omega) hrem
        have hble : bytes_in_block c rem pos ≤ rem := by
          unfold bytes_in_block; split <;> omega
        have hKB : ((K + 1 : Nat) : Int) * c.BLOCK_SIZE ≤ (c.NUM_POINTER : Int) * c.BLOCK_SIZE := by
          have : (K + 1) * c.BLOCK_SIZE ≤ c.NUM_POINTER * c.BLOCK_SIZE :=
            Nat.mul_le_mul_right _ (by omega)
          exact_mod_cast this
        by_cases hKlt : K < f
        · -- the slot is bound
          obtain ⟨b, hb, hbN⟩ := hbound K hKlt
          have hres : resolve_block c s inum (pos.tdiv (c.BLOCK_SIZE : Int)) =
              some (s, some (b : Int)) :=
            resolve_block_bound c s inum _ ino (b : Int) hino
              (by rw [hK, getI_natCast]; exact hb) (by omega)
          have hbl : b < s.data_blocks.length := by omega
          obtain ⟨blk1, hl1, _, hstep⟩ := RSFS_write_loop_step c inum buf fuel s s bw rem pos b
            s.data_blocks[b] hB0 hrem hbw hp0 hk hres (List.getElem?_eq_getElem hbl)
            (hblk _ (List.getElem_mem hbl)) hbuf
          have hKf1 : ((K + 1 : Nat) : Int) * c.BLOCK_SIZE ≤ (f : Int) * c.BLOCK_SIZE := by
            have : (K + 1) * c.BLOCK_SIZE ≤ f * c.BLOCK_SIZE :=
              Nat.mul_le_mul_right _ (by omega)
            exact_mod_cast this
          obtain ⟨s2, hs2⟩ := ih { s with data_blocks := s.data_blocks.set b blk1 } ino f
            (bw + bytes_in_block c rem pos) (rem - bytes_in_block c rem pos)
            (pos + bytes_in_block c rem pos) hbm (by simp [hdl])
            (by
              intro x hx
              rcases List.mem_or_eq_of_mem_set hx with h | h
              · exact hblk x h
              · rw [h]; exact hl1)
            hino hf hbound hrest (by omega) (by omega) (by omega) (by omega) (by omega)
            (by omega)
          refine ⟨s2, ?_⟩
          rw [hstep, hs2]
          simp only [Option.some.injEq, Prod.mk.injEq, true_and]
          have hcap1 : capacity c f
              (List.count 0 ({ s with data_blocks := s.data_blocks.set b blk1 } : State).data_bitmap)
              = capacity c f (List.count 0 s.data_bitmap) := rfl
          rw [hcap1]
          constructor <;> omega
        · -- the slot holds -1
          have hKe : K = f := by omega
          subst hKe
          have hslot : ino.block[K]? = some (-1) := hrest K (le_refl K) hKN1
          have hpe : pos = (K : Int) * c.BLOCK_SIZE := by omega
          by_cases hcnt : s.data_bitmap.count 0 = 0
          · have hres : resolve_block c s inum (pos.tdiv (c.BLOCK_SIZE : Int)) =
                some (s, none) :=
              resolve_block_nofree c s inum _ ino hino
                (by rw [hK, getI_natCast]; exact hslot) hbm hcnt
            have hcap0 : capacity c K (s.data_bitmap.count 0) = (K : Int) * c.BLOCK_SIZE := by
              unfold capacity
              rw [hcnt, show min c.NUM_POINTER (K + 0) = K from by omega]
            refine ⟨s, ?_⟩
            have hrem1 : rem > 0 := hrem
            have hk1 : ¬ (pos.tdiv (c.BLOCK_SIZE : Int) ≥ c.NUM_POINTER) := by omega
            simp only [RSFS_write_loop, hrem1, if_true, hB0, if_false, hk1, hres,
              Option.some.injEq, Prod.mk.injEq, true_and]
            constructor <;> omega
          · obtain ⟨j, hj, _, halloc⟩ := allocate_data_block_free c s hbm (by omega)
            have hjl : j < s.data_bitmap.length := (List.getElem?_eq_some_iff.1 hj).1
            have hres0 := resolve_block_fresh c s inum ino K j hino hslot halloc
            have hres : resolve_block c s inum (pos.tdiv (c.BLOCK_SIZE : Int)) =
                some ({ s with
                        data_bitmap := s.data_bitmap.set j 1,
                        inodes := s.inodes.set inum.toNat
                          { ino with block := ino.block.set K (j : Int) } },
                  some (j : Int)) := by
              rw [hK]; exact hres0
            obtain ⟨hi0, hilt, _⟩ := getI_eq_some hino
            have hjb : j < s.data_blocks.length := by omega
            obtain ⟨blk1, hl1, _, hstep⟩ := RSFS_write_loop_step c inum buf fuel s _ bw rem pos j
              s.data_blocks[j] hB0 hrem hbw hp0 hk hres (List.getElem?_eq_getElem hjb)
              (hblk _ (List.getElem_mem hjb)) hbuf
            have hcount := count_zero_set_one s.data_bitmap j hj
            obtain ⟨s2, hs2⟩ := ih
              { s with
                data_bitmap := s.data_bitmap.set j 1,
                inodes := s.inodes.set inum.toNat
                  { ino with block := ino.block.set K (j : Int) },
                data_blocks := s.data_blocks.set j blk1 }
              { ino with block := ino.block.set K (j : Int) } (K + 1)
              (bw + bytes_in_block c rem pos) (rem - bytes_in_block c rem pos)
              (pos + bytes_in_block c rem pos) (by simp [hbm]) (by simp [hdl])
              (by
                intro x hx
                rcases List.mem_or_eq_of_mem_set hx with h | h
                · exact hblk x h
                · rw [h]; exact hl1)
              (by simp [getI, hi0, List.getElem?_set_self hilt]) (by omega)
              (by
                intro j1 hj1
                show ∃ b : Nat, (ino.block.set K (j : Int))[j1]? = some (b : Int) ∧ _
                by_cases hj1K : j1 = K
                · subst hj1K
                  exact ⟨j, List.getElem?_set_self (List.getElem?_eq_some_iff.1 hslot).1,
                    by omega⟩
                · rw [List.getElem?_set_ne (by omega)]
                  exact hbound j1 (by omega))
              (by
                intro j1 hj1 hj1N
                show (ino.block.set K (j : Int))[j1]? = some (-1)
                rw [List.getElem?_set_ne (by omega)]
                exact hrest j1 (by omega) hj1N)
              (by omega) (by omega) (by omega) (by omega) hbb.2 (by omega)
            refine ⟨s2, ?_⟩
            rw [hstep, hs2]
            simp only [Option.some.injEq, Prod.mk.injEq, true_and]
            have hcap1 : capacity c (K + 1) (List.count 0 (s.data_bitmap.set j 1)) =
                capacity c K (List.count 0 s.data_bitmap) := by
              unfold capacity
              rw [show min c.NUM_POINTER (K + 1 + List.count 0 (s.data_bitmap.set j 1)) =
                min c.NUM_POINTER (K + List.count 0 s.data_bitmap) from by omega]
            show bw + bytes_in_block c rem pos +
                min (rem - bytes_in_block c rem pos)
                  (capacity c (K + 1) (List.count 0 (s.data_bitmap.set j 1)) -
                    (pos + bytes_in_block c rem pos)) = _ ∧
              pos + bytes_in_block c rem pos +
                min (rem - bytes_in_block c rem pos)
                  (capacity c (K + 1) (List.count 0 (s.data_bitmap.set j 1)) -
                    (pos + bytes_in_block c rem pos)) = _
            rw [hcap1]
            have hcapK : ((K + 1 : Nat) : Int) * c.BLOCK_SIZE ≤
                capacity c K (List.count 0 s.data_bitmap) := by
              unfold capacity
              have : (K + 1) * c.BLOCK_SIZE ≤
                  min c.NUM_POINTER (K + List.count 0 s.data_bitmap) * c.BLOCK_SIZE :=
                Nat.mul_le_mul_right _ (by omega)
              exact_mod_cast this
            constructor <;> omega

/-- C12: a descriptor in range at position `p` on a file whose inode has its
first `f` slots bound to blocks of the store and the others at `-1`, with
`0 ≤ p ≤ f * BLOCK_SIZE`, in a well-formed state whose data bitmap has `b`
zero flags: every `RSFS_write` of `size > 0` bytes out of a buffer that holds
them returns `min(size, min(NUM_POINTER, f + b) * BLOCK_SIZE - p)`, so it
returns fewer than `size` bytes, and no error, exactly when the capacity
`min(NUM_POINTER, f + b) * BLOCK_SIZE` is reached before the request ends. -/
theorem RSFS_write_count (c : Consts) (s : State) (fd size : Int) (buf : List Nat)
    (entry : open_file_entry) (file_name : String) (d : dir_entry) (ino : inode) (f : Nat)
    (hB : 0 < c.BLOCK_SIZE) (hwf : wf c s)
    (hfd0 : 0 ≤ fd) (hfd : fd < c.NUM_OPEN_FILE) (hsize : 0 < size)
    (hbuf : size ≤ buf.length)
    (hentry : getI s.open_file_table fd = some entry)
    (hname : entry.dir_entry = some file_name)
    (hdir : search_dir file_name s.root_dir = some d)
    (hino : getI s.inodes d.inode_number = some ino)
    (hf : f ≤ c.NUM_POINTER)
    (hbound : ∀ j, j < f → ∃ b : Nat, ino.block[j]? = some (b : Int) ∧ b < c.NUM_DBLOCKS)
    (hrest : ∀ j, f ≤ j → j < c.NUM_POINTER → ino.block[j]? = some (-1))
    (hp0 : 0 ≤ entry.position) (hpf : entry.position ≤ (f : Int) * c.BLOCK_SIZE) :
    (∃ s1, RSFS_write c s fd buf size =
      some (s1, min size (capacity c f (s.data_bitmap.count 0) - entry.position))) ∧
    (min size (capacity c f (s.data_bitmap.count 0) - entry.position) < size ↔
      capacity c f (s.data_bitmap.count 0) < entry.position + size) ∧
    0 ≤ min size (capacity c f (s.data_bitmap.count 0) - entry.position) := by
  have hcap := capacity_ge c f (s.data_bitmap.count 0) hf
  refine ⟨?_, by omega, by omega⟩
  obtain ⟨hdl, hblk, hbm, _, _, _, _⟩ := hwf
  have hguard : ¬ (fd < 0 ∨ fd ≥ c.NUM_OPEN_FILE ∨ size ≤ 0) := by omega
  obtain ⟨_, hlt, _⟩ := getI_eq_some hentry
  obtain ⟨hi0, hilt, hget⟩ := getI_eq_some hino
  obtain ⟨s2, hr⟩ := RSFS_write_loop_count c d.inode_number buf hB size.toNat s ino f 0 size
    entry.position hbm hdl hblk hino hf hbound hrest (le_refl 0) (by omega) (le_refl _)
    hp0 hpf (by omega)
  obtain ⟨_, _, hlens, _⟩ := RSFS_write_loop_frame c _ _ _ _ _ _ _ _ _ _ hr
  have ht := RSFS_write_loop_table c _ _ _ _ _ _ _ _ _ _ hr
  have hlt2 : fd.toNat < s2.open_file_table.length := by rw [ht]; exact hlt
  have hilt2 : d.inode_number.toNat < s2.inodes.length := by
    have e := congrArg List.length hlens
    simp only [List.length_map] at e
    omega
  have hino2 : getI s2.inodes d.inode_number = some s2.inodes[d.inode_number.toNat] := by
    simp [getI, hi0, List.getElem?_eq_getElem hilt2]
  unfold RSFS_write
  rw [if_neg hguard]
  simp only [hentry, hname, hdir, hr, hino2, Option.bind_eq_bind, Option.some_bind, setI,
    hfd0, hlt2, and_self, if_true, zero_add]
  split
  · simp only [hi0, hilt2, and_self, if_true, Option.some_bind]
    exact ⟨_, rfl⟩
  · exact ⟨_, rfl⟩

theorem RSFS_write_count_witness :
    (∃ s1, RSFS_write tiny st_hello 0 (hello ++ hello) 10 = some (s1, 7)) ∧
    ((7 : Int) < 10 ↔ (12 : Int) < 5 + 10) ∧ (0 : Int) ≤ 7 :=
  RSFS_write_count tiny st_hello 0 10 (hello ++ hello) ⟨1, 1, 5, some "a.txt"⟩ "a.txt"
    ⟨"a.txt", 0⟩ ⟨5, [0, 1, -1]⟩ 2 (by decide) (by decide) (by decide) (by decide)
    (by decide) (by decide) (by decide) (by decide) (by decide) (by decide) (by decide)
    (by
      intro j hj
      have hj2 : j = 0 ∨ j = 1 := by omega
      rcases hj2 with rfl | rfl
      · exact ⟨0, by decide, by decide⟩
      · exact ⟨1, by decide, by decide⟩)
    (by
      intro j h1 h2
      have hj2 : j = 2 := by
        have h3 : j < 3 := h2
        omega
      subst hj2
      decide)
    (by decide) (by decide)

/-! ## Writing through one descriptor, reading through another -/

/-- The loop of `RSFS_write` from a block boundary at the end of the bound
slots, with enough free blocks for the rest of `d`: it writes all of `d`, and
afterwards every chunk of `d` is stored in the block of its slot. -/
theorem RSFS_write_loop_store (c : Consts) (inum : Int) (d : List Nat)
    (hB : 0 < c.BLOCK_SIZE)
    (hmax : (d.length : Int) ≤ (c.NUM_POINTER : Int) * c.BLOCK_SIZE) :
    ∀ (fuel : Nat) (s : State) (ino : inode) (K : Nat) (bw rem : Int),
      s.data_bitmap.length = c.NUM_DBLOCKS → s.data_blocks.length = c.NUM_DBLOCKS →
      (∀ blk ∈ s.data_blocks, blk.length = c.BLOCK_SIZE) →
      getI s.inodes inum = some ino →
      (∀ j, K ≤ j → j < c.NUM_POINTER → ino.block[j]? = some (-1)) →
      (∀ j, j < K → stored c s ino d j) →
      0 ≤ bw → 0 ≤ rem → rem.toNat ≤ fuel → bw + rem = d.length →
      bw ≤ (K : Int) * c.BLOCK_SIZE → (0 < rem → bw = (K : Int) * c.BLOCK_SIZE) →
      rem ≤ ((s.data_bitmap.count 0 : Nat) : Int) * c.BLOCK_SIZE →
      ∃ (s2 : State) (ino2 : inode) (K2 : Nat),
        RSFS_write_loop c inum d fuel s bw rem bw =
          some (s2, (d.length : Int), (d.length : Int)) ∧
        getI s2.inodes inum = some ino2 ∧
        (d.length : Int) ≤ (K2 : Int) * c.BLOCK_SIZE ∧
        ∀ j, j < K2 → stored c s2 ino2 d j := by
  have hB0 : c.BLOCK_SIZE ≠ 0 := by omega
  have hBi : (c.BLOCK_SIZE : Int) ≠ 0 := by omega
  intro fuel
  induction fuel with
  | zero =>
    intro s ino K bw rem _ _ _ hino _ hst _ hrem0 hfuel hsum hbK _ _
    have hr : rem = 0 := by omega
    subst hr
    refine ⟨s, ino, K, ?_, hino, by omega, hst⟩
    simp only [RSFS_write_loop, show ¬ ((0 : Int) > 0) from by omega, if_false,
      Option.some.injEq, Prod.mk.injEq, true_and]
    constructor <;> omega
  | succ fuel ih =>
    intro s ino K bw rem hbm hdl hblk hino hrest hst hbw hrem0 hfuel hsum hbK hal hfree
    by_cases hr : rem = 0
    · subst hr
      refine ⟨s, ino, K, ?_, hino, by omega, hst⟩
      simp only [RSFS_write_loop, show ¬ ((0 : Int) > 0) from by omega, if_false,
        Option.some.injEq, Prod.mk.injEq, true_and]
      constructor <;> omega
    · have hrem : 0 < rem := by omega
      have hbwK := hal hrem
      have hKN : K < c.NUM_POINTER := by
        by_contra hcon
        have h1 : c.NUM_POINTER * c.BLOCK_SIZE ≤ K * c.BLOCK_SIZE :=
          Nat.mul_le_mul_right _ (by omega)
        have h2 : (c.NUM_POINTER : Int) * c.BLOCK_SIZE ≤ (K : Int) * c.BLOCK_SIZE := by
          exact_mod_cast h1
        omega
      have hcnt : 0 < s.data_bitmap.count 0 := by
        by_contra hcon
        have h0 : s.data_bitmap.count 0 = 0 := by omega
        rw [h0] at hfree
        simp only [Nat.cast_zero, zero_mul] at hfree
        omega
      obtain ⟨j0, hj0, _, halloc⟩ := allocate_data_block_free c s hbm hcnt
      have hjl : j0 < s.data_bitmap.length := (List.getElem?_eq_some_iff.1 hj0).1
      have hjb : j0 < s.data_blocks.length := by omega
      have hslot := hrest K (le_refl K) hKN
      have htd : bw.tdiv (c.BLOCK_SIZE : Int) = K := by
        rw [hbwK]; exact Int.mul_tdiv_cancel _ hBi
      have htm : bw.tmod (c.BLOCK_SIZE : Int) = 0 := by
        rw [hbwK]; exact Int.mul_tmod_left _ _
      have hres : resolve_block c s inum (bw.tdiv (c.BLOCK_SIZE : Int)) =
          some ({ s with
                  data_bitmap := s.data_bitmap.set j0 1,
                  inodes := s.inodes.set inum.toNat
                    { ino with block := ino.block.set K (j0 : Int) } },
            some (j0 : Int)) := by
        rw [htd]; exact resolve_block_fresh c s inum ino K j0 hino hslot halloc
      obtain ⟨hi0, hilt, _⟩ := getI_eq_some hino
      obtain ⟨blk1, hl1, hmw, hstep⟩ := RSFS_write_loop_step c inum d fuel s _ bw rem bw j0
        s.data_blocks[j0] hB0 hrem hbw hbw (by rw [htd]; omega) hres
        (List.getElem?_eq_getElem hjb) (hblk _ (List.getElem_mem hjb)) (by omega)
      have hm : bytes_in_block c rem bw = if rem < c.BLOCK_SIZE then rem else c.BLOCK_SIZE := by
        unfold bytes_in_block
        rw [htm]
        simp only [sub_zero]
      have hmf : 0 < bytes_in_block c rem bw ∧ bytes_in_block c rem bw ≤ rem ∧
          bytes_in_block c rem bw ≤ c.BLOCK_SIZE ∧
          (0 < rem - bytes_in_block c rem bw → bytes_in_block c rem bw = c.BLOCK_SIZE) := by
        rw [hm]; split <;> omega
      obtain ⟨hm0, hmr, hmB, hmfull⟩ := hmf
      have hbn : bw.toNat = K * c.BLOCK_SIZE := by
        rw [hbwK, ← Nat.cast_mul, Int.toNat_natCast]
      have hpre : (d.drop (K * c.BLOCK_SIZE)).take c.BLOCK_SIZE <+: blk1 := by
        rw [htm] at hmw
        unfold memwrite at hmw
        split at hmw
        · have e := (Option.some.inj hmw).symm
          rw [e]
          have hch : (d.drop (K * c.BLOCK_SIZE)).take c.BLOCK_SIZE =
              (d.drop bw.toNat).take (bytes_in_block c rem bw).toNat := by
            rw [hbn]
            apply List.take_eq_take.2
            rw [List.length_drop]
            omega
          rw [hch]
          simp only [Int.toNat_zero, List.take_zero, List.nil_append]
          exact List.prefix_append _ _
        · cases hmw
      have hcount := count_zero_set_one s.data_bitmap j0 hj0
      have hfree1 : ((s.data_bitmap.count 0 : Nat) : Int) * c.BLOCK_SIZE =
          (((s.data_bitmap.set j0 1).count 0 : Nat) : Int) * c.BLOCK_SIZE + c.BLOCK_SIZE := by
        rw [← hcount]; push_cast; ring
      have hK1 : ((K + 1 : Nat) : Int) * c.BLOCK_SIZE = (K : Int) * c.BLOCK_SIZE + c.BLOCK_SIZE := by
        push_cast; ring
      obtain ⟨s2, ino2, K2, hloop, hino2, hK2, hst2⟩ := ih
        { s with
          data_bitmap := s.data_bitmap.set j0 1,
          inodes := s.inodes.set inum.toNat
            { ino with block := ino.block.set K (j0 : Int) },
          data_blocks := s.data_blocks.set j0 blk1 }
        { ino with block := ino.block.set K (j0 : Int) } (K + 1)
        (bw + bytes_in_block c rem bw) (rem - bytes_in_block c rem bw)
        (by simp [hbm]) (by simp [hdl])
        (by
          intro x hx
          rcases List.mem_or_eq_of_mem_set hx with h | h
          · exact hblk x h
          · rw [h]; exact hl1)
        (by simp [getI, hi0, List.getElem?_set_self hilt])
        (by
          intro j1 hj1 hj1N
          show (ino.block.set K (j0 : Int))[j1]? = some (-1)
          rw [List.getElem?_set_ne (by omega)]
          exact hrest j1 (by omega) hj1N)
        (by
          intro j1 hj1
          by_cases hj1K : j1 = K
          · subst hj1K
            exact ⟨j0, blk1, List.getElem?_set_self (List.getElem?_eq_some_iff.1 hslot).1,
              List.getElem?_set_self hjl, List.getElem?_set_self hjb, hl1, hpre⟩
          · obtain ⟨b, blk, hb, hbit, hbb, hbl, hbp⟩ := hst j1 (by omega)
            have hne : j0 ≠ b := by
              intro e
              rw [e, hbit] at hj0
              cases hj0
            refine ⟨b, blk, ?_, ?_, ?_, hbl, hbp⟩
            · show (ino.block.set K (j0 : Int))[j1]? = some (b : Int)
              rw [List.getElem?_set_ne (by omega)]; exact hb
            · show (s.data_bitmap.set j0 1)[b]? = some 1
              rw [List.getElem?_set_ne hne]; exact hbit
            · show (s.data_blocks.set j0 blk1)[b]? = some blk
              rw [List.getElem?_set_ne hne]; exact hbb)
        (by omega) (by omega) (by omega) (by omega) (by omega)
        (by intro h; have := hmfull h; omega)
        (by
          show rem - bytes_in_block c rem bw ≤
            (((s.data_bitmap.set j0 1).count 0 : Nat) : Int) * c.BLOCK_SIZE
          by_cases hlast : 0 < rem - bytes_in_block c rem bw
          · have := hmfull hlast; omega
          · have h0 : (0 : Int) ≤ (((s.data_bitmap.set j0 1).count 0 : Nat) : Int) * c.BLOCK_SIZE :=
              Int.mul_nonneg (by omega) (by omega)
            omega)
      exact ⟨s2, ino2, K2, by rw [hstep]; exact hloop, hino2, hK2, hst2⟩

/-- The loop of `RSFS_read` from a block boundary on a file of the length of
`d` whose slots store the chunks of `d`: it copies the rest of `d`. -/
theorem RSFS_read_loop_stored (c : Consts) (ino : inode) (blocks : List (List Nat))
    (d : List Nat) (hB : 0 < c.BLOCK_SIZE) (hlen : ino.length = d.length)
    (hst : ∀ j : Nat, (j : Int) * c.BLOCK_SIZE < d.length →
      ∃ (b : Nat) (blk : List Nat), ino.block[j]? = some (b : Int) ∧
        blocks[b]? = some blk ∧ blk.length = c.BLOCK_SIZE ∧
        (d.drop (j * c.BLOCK_SIZE)).take c.BLOCK_SIZE <+: blk) :
    ∀ (fuel K : Nat) (buf : List Nat) (rem pos : Int),
      0 ≤ rem → rem.toNat ≤ fuel → pos + rem = d.length → 0 ≤ pos →
      (0 < rem → pos = (K : Int) * c.BLOCK_SIZE) → buf = d.take pos.toNat →
      RSFS_read_loop c ino blocks fuel buf pos rem pos =
        some (d, (d.length : Int), (d.length : Int)) := by
  have hB0 : c.BLOCK_SIZE ≠ 0 := by omega
  have hBi : (c.BLOCK_SIZE : Int) ≠ 0 := by omega
  have hdone : ∀ (buf : List Nat) (pos : Int), pos + 0 = d.length → buf = d.take pos.toNat →
      (buf, pos, pos) = (d, (d.length : Int), (d.length : Int)) := by
    intro buf pos hsum hbuf
    have hp : pos = d.length := by omega
    subst hp
    rw [hbuf, Int.toNat_natCast, List.take_length]
  intro fuel
  induction fuel with
  | zero =>
    intro K buf rem pos hrem0 hfuel hsum _ _ hbuf
    have hr : rem = 0 := by omega
    subst hr
    have hc : ¬ ((0 : Int) > 0 ∧ pos < ino.length) := by omega
    simp only [RSFS_read_loop, hc, if_false, Option.some.injEq]
    exact hdone buf pos hsum hbuf
  | succ fuel ih =>
    intro K buf rem pos hrem0 hfuel hsum hp0 hal hbuf
    by_cases hr : rem = 0
    · subst hr
      have hc : ¬ ((0 : Int) > 0 ∧ pos < ino.length) := by omega
      simp only [RSFS_read_loop, hc, if_false, Option.some.injEq]
      exact hdone buf pos hsum hbuf
    · have hrem : 0 < rem := by omega
      have hposK := hal hrem
      have hc : rem > 0 ∧ pos < ino.length := ⟨hrem, by omega⟩
      have htd : pos.tdiv (c.BLOCK_SIZE : Int) = K := by
        rw [hposK]; exact Int.mul_tdiv_cancel _ hBi
      have htm : pos.tmod (c.BLOCK_SIZE : Int) = 0 := by
        rw [hposK]; exact Int.mul_tmod_left _ _
      obtain ⟨b, blk, hb, hbb, hbl, hbp⟩ := hst K (by omega)
      have hslot : getI ino.block (pos.tdiv (c.BLOCK_SIZE : Int)) = some (b : Int) := by
        rw [htd, getI_natCast]; exact hb
      have hblkI : getI blocks (b : Int) = some blk := by
        rw [getI_natCast]; exact hbb
      have hm : bytes_in_block c rem pos = if rem < c.BLOCK_SIZE then rem else c.BLOCK_SIZE := by
        unfold bytes_in_block
        rw [htm]
        simp only [sub_zero]
      have hmf : 0 < bytes_in_block c rem pos ∧ bytes_in_block c rem pos ≤ rem ∧
          bytes_in_block c rem pos ≤ c.BLOCK_SIZE ∧
          (0 < rem - bytes_in_block c rem pos → bytes_in_block c rem pos = c.BLOCK_SIZE) := by
        rw [hm]; split <;> omega
      obtain ⟨hm0, hmr, hmB, hmfull⟩ := hmf
      have hpn : pos.toNat = K * c.BLOCK_SIZE := by
        rw [hposK, ← Nat.cast_mul, Int.toNat_natCast]
      have hchunk : blk.take (bytes_in_block c rem pos).toNat =
          (d.drop (K * c.BLOCK_SIZE)).take (bytes_in_block c rem pos).toNat := by
        have hch : (d.drop (K * c.BLOCK_SIZE)).take c.BLOCK_SIZE =
            (d.drop (K * c.BLOCK_SIZE)).take (bytes_in_block c rem pos).toNat := by
          apply List.take_eq_take.2
          rw [List.length_drop]
          omega
        have e := List.prefix_iff_eq_take.1 hbp
        have hl : ((d.drop (K * c.BLOCK_SIZE)).take c.BLOCK_SIZE).length =
            (bytes_in_block c rem pos).toNat := by
          rw [List.length_take, List.length_drop]
          omega
        rw [hl] at e
        rw [← e, hch]
      have hmread : memread blk (pos.tmod (c.BLOCK_SIZE : Int)) (bytes_in_block c rem pos) =
          some ((d.drop (K * c.BLOCK_SIZE)).take (bytes_in_block c rem pos).toNat) := by
        rw [htm]
        unfold memread
        rw [if_pos ⟨le_refl 0, by omega, by omega⟩]
        simp only [Int.toNat_zero, List.drop_zero]
        rw [hchunk]
      have hK1 : ((K + 1 : Nat) : Int) * c.BLOCK_SIZE =
          (K : Int) * c.BLOCK_SIZE + c.BLOCK_SIZE := by
        push_cast; ring
      have hih := ih (K + 1)
        (buf ++ (d.drop (K * c.BLOCK_SIZE)).take (bytes_in_block c rem pos).toNat)
        (rem - bytes_in_block c rem pos) (pos + bytes_in_block c rem pos)
        (by omega) (by omega) (by omega) (by omega)
        (by intro h; have := hmfull h; omega)
        (by
          have e : (pos + bytes_in_block c rem pos).toNat =
              K * c.BLOCK_SIZE + (bytes_in_block c rem pos).toNat := by omega
          rw [e, List.take_add, hbuf, hpn])
      unfold bytes_in_block at hmread hih
      simp only [RSFS_read_loop, hc, and_self, if_true, hB0, if_false, hslot, hblkI, hmread]
      exact hih

theorem RSFS_write_of_loop (c : Consts) (s s2 : State) (fd size bw2 pos2 : Int)
    (buf : List Nat) (entry : open_file_entry) (file_name : String) (d : dir_entry)
    (ino : inode) (hfd0 : 0 ≤ fd) (hfd : fd < c.NUM_OPEN_FILE) (hsize : 0 < size)
    (hentry : getI s.open_file_table fd = some entry)
    (hname : entry.dir_entry = some file_name)
    (hdir : search_dir file_name s.root_dir = some d)
    (hino : getI s.inodes d.inode_number = some ino)
    (hr : RSFS_write_loop c d.inode_number buf size.toNat s 0 size entry.position =
      some (s2, bw2, pos2)) :
    ∃ s1, RSFS_write c s fd buf size = some (s1, bw2) := by
  have hguard : ¬ (fd < 0 ∨ fd ≥ c.NUM_OPEN_FILE ∨ size ≤ 0) := by omega
  obtain ⟨_, hlt, _⟩ := getI_eq_some hentry
  obtain ⟨hi0, hilt, hget⟩ := getI_eq_some hino
  obtain ⟨_, _, hlens, _⟩ := RSFS_write_loop_frame c _ _ _ _ _ _ _ _ _ _ hr
  have ht := RSFS_write_loop_table c _ _ _ _ _ _ _ _ _ _ hr
  have hlt2 : fd.toNat < s2.open_file_table.length := by rw [ht]; exact hlt
  have hilt2 : d.inode_number.toNat < s2.inodes.length := by
    have e := congrArg List.length hlens
    simp only [List.length_map] at e
    omega
  have hino2 : getI s2.inodes d.inode_number = some s2.inodes[d.inode_number.toNat] := by
    simp [getI, hi0, List.getElem?_eq_getElem hilt2]
  unfold RSFS_write
  rw [if_neg hguard]
  simp only [hentry, hname, hdir, hr, hino2, Option.bind_eq_bind, Option.some_bind, setI,
    hfd0, hlt2, and_self, if_true]
  split
  · simp only [hi0, hilt2, and_self, if_true, Option.some_bind]
    exact ⟨_, rfl⟩
  · exact ⟨_, rfl⟩

theorem RSFS_read_of_loop (c : Consts) (s : State) (fd size br pos1 : Int)
    (out : List Nat) (entry : open_file_entry) (file_name : String) (d : dir_entry)
    (ino : inode) (hfd0 : 0 ≤ fd) (hfd : fd < c.NUM_OPEN_FILE) (hsize : 0 < size)
    (hentry : getI s.open_file_table fd = some entry)
    (hname : entry.dir_entry = some file_name)
    (hdir : search_dir file_name s.root_dir = some d)
    (hino : getI s.inodes d.inode_number = some ino)
    (hr : RSFS_read_loop c ino s.data_blocks size.toNat [] 0 size entry.position =
      some (out, br, pos1)) :
    ∃ s1, RSFS_read c s fd size = some (s1, out, br) := by
  have hguard : ¬ (fd < 0 ∨ fd ≥ c.NUM_OPEN_FILE ∨ size ≤ 0) := by omega
  obtain ⟨_, hlt, _⟩ := getI_eq_some hentry
  unfold RSFS_read
  rw [if_neg hguard]
  simp only [hentry, hname, hdir, hino, hr, Option.bind_eq_bind, Option.some_bind, setI,
    hfd0, hlt, and_self, if_true]
  exact ⟨_, rfl⟩

/-- C19: two descriptors `fd1 ≠ fd2` at position 0 on the same empty file
(length 0, every slot `-1`) in a well-formed state, and bytes `d` of length
`n` with `0 < n ≤ NUM_POINTER * BLOCK_SIZE` and at least `n` bytes of room in
the free blocks: `RSFS_write(fd1, d, n)` returns `n`, and in the state it
leaves `RSFS_read(fd2, buf, n)` returns `n` and fills `buf` with exactly `d`,
whatever `n` is relative to `BLOCK_SIZE`. -/
theorem RSFS_write_read_round_trip (c : Consts) (s : State) (fd1 fd2 : Int) (d : List Nat)
    (e1 e2 : open_file_entry) (file_name : String) (de : dir_entry) (ino : inode)
    (hB : 0 < c.BLOCK_SIZE) (hwf : wf c s)
    (h10 : 0 ≤ fd1) (h1N : fd1 < c.NUM_OPEN_FILE) (h20 : 0 ≤ fd2)
    (h2N : fd2 < c.NUM_OPEN_FILE) (hne : fd1 ≠ fd2)
    (he1 : getI s.open_file_table fd1 = some e1)
    (he2 : getI s.open_file_table fd2 = some e2)
    (hn1 : e1.dir_entry = some file_name) (hn2 : e2.dir_entry = some file_name)
    (hp1 : e1.position = 0) (hp2 : e2.position = 0)
    (hdir : search_dir file_name s.root_dir = some de)
    (hino : getI s.inodes de.inode_number = some ino)
    (hempty : ino.length = 0)
    (hslots : ∀ j, j < c.NUM_POINTER → ino.block[j]? = some (-1))
    (hn0 : 0 < d.length) (hnmax : d.length ≤ c.NUM_POINTER * c.BLOCK_SIZE)
    (hfree : d.length ≤ s.data_bitmap.count 0 * c.BLOCK_SIZE) :
    ∃ s1 s2, RSFS_write c s fd1 d (d.length : Int) = some (s1, (d.length : Int)) ∧
      RSFS_read c s1 fd2 (d.length : Int) = some (s2, d, (d.length : Int)) := by
  obtain ⟨hdl, hblk, hbm, _⟩ := hwf
  have hnpos : (0 : Int) < d.length := by omega
  obtain ⟨s2, ino2, K2, hloop, hino2, hK2, hst2⟩ :=
    RSFS_write_loop_store c de.inode_number d hB (by exact_mod_cast hnmax)
      (d.length : Int).toNat s ino 0 0 d.length hbm hdl hblk hino
      (fun j _ hj => hslots j hj) (fun j hj => absurd hj (Nat.not_lt_zero j))
      (le_refl 0) (by omega) (le_refl _) (by omega) (by simp) (by intro _; simp)
      (by exact_mod_cast hfree)
  have hloop1 : RSFS_write_loop c de.inode_number d (d.length : Int).toNat s 0 d.length
      e1.position = some (s2, (d.length : Int), (d.length : Int)) := by
    rw [hp1]; exact hloop
  obtain ⟨s1, hw⟩ := RSFS_write_of_loop c s s2 fd1 d.length d.length d.length d e1 file_name
    de ino h10 h1N hnpos he1 hn1 hdir hino hloop1
  refine ⟨s1, ?_⟩
  rcases RSFS_write_cases c s s1 fd1 d.length d.length d hw with
    ⟨hg, _⟩ | ⟨_, entry, fname, dd, s2a, pos2, ino1, hent, hnm, hdd, hlp, hi1, hs1⟩
  · exact absurd hg (by omega)
  · rw [he1] at hent
    have ee := Option.some.inj hent
    subst ee
    rw [hn1] at hnm
    have en := Option.some.inj hnm
    subst en
    rw [hdir] at hdd
    have ed := Option.some.inj hdd
    subst ed
    rw [hloop1] at hlp
    simp only [Option.some.injEq, Prod.mk.injEq, true_and] at hlp
    obtain ⟨es, ep⟩ := hlp
    subst es ep
    rw [hino2] at hi1
    have ei := Option.some.inj hi1
    subst ei
    obtain ⟨hroot, _, hlens, _⟩ := RSFS_write_loop_frame c _ _ _ _ _ _ _ _ _ _ hloop1
    obtain ⟨hi0, hilt, hget⟩ := getI_eq_some hino
    obtain ⟨_, hilt2, hget2⟩ := getI_eq_some hino2
    obtain ⟨_, hlt2, hget_e2⟩ := getI_eq_some he2
    have hl2 : ino2.length = 0 := by
      have e := congrArg (fun l => l[de.inode_number.toNat]?) hlens
      simp only [List.getElem?_map, hget, hget2, Option.map_some', Option.some.injEq] at e
      rw [e]; exact hempty
    have hrd : RSFS_read_loop c { ino2 with length := max ino2.length (d.length : Int) }
        s2.data_blocks (d.length : Int).toNat [] 0 d.length e2.position =
        some (d, (d.length : Int), (d.length : Int)) := by
      rw [hp2]
      exact RSFS_read_loop_stored c _ s2.data_blocks d hB
        (by
          show max ino2.length (d.length : Int) = d.length
          rw [hl2]; omega)
        (by
          intro j hj
          have hjK : j < K2 := by
            by_contra hcon
            have h1 : K2 * c.BLOCK_SIZE ≤ j * c.BLOCK_SIZE :=
              Nat.mul_le_mul_right _ (by omega)
            have h2 : (K2 : Int) * c.BLOCK_SIZE ≤ (j : Int) * c.BLOCK_SIZE := by
              exact_mod_cast h1
            omega
          obtain ⟨b, blk, hb, _, hbb, hbl, hbp⟩ := hst2 j hjK
          exact ⟨b, blk, hb, hbb, hbl, hbp⟩)
        (d.length : Int).toNat 0 [] d.length 0 (by omega) (le_refl _) (by omega) (le_refl 0)
        (by intro _; simp) (by simp)
    obtain ⟨s3, hs3⟩ := RSFS_read_of_loop c s1 fd2 d.length d.length d.length d e2 file_name de
      { ino2 with length := max ino2.length (d.length : Int) } h20 h2N hnpos
      (by
        rw [hs1]
        show getI (s.open_file_table.set fd1.toNat _) fd2 = some e2
        simp only [getI, h20, if_true]
        rw [List.getElem?_set_ne (by omega)]
        exact hget_e2)
      hn2
      (by
        rw [hs1]
        show search_dir file_name s2.root_dir = some de
        rw [hroot]; exact hdir)
      (by
        rw [hs1]
        show getI (s2.inodes.set de.inode_number.toNat _) de.inode_number = some _
        simp only [getI, hi0, if_true]
        exact List.getElem?_set_self hilt2)
      (by rw [hs1]; exact hrd)
    exact ⟨s3, hw, hs3⟩

theorem RSFS_write_read_round_trip_witness :
    ∃ s1 s2, RSFS_write tiny st_open2 0 hello 5 = some (s1, 5) ∧
      RSFS_read tiny s1 1 5 = some (s2, hello, 5) :=
  RSFS_write_read_round_trip tiny st_open2 0 1 hello ⟨1, 1, 0, some "a.txt"⟩
    ⟨1, 0, 0, some "a.txt"⟩ "a.txt" ⟨"a.txt", 0⟩ ⟨0, [-1, -1, -1]⟩ (by decide) (by decide)
    (by decide) (by decide) (by decide) (by decide) (by decide) (by decide) (by decide)
    (by decide) (by decide) (by decide) (by decide) (by decide) (by decide) (by decide)
    (by decide) (by decide) (by decide) (by decide)

/-! ## Slots that are not in use, in every reachable state -/

theorem free_data_block_table (s s1 : State) (i : Int)
    (h : free_data_block s i = some s1) : s1.open_file_table = s.open_file_table := by
  unfold free_data_block at h
  split at h
  · cases h
  · split at h
    · cases h
    · cases hs : setI s.data_bitmap i 0 with
      | none => rw [hs] at h; cases h
      | some bm => rw [hs] at h; cases h; rfl

theorem RSFS_delete_blocks_table (oob : State → Int) :
    ∀ (fuel i : Nat) (s s1 : State), RSFS_delete_blocks oob fuel i s = some s1 →
      s1.open_file_table = s.open_file_table := by
  intro fuel
  induction fuel with
  | zero => intro i s s1 h; cases h
  | succ fuel ih =>
    intro i s s1 h
    unfold RSFS_delete_blocks at h
    split at h
    · cases hf : free_data_block s i with
      | none => rw [hf] at h; cases h
      | some s2 =>
        rw [hf] at h
        rw [ih (i + 1) s2 s1 h, free_data_block_table s s2 i hf]
    · cases h; rfl

theorem free_slots_table :
    ∀ (slots : List Int) (s s1 : State), free_slots s slots = some s1 →
      s1.open_file_table = s.open_file_table := by
  intro slots
  induction slots with
  | nil => intro s s1 h; cases h; rfl
  | cons b rest ih =>
    intro s s1 h
    unfold free_slots at h
    split at h
    · exact ih s s1 h
    · cases hf : free_data_block s b with
      | none => rw [hf] at h; cases h
      | some s2 =>
        rw [hf] at h
        rw [ih s2 s1 h, free_data_block_table s s2 b hf]

theorem free_inode_table (c : Consts) (s s1 : State) (i : Int)
    (h : free_inode c s i = some s1) : s1.open_file_table = s.open_file_table := by
  unfold free_inode at h
  simp only [Option.bind_eq_bind, Option.bind_eq_some] at h
  obtain ⟨ino, _, s2, hs2, bm, _, ins, _, hfin⟩ := h
  cases hfin
  exact free_slots_table ino.block s s2 hs2

theorem RSFS_delete_inodes_table (c : Consts) (oob : State → Int) :
    ∀ (fuel i : Nat) (s s1 : State), RSFS_delete_inodes c oob fuel i s = some s1 →
      s1.open_file_table = s.open_file_table := by
  intro fuel
  induction fuel with
  | zero => intro i s s1 h; cases h
  | succ fuel ih =>
    intro i s s1 h
    unfold RSFS_delete_inodes at h
    split at h
    · cases hf : free_inode c s i with
      | none => rw [hf] at h; cases h
      | some s2 =>
        rw [hf] at h
        rw [ih (i + 1) s2 s1 h, free_inode_table c s s2 i hf]
    · cases h; rfl

/-- The function `RSFS_delete` leaves the open file table as it is. -/
theorem RSFS_delete_table (c : Consts) (oob_data oob_inode : State → Int) (s s1 : State)
    (file_name : String) (r : Int)
    (h : RSFS_delete c oob_data oob_inode s file_name = some (s1, r)) :
    s1.open_file_table = s.open_file_table := by
  unfold RSFS_delete at h
  split at h
  · simp only [Option.bind_eq_bind, Option.bind_eq_some] at h
    obtain ⟨s2, h2, s3, h3, hfin⟩ := h
    cases hfin
    show s3.open_file_table = _
    rw [RSFS_delete_inodes_table c _ _ _ _ _ h3, RSFS_delete_blocks_table _ _ _ _ _ h2]
  · cases h; rfl

/-- The function `RSFS_create` leaves the open file table as it is. -/
theorem RSFS_create_table (c : Consts) (s s1 : State) (file_name : String) (r : Int)
    (h : RSFS_create c s file_name = some (s1, r)) :
    s1.open_file_table = s.open_file_table := by
  unfold RSFS_create at h
  split at h
  · cases h; rfl
  · simp only at h
    cases ha : allocate_inode c { s with root_dir := insert_dir file_name s.root_dir } with
    | none => rw [ha] at h; cases h
    | some res =>
      obtain ⟨s2, k⟩ := res
      rw [ha] at h
      simp only at h
      have ht : s2.open_file_table = s.open_file_table := by
        unfold allocate_inode at ha
        rcases allocate_inode_loop_cases c _ _ _ _ _ ha with ⟨e, _⟩ | ⟨j, _, e, _⟩
        · rw [e]
        · rw [e]
      split at h
      · cases h; exact ht
      · cases h; exact ht

theorem slots_reset_init (c : Consts) (malloc : Nat → Option (List Nat)) (s : State)
    (r : Int) (h : RSFS_init c malloc (boot c) = some (s, r)) : slots_reset s := by
  intro e he _
  rw [RSFS_init_table c malloc _ _ r h] at he
  have e0 : e = ⟨0, 0, 0, none⟩ := List.eq_of_mem_replicate he
  rw [e0]
  exact ⟨rfl, rfl⟩

theorem slots_reset_open (c : Consts) (s s1 : State) (file_name : String)
    (access_flag r : Int) (hinv : slots_reset s)
    (h : RSFS_open c s file_name access_flag = some (s1, r)) : slots_reset s1 := by
  unfold RSFS_open at h
  split at h
  · cases h; exact hinv
  · cases hdir : search_dir file_name s.root_dir with
    | none => rw [hdir] at h; cases h; exact hinv
    | some d =>
      rw [hdir] at h
      simp only at h
      cases hl : RSFS_open_loop access_flag d.name s.open_file_table c.NUM_OPEN_FILE 0 with
      | none => rw [hl] at h; cases h
      | some res =>
        obtain ⟨tbl1, r1⟩ := res
        rw [hl] at h
        cases h
        rcases RSFS_open_loop_cases _ _ _ _ _ _ _ hl with e | ⟨j, e, hj, hu, e1⟩
        · intro x hx; rw [e] at hx; exact hinv x hx
        · subst e1
          intro x hx hxu
          rcases List.mem_or_eq_of_mem_set hx with hx1 | hx1
          · exact hinv x hx1 hxu
          · rw [hx1] at hxu
            cases hxu

theorem slots_reset_read (c : Consts) (s s1 : State) (fd size r : Int) (out : List Nat)
    (hinv : slots_reset s) (h : RSFS_read c s fd size = some (s1, out, r)) :
    slots_reset s1 := by
  rcases RSFS_read_cases c s s1 fd size r out h with ⟨_, e, _⟩ |
    ⟨_, entry, file_name, d, ino, pos1, hentry, hname, _, _, _, e⟩
  · rw [e]; exact hinv
  · subst e
    obtain ⟨_, _, hget⟩ := getI_eq_some hentry
    have hme : entry ∈ s.open_file_table := List.getElem?_mem hget
    intro x hx hxu
    rcases List.mem_or_eq_of_mem_set hx with hx1 | hx1
    · exact hinv x hx1 hxu
    · rw [hx1] at hxu
      have := (hinv entry hme hxu).2
      rw [hname] at this
      cases this

theorem slots_reset_write (c : Consts) (s s1 : State) (fd size r : Int) (buf : List Nat)
    (hinv : slots_reset s) (h : RSFS_write c s fd buf size = some (s1, r)) :
    slots_reset s1 := by
  rcases RSFS_write_cases c s s1 fd size r buf h with ⟨_, e, _⟩ |
    ⟨_, entry, file_name, d, s2, pos2, ino1, hentry, hname, _, _, _, e⟩
  · rw [e]; exact hinv
  · subst e
    obtain ⟨_, _, hget⟩ := getI_eq_some hentry
    have hme : entry ∈ s.open_file_table := List.getElem?_mem hget
    intro x hx hxu
    rcases List.mem_or_eq_of_mem_set hx with hx1 | hx1
    · exact hinv x hx1 hxu
    · rw [hx1] at hxu
      have := (hinv entry hme hxu).2
      rw [hname] at this
      cases this

theorem slots_reset_close (s s1 : State) (fd r : Int) (hinv : slots_reset s)
    (h : RSFS_close s fd = some (s1, r)) : slots_reset s1 := by
  unfold RSFS_close at h
  split at h
  · unfold free_open_file_entry at h
    cases hset : setI s.open_file_table fd ⟨0, -1, 0, none⟩ with
    | none => rw [hset] at h; cases h
    | some t =>
      rw [hset] at h
      cases h
      unfold setI at hset
      split at hset
      · cases hset
        intro e he hu
        rcases List.mem_or_eq_of_mem_set he with h1 | h1
        · exact hinv e h1 hu
        · rw [h1]; exact ⟨rfl, rfl⟩
      · cases hset
  · cases h
    exact hinv

/-- In every reachable state a slot that is not in use has position 0 and no
directory entry: program start has it so, `RSFS_close` resets the slot it
releases, `RSFS_read` and `RSFS_write` move the position of a slot with a
directory entry only, and no other function writes a position. -/
theorem slots_reset_of_reachable (c : Consts) (s : State) (h : Reachable c s) :
    slots_reset s := by
  induction h with
  | init malloc s r h => exact slots_reset_init c malloc s r h
  | again malloc s s1 r _ h ih =>
    intro e he; rw [RSFS_init_table c malloc s s1 r h] at he; exact ih e he
  | create s s1 file_name r _ h ih =>
    intro e he; rw [RSFS_create_table c s s1 file_name r h] at he; exact ih e he
  | opened s s1 file_name access_flag r _ h ih =>
    exact slots_reset_open c s s1 file_name access_flag r ih h
  | read s s1 fd size r out _ h ih => exact slots_reset_read c s s1 fd size r out ih h
  | write s s1 fd size r buf _ h ih => exact slots_reset_write c s s1 fd size r buf ih h
  | fseek s s1 fd offset whence r _ h ih =>
    rw [RSFS_fseek_state c s s1 fd offset whence r h]; exact ih
  | close s s1 fd r _ h ih => exact slots_reset_close s s1 fd r ih h
  | delete oob_data oob_inode s s1 file_name r _ h ih =>
    intro e he
    rw [RSFS_delete_table c oob_data oob_inode s s1 file_name r h] at he
    exact ih e he

/-- A state reached with one `RSFS_init` is a reachable state. -/
theorem reachable_of_once (c : Consts) (s : State) (h : ReachableOnce c s) :
    Reachable c s := by
  induction h with
  | init malloc s h => exact Reachable.init malloc s 0 h
  | create s s1 file_name r _ h ih => exact Reachable.create s s1 file_name r ih h
  | opened s s1 file_name access_flag r _ h ih =>
    exact Reachable.opened s s1 file_name access_flag r ih h
  | read s s1 fd size r out _ h ih => exact Reachable.read s s1 fd size r out ih h
  | write s s1 fd size r buf _ h ih => exact Reachable.write s s1 fd size r buf ih h
  | fseek s s1 fd offset whence r _ h ih => exact Reachable.fseek s s1 fd offset whence r ih h
  | close s s1 fd r _ h ih => exact Reachable.close s s1 fd r ih h

theorem reachable_st_open : Reachable tiny st_open :=
  Reachable.opened st_a st_open "a.txt" 1 0
    (Reachable.create st_init st_a "a.txt" 0
      (Reachable.init (fun _ => some []) st_init 0 (by decide)) (by decide))
    (by decide)

theorem reachable_st_closed : Reachable tiny st_closed :=
  Reachable.close st_open st_closed 0 0 reachable_st_open (by decide)

/-- Where the slots that are not in use are reset, the slot `RSFS_open` takes
starts at position 0. -/
theorem RSFS_open_reset (c : Consts) (s : State) (file_name : String)
    (access_flag : Int) (d : dir_entry) (i : Nat) (e : open_file_entry)
    (hreset : slots_reset s)
    (hname : search_dir file_name s.root_dir = some d)
    (hmode : access_flag = c.RSFS_RDONLY ∨ access_flag = c.RSFS_RDWR)
    (hi : i < c.NUM_OPEN_FILE) (he : s.open_file_table[i]? = some e) (hu : e.used = 0)
    (hlow : ∀ k, k < i → ∀ e1, s.open_file_table[k]? = some e1 → e1.used ≠ 0) :
    RSFS_open c s file_name access_flag =
      some ({ s with open_file_table :=
                s.open_file_table.set i ⟨1, access_flag, 0, some file_name⟩ },
            (i : Int)) := by
  have hp := (hreset e (List.getElem?_mem he) hu).1
  rw [RSFS_open_slot c s file_name access_flag d i e hname hmode hi he hu hlow]
  obtain ⟨u, fl, p, de⟩ := e
  simp only at hp
  subst hp
  rfl

/-- C9: in every reachable state, with a name bound in the directory, a valid
mode and `i` the lowest index below `NUM_OPEN_FILE` whose slot is unused,
`RSFS_open` returns `i`; afterwards slot `i` is used, its access flag is the
given mode, its position is 0 and it references the directory entry of the
name; every other slot and the rest of the state are unchanged. -/
theorem RSFS_open_lowest_unused (c : Consts) (s : State) (file_name : String)
    (access_flag : Int) (d : dir_entry) (i : Nat) (e : open_file_entry)
    (hreach : Reachable c s)
    (hname : search_dir file_name s.root_dir = some d)
    (hmode : access_flag = c.RSFS_RDONLY ∨ access_flag = c.RSFS_RDWR)
    (hi : i < c.NUM_OPEN_FILE) (he : s.open_file_table[i]? = some e) (hu : e.used = 0)
    (hlow : ∀ k, k < i → ∀ e1, s.open_file_table[k]? = some e1 → e1.used ≠ 0) :
    RSFS_open c s file_name access_flag =
      some ({ s with open_file_table :=
                s.open_file_table.set i ⟨1, access_flag, 0, some file_name⟩ },
            (i : Int)) :=
  RSFS_open_reset c s file_name access_flag d i e (slots_reset_of_reachable c s hreach)
    hname hmode hi he hu hlow

theorem RSFS_open_lowest_unused_witness :
    RSFS_open tiny st_closed "a.txt" 0 =
      some ({ st_closed with open_file_table :=
                st_closed.open_file_table.set 0 ⟨1, 0, 0, some "a.txt"⟩ },
            ((0 : Nat) : Int)) :=
  RSFS_open_lowest_unused tiny st_closed "a.txt" 0 ⟨"a.txt", 0⟩ 0 ⟨0, -1, 0, none⟩
    reachable_st_closed (by decide) (by decide) (by decide) (by decide) (by decide)
    (fun k hk => absurd hk (Nat.not_lt_zero k))

/-! ## The shape of the inodes after a second `RSFS_init` -/

theorem reachable_st_hello : Reachable tiny st_hello :=
  Reachable.write st_open st_hello 0 5 5 hello reachable_st_open (by decide)

/-- C13 fails after a second `RSFS_init`: the call leaves descriptor 0 of
`st_hello` in use at position 5 while it resets the inodes, so that after
`RSFS_create("a.txt")` a write of one byte through descriptor 0 binds block 0
to slot 1 of inode 0 and sets the length to 6: slot 1 is bound, slot 0 is
`-1`, and the bytes 0 to 3 of the file lie in no block. -/
theorem RSFS_init_again_breaks_shape :
    RSFS_init tiny (fun _ => some []) st_hello = some (st_again, 0) ∧
    RSFS_create tiny st_again "a.txt" = some (st_again_a, 0) ∧
    RSFS_write tiny st_again_a 0 [120] 1 = some (st_gap, 1) ∧
    Reachable tiny st_gap ∧
    st_gap.inodes[0]? = some ⟨6, [-1, 0, -1]⟩ ∧
    ¬ inode_shape tiny ⟨6, [-1, 0, -1]⟩ := by
  have h1 : RSFS_init tiny (fun _ => some []) st_hello = some (st_again, 0) := by decide
  have h2 : RSFS_create tiny st_again "a.txt" = some (st_again_a, 0) := by decide
  have h3 : RSFS_write tiny st_again_a 0 [120] 1 = some (st_gap, 1) := by decide
  refine ⟨h1, h2, h3, ?_, rfl, ?_⟩
  · exact Reachable.write st_again_a st_gap 0 1 1 [120]
      (Reachable.create st_again st_again_a "a.txt" 0
        (Reachable.again (fun _ => some []) st_hello st_again 0 reachable_st_hello h1) h2) h3
  · intro hs
    obtain ⟨b1, hb1, hne⟩ := hs.2.1 0 1 0 (by decide) (by decide) (by decide)
    have e : b1 = -1 := by
      have : ([-1, 0, -1] : List Int)[0]? = some b1 := hb1
      simpa using this.symm
    exact hne e

/-! ## Concurrent calls of `RSFS_create` -/

theorem getElem?_set_cases {α : Type} (l : List α) (i j : Nat) (a x : α)
    (h : (l.set i a)[j]? = some x) : (j = i ∧ x = a) ∨ (j ≠ i ∧ l[j]? = some x) := by
  by_cases hij : i = j
  · subst hij
    have hlt : i < l.length := by
      have := (List.getElem?_eq_some_iff.1 h).1
      simpa using this
    rw [List.getElem?_set_self hlt] at h
    exact Or.inl ⟨rfl, (Option.some.inj h).symm⟩
  · rw [List.getElem?_set_ne hij] at h
    exact Or.inr ⟨fun e => hij e.symm, h⟩

theorem bind_inode_number_names (file_name : String) (n : Int) (dir : List dir_entry) :
    (bind_inode_number file_name n dir).map (fun e => e.name) =
      dir.map (fun e => e.name) := by
  induction dir with
  | nil => rfl
  | cons e rest ih =>
    unfold bind_inode_number
    split
    · rfl
    · simp only [List.map_cons, ih]

theorem bind_inode_number_append (file_name : String) (n : Int) (old new : List dir_entry)
    (h : ∀ e ∈ old, e.name ≠ file_name) :
    bind_inode_number file_name n (old ++ new) = old ++ bind_inode_number file_name n new := by
  induction old with
  | nil => rfl
  | cons e rest ih =>
    have he : ¬ e.name = file_name := h e (List.mem_cons_self _ _)
    have ih1 := ih (fun x hx => h x (List.mem_cons_of_mem _ hx))
    simp only [List.cons_append, bind_inode_number, he, if_false]
    exact congrArg (fun l => e :: l) ih1

/-- The entries after the store of line 88, in a directory without duplicate
names: the entry of the name holds the inode number, every other entry is as
it was. -/
theorem bind_inode_number_mem (file_name : String) (n : Int) :
    ∀ (dir : List dir_entry), (dir.map (fun e => e.name)).Nodup →
      ∀ e1 ∈ bind_inode_number file_name n dir, ∃ e ∈ dir, e1.name = e.name ∧
        (e.name = file_name → e1.inode_number = n) ∧ (e.name ≠ file_name → e1 = e) := by
  intro dir
  induction dir with
  | nil => intro _ e1 h1; cases h1
  | cons e rest ih =>
    intro hnd e1 h1
    have hnd1 := List.nodup_cons.1 hnd
    unfold bind_inode_number at h1
    by_cases hn : e.name = file_name
    · rw [if_pos hn] at h1
      rcases List.mem_cons.1 h1 with h | h
      · refine ⟨e, List.mem_cons_self _ _, by rw [h], fun _ => by rw [h], fun hne => absurd hn hne⟩
      · refine ⟨e1, List.mem_cons_of_mem _ h, rfl, ?_, fun _ => rfl⟩
        intro h1n
        exfalso
        apply hnd1.1
        show e.name ∈ List.map (fun e => e.name) rest
        rw [hn, ← h1n]
        exact List.mem_map_of_mem (fun e => e.name) h
    · rw [if_neg hn] at h1
      rcases List.mem_cons.1 h1 with h | h
      · exact ⟨e, List.mem_cons_self _ _, by rw [h], fun h2 => absurd h2 hn, fun _ => h⟩
      · obtain ⟨e2, he2, hx⟩ := ih hnd1.2 e1 h
        exact ⟨e2, List.mem_cons_of_mem _ he2, hx⟩

/-- With a free inode `allocate_inode` marks one that was free and returns its
number. -/
theorem allocate_inode_free (c : Consts) (s : State)
    (hbl : s.inode_bitmap.length = c.NUM_INODES) (hil : s.inodes.length = c.NUM_INODES)
    (hfree : 0 < s.inode_bitmap.count 0) :
    ∃ j : Nat, s.inode_bitmap[j]? = some 0 ∧
      allocate_inode c s =
        some ({ s with inode_bitmap := s.inode_bitmap.set j 1,
                       inodes := s.inodes.set j (fresh_inode c) }, (j : Int)) := by
  have hex : ∃ j : Nat, s.inode_bitmap[j]? = some 0 :=
    List.getElem?_of_mem (List.count_pos_iff.1 hfree)
  obtain ⟨j, hj, hmin⟩ : ∃ j : Nat, s.inode_bitmap[j]? = some 0 ∧
      ∀ k, k < j → s.inode_bitmap[k]? ≠ some 0 := by
    classical
    exact ⟨Nat.find hex, Nat.find_spec hex, fun k hk => Nat.find_min hex hk⟩
  have hjl : j < s.inode_bitmap.length := (List.getElem?_eq_some_iff.1 hj).1
  exact ⟨j, hj, allocate_inode_loop_found c s j hj (by omega) c.NUM_INODES 0 (Nat.zero_le _)
    (by omega) (fun k _ hk => hmin k hk)⟩

/-- The four steps of one thread alone are the function `RSFS_create`. -/
theorem RSFS_create_run_alone (c : Consts) (s : State) (file_name : String) :
    (RSFS_create_run c 4 s (create_start file_name)).bind
        (fun r => r.2.result.map (fun v => (r.1, v))) =
      RSFS_create c s file_name := by
  unfold RSFS_create
  simp only [RSFS_create_run, create_start, RSFS_create_step]
  cases hs : search_dir file_name s.root_dir with
  | some d => rfl
  | none =>
    simp only [Option.some_bind]
    cases ha : allocate_inode c { s with root_dir := insert_dir file_name s.root_dir } with
    | none => rfl
    | some res =>
      obtain ⟨s2, k⟩ := res
      simp only [Option.some_bind]
      by_cases hk : k < 0
      · simp only [hk, if_true, Option.some_bind, Option.map_some']
      · simp only [hk, if_false, Option.some_bind, Option.map_some']

theorem create_names_set (ts : List create_call) (i : Nat) (t t1 : create_call)
    (hi : ts[i]? = some t) (hn : t1.file_name = t.file_name)
    (h : ∀ (i j : Nat) (ti tj : create_call), ts[i]? = some ti → ts[j]? = some tj →
      ti.file_name = tj.file_name → i = j) :
    ∀ (a b : Nat) (ta tb : create_call), (ts.set i t1)[a]? = some ta →
      (ts.set i t1)[b]? = some tb → ta.file_name = tb.file_name → a = b := by
  intro a b ta tb ha hb hab
  rcases getElem?_set_cases ts i a t1 ta ha with ⟨ea, xa⟩ | ⟨na, ha1⟩
  · rcases getElem?_set_cases ts i b t1 tb hb with ⟨eb, _⟩ | ⟨_, hb1⟩
    · rw [ea, eb]
    · rw [xa, hn] at hab
      rw [ea]; exact h i b t tb hi hb1 hab
  · rcases getElem?_set_cases ts i b t1 tb hb with ⟨eb, xb⟩ | ⟨_, hb1⟩
    · rw [xb, hn] at hab
      rw [eb]; exact h a i ta t ha1 hi hab
    · exact h a b ta tb ha1 hb1 hab

theorem create_countP_set (p : create_call → Bool) (ts : List create_call) (i : Nat)
    (t t1 : create_call) (hi : ts[i]? = some t) :
    (ts.set i t1).countP p =
      ts.countP p - (if p t then 1 else 0) + (if p t1 then 1 else 0) := by
  obtain ⟨hlt, hget⟩ := List.getElem?_eq_some_iff.1 hi
  rw [List.countP_set p ts i t1 hlt, hget]

/-- A name that no thread past line 76 has is not in the directory. -/
theorem create_inv_absent (c : Consts) (s0 s : State) (ts : List create_call) (i : Nat)
    (t : create_call) (hinv : create_inv c s0 s ts) (hi : ts[i]? = some t)
    (hpc : t.pc < 2) :
    search_dir t.file_name s.root_dir = none ∧
    ∀ new : List dir_entry, s.root_dir = s0.root_dir ++ new →
      t.file_name ∉ new.map (fun e => e.name) := by
  obtain ⟨new, hroot, _, h3, _⟩ := hinv.dir
  have hnot : ∀ e ∈ new, e.name ≠ t.file_name := by
    intro e he hname
    obtain ⟨j, tj, hj, hjn, hjpc, _⟩ := h3 e he
    have e1 := hinv.names j i tj t hj hi (by rw [hjn, hname])
    subst e1
    rw [hi] at hj
    cases hj
    omega
  constructor
  · unfold search_dir
    rw [List.find?_eq_none]
    intro e he
    rw [hroot] at he
    simp only [decide_eq_true_eq]
    rcases List.mem_append.1 he with h | h
    · exact hinv.fresh t (List.getElem?_mem hi) e h
    · exact hnot e h
  · intro new1 hroot1 hmem
    have e1 : new1 = new := List.append_cancel_left (hroot1.symm.trans hroot)
    subst e1
    obtain ⟨e, he, hname⟩ := List.mem_map.1 hmem
    exact hnot e he hname

/-- Line 66 of a thread, between steps of other threads: the name is not in
the directory and the call goes on. -/
theorem create_inv_search (c : Consts) (s0 s : State) (ts : List create_call) (i : Nat)
    (n : String) (k : Int) (hinv : create_inv c s0 s ts)
    (hi : ts[i]? = some ⟨n, 0, k, none⟩) :
    RSFS_create_step c s ⟨n, 0, k, none⟩ = some (s, ⟨n, 1, k, none⟩) ∧
    create_inv c s0 s (ts.set i ⟨n, 1, k, none⟩) := by
  have habs := (create_inv_absent c s0 s ts i _ hinv hi (by show (0 : Nat) < 2; omega)).1
  have hmem := List.getElem?_mem hi
  constructor
  · simp only [RSFS_create_step, habs]
  · refine ⟨hinv.bitmap_len, hinv.inodes_len,
      create_names_set ts i _ _ hi rfl hinv.names, ?_, ?_, ?_, ?_, ?_, hinv.zero_old, ?_⟩
    · intro x hx
      rcases List.mem_or_eq_of_mem_set hx with h | h
      · exact hinv.fresh x h
      · rw [h]; exact hinv.fresh ⟨n, 0, k, none⟩ hmem
    · intro x hx
      rcases List.mem_or_eq_of_mem_set hx with h | h
      · exact hinv.pcs x h
      · rw [h]; exact ⟨fun _ => rfl, fun h4 => by dsimp only at h4; omega⟩
    · obtain ⟨new, hroot, hnd, h3, h4⟩ := hinv.dir
      refine ⟨new, hroot, hnd, ?_, ?_⟩
      · intro e he
        obtain ⟨j, tj, hj, hjn, hjpc, hj4⟩ := h3 e he
        have hji : j ≠ i := by
          intro e1
          rw [e1, hi] at hj
          cases hj
          dsimp only at hjpc
          omega
        exact ⟨j, tj, by rw [List.getElem?_set_ne (Ne.symm hji)]; exact hj, hjn, hjpc, hj4⟩
      · intro x hx hpc
        rcases List.mem_or_eq_of_mem_set hx with h | h
        · exact h4 x h hpc
        · rw [h] at hpc; dsimp only at hpc; omega
    · intro x hx hpc
      rcases List.mem_or_eq_of_mem_set hx with h | h
      · exact hinv.alloc x h hpc
      · rw [h] at hpc; dsimp only at hpc; omega
    · intro a b ta tb ha hb hpa hpb hab
      rcases getElem?_set_cases ts i a _ ta ha with ⟨_, xa⟩ | ⟨_, ha1⟩
      · rw [xa] at hpa; dsimp only at hpa; omega
      · rcases getElem?_set_cases ts i b _ tb hb with ⟨_, xb⟩ | ⟨_, hb1⟩
        · rw [xb] at hpb; dsimp only at hpb; omega
        · exact hinv.distinct a b ta tb ha1 hb1 hpa hpb hab
    · rw [create_countP_set _ ts i _ _ hi]
      have := hinv.free
      have e0 : decide ((⟨n, 0, k, none⟩ : create_call).pc < 3) = true := rfl
      have e1 : decide ((⟨n, 1, k, none⟩ : create_call).pc < 3) = true := rfl
      simp only [e0, e1, if_true]
      have hpos : 0 < ts.countP (fun t => decide (t.pc < 3)) :=
        List.countP_pos_iff.2 ⟨_, hmem, e0⟩
      omega

/-- Line 76 of a thread, between steps of other threads: its entry goes to the
end of the directory. -/
theorem create_inv_insert (c : Consts) (s0 s : State) (ts : List create_call) (i : Nat)
    (n : String) (k : Int) (hinv : create_inv c s0 s ts)
    (hi : ts[i]? = some ⟨n, 1, k, none⟩) :
    RSFS_create_step c s ⟨n, 1, k, none⟩ =
      some ({ s with root_dir := insert_dir n s.root_dir }, ⟨n, 2, k, none⟩) ∧
    create_inv c s0 { s with root_dir := insert_dir n s.root_dir }
      (ts.set i ⟨n, 2, k, none⟩) := by
  have habs := (create_inv_absent c s0 s ts i _ hinv hi (by show (1 : Nat) < 2; omega)).2
  have hmem := List.getElem?_mem hi
  constructor
  · simp only [RSFS_create_step]
  · refine ⟨hinv.bitmap_len, hinv.inodes_len,
      create_names_set ts i _ _ hi rfl hinv.names, ?_, ?_, ?_, ?_, ?_, hinv.zero_old, ?_⟩
    · intro x hx
      rcases List.mem_or_eq_of_mem_set hx with h | h
      · exact hinv.fresh x h
      · rw [h]; exact hinv.fresh ⟨n, 1, k, none⟩ hmem
    · intro x hx
      rcases List.mem_or_eq_of_mem_set hx with h | h
      · exact hinv.pcs x h
      · rw [h]; exact ⟨fun _ => rfl, fun h4 => by dsimp only at h4; omega⟩
    · obtain ⟨new, hroot, hnd, h3, h4⟩ := hinv.dir
      have hnew := habs new hroot
      refine ⟨new ++ [⟨n, -1⟩], ?_, ?_, ?_, ?_⟩
      · show insert_dir n s.root_dir = _
        unfold insert_dir
        rw [hroot, List.append_assoc]
      · rw [List.map_append]
        refine List.Nodup.append hnd (List.nodup_singleton _) ?_
        intro a ha hb
        rw [List.map_singleton, List.mem_singleton] at hb
        rw [hb] at ha
        exact hnew ha
      · intro e he
        rcases List.mem_append.1 he with h | h
        · obtain ⟨j, tj, hj, hjn, hjpc, hj4⟩ := h3 e h
          have hji : j ≠ i := by
            intro e1
            rw [e1, hi] at hj
            cases hj
            dsimp only at hjpc
            omega
          exact ⟨j, tj, by rw [List.getElem?_set_ne (Ne.symm hji)]; exact hj, hjn, hjpc, hj4⟩
        · rw [List.mem_singleton] at h
          refine ⟨i, ⟨n, 2, k, none⟩,
            List.getElem?_set_self (List.getElem?_eq_some_iff.1 hi).1, by rw [h], le_refl 2, ?_⟩
          intro h4; dsimp only at h4; omega
      · intro x hx hpc
        rw [List.map_append]
        rcases List.mem_or_eq_of_mem_set hx with h | h
        · exact List.mem_append_left _ (h4 x h hpc)
        · rw [h]
          exact List.mem_append_right _ (List.mem_singleton.2 rfl)
    · intro x hx hpc
      rcases List.mem_or_eq_of_mem_set hx with h | h
      · exact hinv.alloc x h hpc
      · rw [h] at hpc; dsimp only at hpc; omega
    · intro a b ta tb ha hb hpa hpb hab
      rcases getElem?_set_cases ts i a _ ta ha with ⟨_, xa⟩ | ⟨_, ha1⟩
      · rw [xa] at hpa; dsimp only at hpa; omega
      · rcases getElem?_set_cases ts i b _ tb hb with ⟨_, xb⟩ | ⟨_, hb1⟩
        · rw [xb] at hpb; dsimp only at hpb; omega
        · exact hinv.distinct a b ta tb ha1 hb1 hpa hpb hab
    · rw [create_countP_set _ ts i _ _ hi]
      have := hinv.free
      have e0 : decide ((⟨n, 1, k, none⟩ : create_call).pc < 3) = true := rfl
      have e1 : decide ((⟨n, 2, k, none⟩ : create_call).pc < 3) = true := rfl
      simp only [e0, e1, if_true]
      have hpos : 0 < ts.countP (fun t => decide (t.pc < 3)) :=
        List.countP_pos_iff.2 ⟨_, hmem, e0⟩
      show _ ≤ s.inode_bitmap.count 0
      omega

/-- Line 80 of a thread, between steps of other threads: there is a free
inode, and the one the thread gets is the inode of no other thread. -/
theorem create_inv_allocate (c : Consts) (s0 s : State) (ts : List create_call) (i : Nat)
    (n : String) (k : Int) (hinv : create_inv c s0 s ts)
    (hi : ts[i]? = some ⟨n, 2, k, none⟩) :
    ∃ j : Nat,
      RSFS_create_step c s ⟨n, 2, k, none⟩ =
        some ({ s with inode_bitmap := s.inode_bitmap.set j 1,
                       inodes := s.inodes.set j (fresh_inode c) }, ⟨n, 3, (j : Int), none⟩) ∧
      create_inv c s0 { s with inode_bitmap := s.inode_bitmap.set j 1,
                               inodes := s.inodes.set j (fresh_inode c) }
        (ts.set i ⟨n, 3, (j : Int), none⟩) := by
  have hmem := List.getElem?_mem hi
  have e0 : decide ((⟨n, 2, k, none⟩ : create_call).pc < 3) = true := rfl
  have hpos : 0 < ts.countP (fun t => decide (t.pc < 3)) :=
    List.countP_pos_iff.2 ⟨_, hmem, e0⟩
  have hfree := hinv.free
  obtain ⟨j, hj, halloc⟩ := allocate_inode_free c s hinv.bitmap_len hinv.inodes_len
    (by omega)
  have hjl : j < s.inode_bitmap.length := (List.getElem?_eq_some_iff.1 hj).1
  have hother : ∀ x ∈ ts, 3 ≤ x.pc → x.inode_number ≠ (j : Int) := by
    intro x hx hpc hxj
    obtain ⟨k1, hk1, hb1, _⟩ := hinv.alloc x hx hpc
    rw [hk1] at hxj
    have e1 : k1 = j := by omega
    rw [e1, hj] at hb1
    cases hb1
  refine ⟨j, ?_, ?_⟩
  · have hneg : ¬ ((j : Int) < 0) := by omega
    simp only [RSFS_create_step, halloc, hneg, if_false]
  · refine ⟨by simp [hinv.bitmap_len], by simp [hinv.inodes_len],
      create_names_set ts i _ _ hi rfl hinv.names, ?_, ?_, ?_, ?_, ?_, ?_, ?_⟩
    · intro x hx
      rcases List.mem_or_eq_of_mem_set hx with h | h
      · exact hinv.fresh x h
      · rw [h]; exact hinv.fresh ⟨n, 2, k, none⟩ hmem
    · intro x hx
      rcases List.mem_or_eq_of_mem_set hx with h | h
      · exact hinv.pcs x h
      · rw [h]; exact ⟨fun _ => rfl, fun h4 => by dsimp only at h4; omega⟩
    · obtain ⟨new, hroot, hnd, h3, h4⟩ := hinv.dir
      refine ⟨new, hroot, hnd, ?_, ?_⟩
      · intro e he
        obtain ⟨j1, tj, hj1, hjn, hjpc, hj4⟩ := h3 e he
        by_cases hji : j1 = i
        · rw [hji, hi] at hj1
          cases hj1
          refine ⟨i, ⟨n, 3, (j : Int), none⟩,
            List.getElem?_set_self (List.getElem?_eq_some_iff.1 hi).1, hjn, ?_, ?_⟩
          · show 2 ≤ 3
            omega
          · intro h4; dsimp only at h4; omega
        · exact ⟨j1, tj, by rw [List.getElem?_set_ne (Ne.symm hji)]; exact hj1, hjn, hjpc, hj4⟩
      · intro x hx hpc
        rcases List.mem_or_eq_of_mem_set hx with h | h
        · exact h4 x h hpc
        · rw [h]
          exact h4 ⟨n, 2, k, none⟩ hmem (le_refl 2)
    · intro x hx hpc
      rcases List.mem_or_eq_of_mem_set hx with h | h
      · obtain ⟨k1, hk1, hb1, hz1⟩ := hinv.alloc x h hpc
        refine ⟨k1, hk1, ?_, hz1⟩
        show (s.inode_bitmap.set j 1)[k1]? = some 1
        by_cases hjk : j = k1
        · rw [← hjk]; exact List.getElem?_set_self hjl
        · rw [List.getElem?_set_ne hjk]; exact hb1
      · rw [h]
        exact ⟨j, rfl, List.getElem?_set_self hjl, hinv.zero_old j hj⟩
    · intro a b ta tb ha hb hpa hpb hab
      rcases getElem?_set_cases ts i a _ ta ha with ⟨ea, xa⟩ | ⟨_, ha1⟩
      · rcases getElem?_set_cases ts i b _ tb hb with ⟨eb, _⟩ | ⟨_, hb1⟩
        · rw [ea, eb]
        · rw [xa] at hab
          exact absurd hab.symm (hother tb (List.getElem?_mem hb1) hpb)
      · rcases getElem?_set_cases ts i b _ tb hb with ⟨_, xb⟩ | ⟨_, hb1⟩
        · rw [xb] at hab
          exact absurd hab (hother ta (List.getElem?_mem ha1) hpa)
        · exact hinv.distinct a b ta tb ha1 hb1 hpa hpb hab
    · intro k1 hk1
      have hk2 : (s.inode_bitmap.set j 1)[k1]? = some 0 := hk1
      by_cases hjk : j = k1
      · rw [← hjk, List.getElem?_set_self hjl] at hk2
        cases hk2
      · rw [List.getElem?_set_ne hjk] at hk2
        exact hinv.zero_old k1 hk2
    · rw [create_countP_set _ ts i _ _ hi]
      have e1 : decide ((⟨n, 3, (j : Int), none⟩ : create_call).pc < 3) = false := rfl
      simp only [e0, e1, if_true]
      have hcount := count_zero_set_one s.inode_bitmap j hj
      show _ ≤ (s.inode_bitmap.set j 1).count 0
      simp only [Bool.false_eq_true, if_false]
      omega

/-- Line 88 of a thread, between steps of other threads: the inode number goes
into the entry of the thread and into no other, and the call returns 0. -/
theorem create_inv_store (c : Consts) (s0 s : State) (ts : List create_call) (i : Nat)
    (n : String) (k : Int) (hinv : create_inv c s0 s ts)
    (hi : ts[i]? = some ⟨n, 3, k, none⟩) :
    RSFS_create_step c s ⟨n, 3, k, none⟩ =
      some ({ s with root_dir := bind_inode_number n k s.root_dir }, ⟨n, 4, k, some 0⟩) ∧
    create_inv c s0 { s with root_dir := bind_inode_number n k s.root_dir }
      (ts.set i ⟨n, 4, k, some 0⟩) := by
  have hmem := List.getElem?_mem hi
  constructor
  · simp only [RSFS_create_step]
  · refine ⟨hinv.bitmap_len, hinv.inodes_len,
      create_names_set ts i _ _ hi rfl hinv.names, ?_, ?_, ?_, ?_, ?_, hinv.zero_old, ?_⟩
    · intro x hx
      rcases List.mem_or_eq_of_mem_set hx with h | h
      · exact hinv.fresh x h
      · rw [h]; exact hinv.fresh ⟨n, 3, k, none⟩ hmem
    · intro x hx
      rcases List.mem_or_eq_of_mem_set hx with h | h
      · exact hinv.pcs x h
      · rw [h]
        exact ⟨fun h4 => by dsimp only at h4; omega, fun _ => ⟨rfl, rfl⟩⟩
    · obtain ⟨new, hroot, hnd, h3, h4⟩ := hinv.dir
      refine ⟨bind_inode_number n k new, ?_, ?_, ?_, ?_⟩
      · show bind_inode_number n k s.root_dir = _
        rw [hroot]
        exact bind_inode_number_append n k _ _ (hinv.fresh ⟨n, 3, k, none⟩ hmem)
      · rw [bind_inode_number_names]; exact hnd
      · intro e1 he1
        obtain ⟨e, he, hname, hbound, hsame⟩ := bind_inode_number_mem n k new hnd e1 he1
        obtain ⟨j, tj, hj, hjn, hjpc, hj4⟩ := h3 e he
        by_cases hji : j = i
        · rw [hji, hi] at hj
          cases hj
          refine ⟨i, ⟨n, 4, k, some 0⟩,
            List.getElem?_set_self (List.getElem?_eq_some_iff.1 hi).1, ?_, ?_, ?_⟩
          · rw [hname]; exact hjn
          · show 2 ≤ 4
            omega
          · intro _
            exact hbound hjn.symm
        · have hne : e.name ≠ n := by
            intro hen
            exact hji (hinv.names j i tj _ hj hi (by rw [hjn, hen]))
          rw [hsame hne]
          exact ⟨j, tj, by rw [List.getElem?_set_ne (Ne.symm hji)]; exact hj, hjn, hjpc, hj4⟩
      · intro x hx hpc
        rw [bind_inode_number_names]
        rcases List.mem_or_eq_of_mem_set hx with h | h
        · exact h4 x h hpc
        · rw [h]
          exact h4 ⟨n, 3, k, none⟩ hmem (by show 2 ≤ 3; omega)
    · intro x hx hpc
      rcases List.mem_or_eq_of_mem_set hx with h | h
      · exact hinv.alloc x h hpc
      · rw [h]
        exact hinv.alloc ⟨n, 3, k, none⟩ hmem (le_refl 3)
    · intro a b ta tb ha hb hpa hpb hab
      rcases getElem?_set_cases ts i a _ ta ha with ⟨ea, xa⟩ | ⟨_, ha1⟩
      · rcases getElem?_set_cases ts i b _ tb hb with ⟨eb, _⟩ | ⟨_, hb1⟩
        · rw [ea, eb]
        · rw [xa] at hab
          rw [ea]
          exact hinv.distinct i b _ tb hi hb1 (le_refl 3) hpb hab
      · rcases getElem?_set_cases ts i b _ tb hb with ⟨eb, xb⟩ | ⟨_, hb1⟩
        · rw [xb] at hab
          rw [eb]
          exact hinv.distinct a i ta _ ha1 hi hpa (le_refl 3) hab
        · exact hinv.distinct a b ta tb ha1 hb1 hpa hpb hab
    · rw [create_countP_set _ ts i _ _ hi]
      have e0 : decide ((⟨n, 3, k, none⟩ : create_call).pc < 3) = false := rfl
      have e1 : decide ((⟨n, 4, k, some 0⟩ : create_call).pc < 3) = false := rfl
      simp only [e0, e1, Bool.false_eq_true, if_false]
      exact hinv.free

/-- One step of a thread whose call has not returned is defined, takes the
call to its next statement and keeps the invariant. -/
theorem create_inv_step (c : Consts) (s0 s : State) (ts : List create_call) (i : Nat)
    (t : create_call) (hinv : create_inv c s0 s ts) (hi : ts[i]? = some t)
    (hpc : t.pc < 4) :
    ∃ (s1 : State) (t1 : create_call), RSFS_create_step c s t = some (s1, t1) ∧
      t1.pc = t.pc + 1 ∧ t1.file_name = t.file_name ∧ create_inv c s0 s1 (ts.set i t1) := by
  have hres := (hinv.pcs t (List.getElem?_mem hi)).1 hpc
  obtain ⟨n, pc, k, res⟩ := t
  dsimp only at hres hpc
  subst hres
  have hcases : pc = 0 ∨ pc = 1 ∨ pc = 2 ∨ pc = 3 := by omega
  rcases hcases with e | e | e | e
  · subst e
    obtain ⟨h1, h2⟩ := create_inv_search c s0 s ts i n k hinv hi
    exact ⟨_, _, h1, rfl, rfl, h2⟩
  · subst e
    obtain ⟨h1, h2⟩ := create_inv_insert c s0 s ts i n k hinv hi
    exact ⟨_, _, h1, rfl, rfl, h2⟩
  · subst e
    obtain ⟨j, h1, h2⟩ := create_inv_allocate c s0 s ts i n k hinv hi
    exact ⟨_, _, h1, rfl, rfl, h2⟩
  · subst e
    obtain ⟨h1, h2⟩ := create_inv_store c s0 s ts i n k hinv hi
    exact ⟨_, _, h1, rfl, rfl, h2⟩

/-- Every schedule that gives each thread its four steps runs to the end: no
step is undefined, every call has then run its four statements, and the
invariant holds. -/
theorem create_inv_schedule (c : Consts) (s0 : State) :
    ∀ (sched : List Nat) (s : State) (ts : List create_call),
      create_inv c s0 s ts →
      (∀ (i : Nat) (t : create_call), ts[i]? = some t → t.pc + sched.count i = 4) →
      (∀ i ∈ sched, i < ts.length) →
      ∃ (s1 : State) (ts1 : List create_call),
        RSFS_create_threads c sched s ts = some (s1, ts1) ∧ create_inv c s0 s1 ts1 ∧
        (∀ t ∈ ts1, t.pc = 4) ∧
        ts1.map (fun t => t.file_name) = ts.map (fun t => t.file_name) := by
  intro sched
  induction sched with
  | nil =>
    intro s ts hinv hcount _
    refine ⟨s, ts, rfl, hinv, ?_, rfl⟩
    intro t ht
    obtain ⟨i, hi⟩ := List.getElem?_of_mem ht
    have := hcount i t hi
    simpa using this
  | cons i rest ih =>
    intro s ts hinv hcount hvalid
    have hil : i < ts.length := hvalid i (List.mem_cons_self _ _)
    have hi : ts[i]? = some ts[i] := List.getElem?_eq_getElem hil
    have hc := hcount i ts[i] hi
    rw [List.count_cons_self] at hc
    obtain ⟨s1, t1, hstep, hpc1, hname1, hinv1⟩ :=
      create_inv_step c s0 s ts i ts[i] hinv hi (by omega)
    obtain ⟨s2, ts2, hrun, hinv2, hdone, hnames⟩ := ih s1 (ts.set i t1) hinv1
      (by
        intro j x hx
        rcases getElem?_set_cases ts i j t1 x hx with ⟨ej, ex⟩ | ⟨nj, hx1⟩
        · rw [ej, ex, hpc1]; omega
        · have := hcount j x hx1
          rw [List.count_cons_of_ne nj] at this
          exact this)
      (by
        intro j hj
        rw [List.length_set]
        exact hvalid j (List.mem_cons_of_mem _ hj))
    refine ⟨s2, ts2, ?_, hinv2, hdone, ?_⟩
    · simp only [RSFS_create_threads, hi, hstep]
      exact hrun
    · rw [hnames]
      apply List.ext_getElem?
      intro j
      rw [List.getElem?_map, List.getElem?_map]
      by_cases hij : i = j
      · subst hij
        rw [List.getElem?_set_self hil, hi]
        simp only [Option.map_some', hname1]
      · rw [List.getElem?_set_ne hij]

/-- Before the first step of any thread the invariant holds. -/
theorem create_inv_start (c : Consts) (s : State) (names : List String)
    (hwf : wf c s) (hnd : names.Nodup)
    (hnew : ∀ n ∈ names, search_dir n s.root_dir = none)
    (hfree : names.length ≤ s.inode_bitmap.count 0) :
    create_inv c s s (names.map create_start) := by
  obtain ⟨_, _, _, hbl, hil, _, _⟩ := hwf
  have hstart : ∀ t ∈ names.map create_start, t.pc = 0 ∧ t.result = none ∧
      t.file_name ∈ names := by
    intro t ht
    obtain ⟨n, hn, e⟩ := List.mem_map.1 ht
    rw [← e]
    exact ⟨rfl, rfl, hn⟩
  refine ⟨hbl, hil, ?_, ?_, ?_, ?_, ?_, ?_, fun _ h => h, ?_⟩
  · intro i j ti tj hi hj hij
    rw [List.getElem?_map] at hi hj
    obtain ⟨a, ha, ea⟩ := Option.map_eq_some'.1 hi
    obtain ⟨b, hb, eb⟩ := Option.map_eq_some'.1 hj
    have hab : a = b := by
      rw [← ea, ← eb] at hij
      exact hij
    rw [hab] at ha
    exact List.getElem?_inj (List.getElem?_eq_some_iff.1 ha).1 hnd (ha.trans hb.symm)
  · intro t ht e he
    have habs := hnew t.file_name (hstart t ht).2.2
    unfold search_dir at habs
    rw [List.find?_eq_none] at habs
    simpa using habs e he
  · intro t ht
    obtain ⟨h0, hr, _⟩ := hstart t ht
    exact ⟨fun _ => hr, fun h4 => by omega⟩
  · refine ⟨[], (List.append_nil _).symm, List.nodup_nil, ?_, ?_⟩
    · intro e he
      cases he
    · intro t ht h2
      have := (hstart t ht).1
      omega
  · intro t ht h3
    have := (hstart t ht).1
    omega
  · intro i j ti tj hi _ h3
    have := (hstart ti (List.getElem?_mem hi)).1
    omega
  · have h1 : (names.map create_start).countP (fun t => decide (t.pc < 3)) ≤
        (names.map create_start).length := List.countP_le_length _
    rw [List.length_map] at h1
    omega

/-- C14: threads that call `RSFS_create` with pairwise distinct names that are
not in the directory, no more of them than there are free inodes, in a
well-formed state, each statement of the function being one atomic step.
Under every schedule that interleaves the four steps of every thread, the run
is defined to its end and every call returns 0; the directory is the old one
followed by one entry for each of the names, in the order of the insertions;
the inode numbers of the new entries are pairwise distinct, and each was
free before and is marked used after. -/
theorem RSFS_create_concurrent (c : Consts) (s : State) (names : List String)
    (sched : List Nat) (hwf : wf c s) (hnd : names.Nodup)
    (hnew : ∀ n ∈ names, search_dir n s.root_dir = none)
    (hfree : names.length ≤ s.inode_bitmap.count 0)
    (hsched : ∀ i, i < names.length → sched.count i = 4)
    (hvalid : ∀ i ∈ sched, i < names.length) :
    ∃ (s1 : State) (ts : List create_call) (new : List dir_entry),
      RSFS_create_threads c sched s (names.map create_start) = some (s1, ts) ∧
      ts.map (fun t => t.file_name) = names ∧
      (∀ t ∈ ts, t.result = some 0) ∧
      s1.root_dir = s.root_dir ++ new ∧
      (new.map (fun e => e.name)).Perm names ∧
      (new.map (fun e => e.inode_number)).Nodup ∧
      (∀ e ∈ new, ∃ k : Nat, e.inode_number = (k : Int) ∧
        s.inode_bitmap[k]? = some 0 ∧ s1.inode_bitmap[k]? = some 1) := by
  have hinv0 := create_inv_start c s names hwf hnd hnew hfree
  obtain ⟨s1, ts, hrun, hinv, hdone, hnames⟩ :=
    create_inv_schedule c s sched s (names.map create_start) hinv0
      (by
        intro i t hi
        rw [List.getElem?_map] at hi
        obtain ⟨a, ha, ea⟩ := Option.map_eq_some'.1 hi
        rw [← ea, hsched i (List.getElem?_eq_some_iff.1 ha).1]
        rfl)
      (by
        intro i hi
        rw [List.length_map]
        exact hvalid i hi)
  have hnames1 : ts.map (fun t => t.file_name) = names := by
    rw [hnames, List.map_map]
    exact List.map_id _
  obtain ⟨new, hroot, hndn, h3, h4⟩ := hinv.dir
  refine ⟨s1, ts, new, hrun, hnames1, ?_, hroot, ?_, ?_, ?_⟩
  · intro t ht
    exact ((hinv.pcs t ht).2 (by rw [hdone t ht])).2
  · rw [List.perm_ext_iff_of_nodup hndn hnd]
    intro a
    constructor
    · intro ha
      obtain ⟨e, he, hea⟩ := List.mem_map.1 ha
      obtain ⟨j, tj, hj, hjn, _, _⟩ := h3 e he
      rw [← hnames1, ← hea]
      exact List.mem_map.2 ⟨tj, List.getElem?_mem hj, hjn⟩
    · intro ha
      rw [← hnames1] at ha
      obtain ⟨t, ht, hta⟩ := List.mem_map.1 ha
      have := h4 t ht (by rw [hdone t ht]; decide)
      rw [← hta]
      exact this
  · refine List.Nodup.map_on ?_ (List.Nodup.of_map _ hndn)
    intro x hx y hy hxy
    obtain ⟨jx, tx, hjx, hnx, _, hx4⟩ := h3 x hx
    obtain ⟨jy, ty, hjy, hny, _, hy4⟩ := h3 y hy
    have hpx := hdone tx (List.getElem?_mem hjx)
    have hpy := hdone ty (List.getElem?_mem hjy)
    have hxy1 : tx.inode_number = ty.inode_number := by
      rw [← hx4 hpx, ← hy4 hpy]
      exact hxy
    have hj := hinv.distinct jx jy tx ty hjx hjy (by omega) (by omega) hxy1
    rw [hj, hjy] at hjx
    have ht : ty = tx := Option.some.inj hjx
    refine List.inj_on_of_nodup_map hndn hx hy ?_
    show x.name = y.name
    rw [← hnx, ← hny, ht]
  · intro e he
    obtain ⟨j, tj, hj, _, _, hj4⟩ := h3 e he
    have hp := hdone tj (List.getElem?_mem hj)
    obtain ⟨k, hk, hb1, hb0⟩ := hinv.alloc tj (List.getElem?_mem hj) (by omega)
    exact ⟨k, by rw [hj4 hp]; exact hk, hb0, hb1⟩

theorem RSFS_create_concurrent_witness :
    ∃ (s1 : State) (ts : List create_call) (new : List dir_entry),
      RSFS_create_threads tiny [0, 1, 0, 1, 1, 0, 0, 1] st_init
        (["x", "y"].map create_start) = some (s1, ts) ∧
      ts.map (fun t => t.file_name) = ["x", "y"] ∧
      (∀ t ∈ ts, t.result = some 0) ∧
      s1.root_dir = st_init.root_dir ++ new ∧
      (new.map (fun e => e.name)).Perm ["x", "y"] ∧
      (new.map (fun e => e.inode_number)).Nodup ∧
      (∀ e ∈ new, ∃ k : Nat, e.inode_number = (k : Int) ∧
        st_init.inode_bitmap[k]? = some 0 ∧ s1.inode_bitmap[k]? = some 1) :=
  RSFS_create_concurrent tiny st_init ["x", "y"] [0, 1, 0, 1, 1, 0, 0, 1] (by decide)
    (by decide) (by decide) (by decide) (by decide) (by decide)

/-- One schedule of two threads, run: thread 1 allocates first and gets inode
0, thread 0 inserts first and gets inode 1. -/
theorem RSFS_create_threads_run :
    RSFS_create_threads tiny [0, 1, 0, 1, 1, 0, 0, 1] st_init
        (["x", "y"].map create_start) =
      some ({ st_init with
              inode_bitmap := [1, 1], root_dir := [⟨"x", 1⟩, ⟨"y", 0⟩] },
        [⟨"x", 4, 1, some 0⟩, ⟨"y", 4, 0, some 0⟩]) := by
  decide

end RSFS
